import Mathlib

/-!
# jlib: the local version manager

A shallow embedding of `utils.go`, `discoapi.go` and `version_manager.go`.

Modelling boundary.
* A Go `string` is a list of bytes (`GoString`).
* Paths follow the Unix rules of `path` and `path/filepath` (separator `/`).
* The file system is a finite map from resolved absolute paths to nodes.  Paths
  are resolved lexically against the working directory; symbolic links and
  permission bits are not represented.  The kernel resolves a name element by
  element, so the two agree when no `..` element of the name follows a missing
  directory.  Every name the program builds with `filepath.Join` is clean; the
  names it passes on as given are the destination of `unzip` and the install
  root.  For such a name with a `..` element after a missing directory
  (`/data/x/../jlib` with `/data/x` missing) `os.MkdirAll` also creates the
  directory the `..` steps back from and `os.ReadDir` fails, which the model
  does not show; statements about what `os.MkdirAll(dest)` creates are made
  for names without a `..` element.
* The network (catalog search, redirect lookup, archive download), the scratch
  directory, the working directory and the paths on which a write fails are
  fields of `World`.
* `encoding/json` is modelled on JSON values: a file that holds a JSON document
  holds the value itself, and the text layer (printing and parsing a value) is
  taken to be the library's.  The key of an object is matched to the tag of a
  field as the decoder does, exactly or up to the case folding of `foldKey`.
* `mapstructure.Decode` is modelled on the list of the tagged fields of the
  filter, and the query of a search on the `url.Values` built from it; the
  catalog answers as a function of the filter.
* Pointer arguments of the exported methods (the filter of `Install`) are taken
  to be non-nil.  The data of an archive entry that can be opened is taken to be
  readable, so `io.Copy` fails on the side of the written file only, and
  closing a file or an archive is taken to succeed, so the deferred `Close`
  calls of `unzip` never panic.  (On corrupt entry data the read fails, the
  deferred `rc.Close()` returns that error and `unzip` panics; this outcome is
  outside the model.)
-/

namespace Jlib

/-! ## Go strings -/

/-- A Go string: a sequence of bytes. -/
abbrev GoString := List Nat

/-- The bytes of an ASCII literal. -/
def ascii (s : String) : GoString := s.data.map Char.toNat

/-- The function `strings.HasPrefix`. -/
def HasPrefix (s pre : GoString) : Bool := pre.isPrefixOf s

/-- The function `strings.HasSuffix`. -/
def HasSuffix (s suf : GoString) : Bool := suf.isSuffixOf s

/-- The function `strings.TrimSuffix`. -/
def TrimSuffix (s suf : GoString) : GoString :=
  if HasSuffix s suf then s.take (s.length - suf.length) else s

/-- The function `strings.Join(elems, "/")`. -/
def joinSlash : List GoString → GoString
  | [] => []
  | [c] => c
  | c :: d :: cs => c ++ 47 :: joinSlash (d :: cs)

/-- The function `strings.Join(elems, ",")`. -/
def joinComma : List GoString → GoString
  | [] => []
  | [c] => c
  | c :: d :: cs => c ++ 44 :: joinComma (d :: cs)

/-! ## Package `path` and `path/filepath` (Unix) -/

/-- The elements of a path between its separators (`/` is byte 47). -/
def splitPath : GoString → List GoString
  | [] => [[]]
  | c :: cs =>
    if c = 47 then [] :: splitPath cs
    else (c :: (splitPath cs).headD []) :: (splitPath cs).tail

/-- One step of the loop of `Clean`: `st` is the output buffer, seen as the
list of elements written so far, and `c` is the element read. -/
def cleanStep (rooted : Bool) (st : List GoString) (c : GoString) : List GoString :=
  if c = [] ∨ c = [46] then st
  else if c = [46, 46] then
    if rooted then st.dropLast
    else
      match st.getLast? with
      | none => [[46, 46]]
      | some l => if l = [46, 46] then st ++ [[46, 46]] else st.dropLast
  else st ++ [c]

/-- The output buffer of `Clean` as a string. -/
def render (rooted : Bool) (comps : List GoString) : GoString :=
  if rooted then 47 :: joinSlash comps
  else if comps = [] then [46] else joinSlash comps

/-- The function `filepath.Clean` (and `path.Clean`). -/
def Clean (p : GoString) : GoString :=
  if p = [] then [46]
  else
    let rooted := p.head? = some 47
    render rooted ((splitPath p).foldl (cleanStep rooted) [])

/-- The function `filepath.Join` (and `path.Join`): the first non-empty element
and those after it, joined by `/` and cleaned. -/
def Join (elem : List GoString) : GoString :=
  match elem.dropWhile (fun e => decide (e = [])) with
  | [] => []
  | es => Clean (joinSlash es)

/-- The function `path.Base`. -/
def Base (p : GoString) : GoString :=
  if p = [] then [46]
  else
    match p.reverse.dropWhile (fun c => decide (c = 47)) with
    | [] => [47]
    | q => (q.takeWhile (fun c => decide (c ≠ 47))).reverse

/-- The function `filepath.Dir`: the path up to its last separator, cleaned. -/
def Dir (p : GoString) : GoString :=
  Clean (p.reverse.dropWhile (fun c => decide (c ≠ 47))).reverse

/-- The elements `Clean` keeps of a path. -/
def cleanElems (p : GoString) : List GoString :=
  (splitPath p).foldl (cleanStep (decide (p.head? = some 47))) []

/-- A resolved absolute path: its elements from the root. -/
abbrev Path := List GoString

/-- Lexical resolution of a path string against the working directory. -/
def resolve (cwd : Path) (p : GoString) : Path :=
  (splitPath p).foldl (cleanStep true) (if p.head? = some 47 then [] else cwd)

/-! ## UTF-8 (package `unicode/utf8`) -/

/-- Whether `lo ≤ b ≤ hi`. -/
def inRange (lo hi b : Nat) : Bool := decide (lo ≤ b) && decide (b ≤ hi)

/-- Whether the first `k` bytes exist and are continuation bytes (`0x80..0xBF`). -/
def contBytes : Nat → GoString → Bool
  | 0, _ => true
  | _ + 1, [] => false
  | k + 1, b :: r => inRange 0x80 0xBF b && contBytes k r

/-- The size `n + 1` of an encoding whose first byte asks for `n` more bytes,
the first of them within `lo..hi`; `0` when the bytes that follow do not fit. -/
def utf8Tail (n lo hi : Nat) : GoString → Nat
  | [] => 0
  | b1 :: r => if inRange lo hi b1 && contBytes (n - 1) r then n + 1 else 0

/-- The table `first` and the accept ranges of `unicode/utf8` for a first byte
above `0x7F`: the number of bytes that follow, and the range of the first of
them; `none` for a byte that starts no encoding. -/
def utf8First (b0 : Nat) : Option (Nat × Nat × Nat) :=
  if inRange 0xC2 0xDF b0 then some (1, 0x80, 0xBF)
  else if b0 = 0xE0 then some (2, 0xA0, 0xBF)
  else if inRange 0xE1 0xEC b0 then some (2, 0x80, 0xBF)
  else if b0 = 0xED then some (2, 0x80, 0x9F)
  else if inRange 0xEE 0xEF b0 then some (2, 0x80, 0xBF)
  else if b0 = 0xF0 then some (3, 0x90, 0xBF)
  else if inRange 0xF1 0xF3 b0 then some (3, 0x80, 0xBF)
  else if b0 = 0xF4 then some (3, 0x80, 0x8F)
  else none

/-- The width of the valid UTF-8 encoding at the head of the bytes; `0` when
the head is not a valid encoding (`utf8.DecodeRune` then answers `RuneError`
of width 1). -/
def utf8Len : GoString → Nat
  | [] => 0
  | b0 :: rest =>
    if b0 < 0x80 then 1
    else
      match utf8First b0 with
      | some (n, lo, hi) => utf8Tail n lo hi rest
      | none => 0

/-- The loop of `utf8.Valid`, with the number of bytes as fuel. -/
def validUTF8Aux : Nat → GoString → Bool
  | _, [] => true
  | 0, _ :: _ => false
  | fuel + 1, b :: bs =>
    match utf8Len (b :: bs) with
    | 0 => false
    | n + 1 => validUTF8Aux fuel (bs.drop n)

/-- The function `utf8.Valid`. -/
def validUTF8 (s : GoString) : Bool := validUTF8Aux s.length s

/-- The coercion both `json.Marshal` and `json.Unmarshal` apply to a string:
every byte that does not start a valid encoding becomes U+FFFD (`EF BF BD`). -/
def toValidUTF8Aux : Nat → GoString → GoString
  | _, [] => []
  | 0, _ :: _ => []
  | fuel + 1, b :: bs =>
    match utf8Len (b :: bs) with
    | 0 => 0xEF :: 0xBF :: 0xBD :: toValidUTF8Aux fuel bs
    | n + 1 => b :: (bs.take n ++ toValidUTF8Aux fuel (bs.drop n))

/-- Coercion of a string to well-formed UTF-8. -/
def toValidUTF8 (s : GoString) : GoString := toValidUTF8Aux s.length s

/-! ## Errors -/

/-- The error numbers the file-system model can answer. -/
inductive Errno
  | ENOENT
  | ENOTDIR
  | EISDIR
  | ENOSPC
  deriving DecidableEq, Repr

/-- A Go `error` value. -/
inductive GoError
  /-- The package variable `ErrPackageAlreadyInstalled`. -/
  | ErrPackageAlreadyInstalled
  /-- The package variable `ErrJavaNotFound`. -/
  | ErrJavaNotFound
  /-- A value made by `fmt.Errorf` without `%w`. -/
  | errorf (msg : String)
  /-- A value made by `fmt.Errorf(msg + ": %s", arg)`. -/
  | errorfs (msg : String) (arg : GoString)
  /-- A value made by `fmt.Errorf(msg + ": %w", err)`: it wraps `err`. -/
  | wrapf (msg : String) (err : GoError)
  /-- An `*fs.PathError` of package `os`. -/
  | pathError (op : String) (path : GoString) (errno : Errno)
  /-- An error of `archive/zip`. -/
  | zipError (msg : String)
  /-- An error of `encoding/json`. -/
  | jsonError (msg : String)
  /-- An error of the HTTP transport. -/
  | transport (msg : String)
  deriving DecidableEq, Repr

/-- The function `errors.Unwrap`. -/
def GoError.Unwrap : GoError → Option GoError
  | .wrapf _ e => some e
  | _ => none

/-- The loop of `errors.Is` on a non-nil error: the error or one it wraps is
`target`. -/
def GoError.Is : GoError → GoError → Bool
  | .wrapf m e, target => decide (GoError.wrapf m e = target) || e.Is target
  | e, target => decide (e = target)

/-- The function `errors.Is(err, target)`, for a target that is one of the
package's error variables. -/
def errorsIs : Option GoError → GoError → Bool
  | none, _ => false
  | some e, target => e.Is target

/-- The function `os.IsNotExist`. -/
def IsNotExist : GoError → Bool
  | .pathError _ _ .ENOENT => true
  | _ => false

/-! ## JSON values and the structures of `discoapi.go` -/

/-- A JSON value.  `num` is a number written as an integer, `frac` one written
with a fraction or an exponent (its text is kept). -/
inductive Json
  | null
  | bool (b : Bool)
  | num (n : Int)
  | frac (lit : GoString)
  | str (s : GoString)
  | arr (xs : List Json)
  | obj (kvs : List (GoString × Json))

/-- The type `GetSupportedArchiveTypesResponse`, also `GetPackagesResponseFeature`. -/
structure GetSupportedArchiveTypesResponse where
  Name : GoString := []
  UiString : GoString := []
  ApiString : GoString := []
  deriving DecidableEq, Repr

/-- The anonymous struct of the field `Links`. -/
structure PackageLinks where
  PkgInfoURI : GoString := []
  PkgDownloadRedirect : GoString := []
  deriving DecidableEq, Repr

/-- The type `GetPackagesResponse`, also `PackageMetaInfo`.  A nil `Feature`
slice is `none`. -/
structure GetPackagesResponse where
  ID : GoString := []
  ArchiveType : GoString := []
  Distribution : GoString := []
  MajorVersion : Int := 0
  JavaVersion : GoString := []
  DistributionVersion : GoString := []
  JDKVersion : Int := 0
  LatestBuildAvailable : Bool := false
  ReleaseStatus : GoString := []
  TermOfSupport : GoString := []
  OperatingSystem : GoString := []
  LibCType : GoString := []
  Architecture : GoString := []
  FPU : GoString := []
  PackageType : GoString := []
  JavaFXBundled : Bool := false
  DirectlyDownloadable : Bool := false
  Filename : GoString := []
  Links : PackageLinks := {}
  FreeUseInProduction : Bool := false
  TCKTested : GoString := []
  TCKCertURI : GoString := []
  AqavitCertified : GoString := []
  AqavitCertURI : GoString := []
  Size : Int := 0
  Feature : Option (List GetSupportedArchiveTypesResponse) := none
  deriving DecidableEq, Repr

/-- The alias `PackageMetaInfo` of `java.go`. -/
abbrev PackageMetaInfo := GetPackagesResponse

/-- The type `GetPackagesOptions`, also `JavaInstallOptions`. -/
structure GetPackagesOptions where
  Version : GoString := []
  VersionByDefinition : GoString := []
  JDKVersion : Int := 0
  Distro : List GoString := []
  Distribution : List GoString := []
  Architecture : List GoString := []
  ArchiveType : List GoString := []
  OperatingSystem : List GoString := []
  PackageType : GoString := []
  OperatingStatus : List GoString := []
  LibcType : List GoString := []
  LibCType : List GoString := []
  ReleaseStatus : List GoString := []
  TermOfSupport : List GoString := []
  Bitness : Int := 0
  FPU : List GoString := []
  JavaFXBundled : Bool := false
  WithJavaFXAvailable : Bool := false
  DirectlyDownloadable : Bool := false
  Latest : GoString := []
  Feature : List GoString := []
  SignatureAvailable : Bool := false
  FreeToUseInProduction : Bool := false
  TCKTested : GoString := []
  AqavitCertified : GoString := []
  DiscoveryScopeId : List GoString := []
  Match : GoString := []
  deriving DecidableEq, Repr

/-- The alias `JavaInstallOptions` of `version_manager.go`. -/
abbrev JavaInstallOptions := GetPackagesOptions

/-- The type `JavaPackage`: the embedded `*PackageMetaInfo` may be nil. -/
structure JavaPackage where
  PackageMetaInfo : Option PackageMetaInfo
  JavaDir : GoString
  JavaExecPath : GoString
  deriving DecidableEq, Repr

/-! ## Package `encoding/json`, on JSON values -/

/-- Decoding into a Go `string`: a JSON string is coerced to well-formed UTF-8,
`null` leaves the field as it is, anything else is a type error. -/
def decString (cur : GoString) : Json → Except GoError GoString
  | .str s => .ok (toValidUTF8 s)
  | .null => .ok cur
  | _ => .error (.jsonError "cannot unmarshal into Go value of type string")

/-- Decoding into a Go `int` (64 bits). -/
def decInt (cur : Int) : Json → Except GoError Int
  | .num n =>
    if -(2 ^ 63) ≤ n ∧ n < 2 ^ 63 then .ok n
    else .error (.jsonError "cannot unmarshal number into Go value of type int")
  | .null => .ok cur
  | _ => .error (.jsonError "cannot unmarshal into Go value of type int")

/-- Decoding into a Go `bool`. -/
def decBool (cur : Bool) : Json → Except GoError Bool
  | .bool b => .ok b
  | .null => .ok cur
  | _ => .error (.jsonError "cannot unmarshal into Go value of type bool")

/-- The folding `encoding/json` applies to an object key when it looks for the
field the key names: a field matches when its name equals the key without
regard to case.  ASCII letters lose their case, and the two letters outside
ASCII whose simple case folding is an ASCII letter, U+212A (the Kelvin sign,
bytes `E2 84 AA`) and U+017F (the long s, bytes `C5 BF`), become `k` and `s`.
The names of the `json` tags here are lower-case ASCII, so a key names the
field whose tag is the folding of the key. -/
def foldKey : GoString → GoString
  | [] => []
  | 0xE2 :: 0x84 :: 0xAA :: r => 0x6B :: foldKey r
  | 0xC5 :: 0xBF :: r => 0x73 :: foldKey r
  | c :: r => (if 65 ≤ c ∧ c ≤ 90 then c + 32 else c) :: foldKey r

/-- Decoding the members of a JSON object into a struct, in order: `set` stores
one member into the field its key names, and ignores a key that names none. -/
def decodeFields {α : Type} (set : α → GoString → Json → Except GoError α) :
    List (GoString × Json) → α → Except GoError α
  | [], d => .ok d
  | (k, v) :: rest, d =>
    match set d k v with
    | .ok d1 => decodeFields set rest d1
    | .error e => .error e

/-- Decoding the elements of a JSON array, in order. -/
def decodeElems {α : Type} (dec : Json → Except GoError α) : List Json → Except GoError (List α)
  | [] => .ok []
  | x :: xs =>
    match dec x with
    | .ok a =>
      match decodeElems dec xs with
      | .ok r => .ok (a :: r)
      | .error e => .error e
    | .error e => .error e

/-- The JSON object `json.Marshal` writes for a `GetSupportedArchiveTypesResponse`. -/
def encodeFeature (f : GetSupportedArchiveTypesResponse) : Json :=
  .obj [(ascii "name", .str (toValidUTF8 f.Name)),
        (ascii "ui_string", .str (toValidUTF8 f.UiString)),
        (ascii "api_string", .str (toValidUTF8 f.ApiString))]

/-- One member into a `GetSupportedArchiveTypesResponse`. -/
def setFeatureField (f : GetSupportedArchiveTypesResponse) (k : GoString) (v : Json) :
    Except GoError GetSupportedArchiveTypesResponse :=
  if foldKey k = ascii "name" then (decString f.Name v).map (fun x => { f with Name := x })
  else if foldKey k = ascii "ui_string" then (decString f.UiString v).map (fun x => { f with UiString := x })
  else if foldKey k = ascii "api_string" then
    (decString f.ApiString v).map (fun x => { f with ApiString := x })
  else .ok f

/-- Decoding one element of the `feature` array. -/
def decodeFeature : Json → Except GoError GetSupportedArchiveTypesResponse
  | .obj kvs => decodeFields setFeatureField kvs {}
  | .null => .ok {}
  | _ => .error (.jsonError "cannot unmarshal into Go value of type struct")

/-- Decoding into the slice `Feature`: `null` sets it to nil. -/
def decFeatures : Json → Except GoError (Option (List GetSupportedArchiveTypesResponse))
  | .arr xs => (decodeElems decodeFeature xs).map some
  | .null => .ok none
  | _ => .error (.jsonError "cannot unmarshal into Go value of type slice")

/-- One member into the struct of `Links`. -/
def setLinksField (l : PackageLinks) (k : GoString) (v : Json) : Except GoError PackageLinks :=
  if foldKey k = ascii "pkg_info_uri" then (decString l.PkgInfoURI v).map (fun x => { l with PkgInfoURI := x })
  else if foldKey k = ascii "pkg_download_redirect" then
    (decString l.PkgDownloadRedirect v).map (fun x => { l with PkgDownloadRedirect := x })
  else .ok l

/-- Decoding into the struct of `Links`. -/
def decLinks (cur : PackageLinks) : Json → Except GoError PackageLinks
  | .obj kvs => decodeFields setLinksField kvs cur
  | .null => .ok cur
  | _ => .error (.jsonError "cannot unmarshal into Go value of type struct")

/-- The JSON object `json.Marshal` writes for a `GetPackagesResponse`: the
fields in their order, under the names of their `json` tags. -/
def encodeMeta (d : GetPackagesResponse) : Json :=
  .obj [(ascii "id", .str (toValidUTF8 d.ID)),
        (ascii "archive_type", .str (toValidUTF8 d.ArchiveType)),
        (ascii "distribution", .str (toValidUTF8 d.Distribution)),
        (ascii "major_version", .num d.MajorVersion),
        (ascii "java_version", .str (toValidUTF8 d.JavaVersion)),
        (ascii "distribution_version", .str (toValidUTF8 d.DistributionVersion)),
        (ascii "jdk_version", .num d.JDKVersion),
        (ascii "latest_build_available", .bool d.LatestBuildAvailable),
        (ascii "release_status", .str (toValidUTF8 d.ReleaseStatus)),
        (ascii "term_of_support", .str (toValidUTF8 d.TermOfSupport)),
        (ascii "operating_system", .str (toValidUTF8 d.OperatingSystem)),
        (ascii "lib_c_type", .str (toValidUTF8 d.LibCType)),
        (ascii "architecture", .str (toValidUTF8 d.Architecture)),
        (ascii "fpu", .str (toValidUTF8 d.FPU)),
        (ascii "package_type", .str (toValidUTF8 d.PackageType)),
        (ascii "javafx_bundled", .bool d.JavaFXBundled),
        (ascii "directly_downloadable", .bool d.DirectlyDownloadable),
        (ascii "filename", .str (toValidUTF8 d.Filename)),
        (ascii "links", .obj [(ascii "pkg_info_uri", .str (toValidUTF8 d.Links.PkgInfoURI)),
                              (ascii "pkg_download_redirect",
                                .str (toValidUTF8 d.Links.PkgDownloadRedirect))]),
        (ascii "free_use_in_production", .bool d.FreeUseInProduction),
        (ascii "tck_tested", .str (toValidUTF8 d.TCKTested)),
        (ascii "tck_cert_uri", .str (toValidUTF8 d.TCKCertURI)),
        (ascii "aqavit_certified", .str (toValidUTF8 d.AqavitCertified)),
        (ascii "aqavit_cert_uri", .str (toValidUTF8 d.AqavitCertURI)),
        (ascii "size", .num d.Size),
        (ascii "feature",
          match d.Feature with
          | none => .null
          | some fs => .arr (fs.map encodeFeature))]

/-- One member into a `GetPackagesResponse`: the field whose `json` tag the key
names, without regard to case. -/
def setMetaField (d : GetPackagesResponse) (k : GoString) (v : Json) :
    Except GoError GetPackagesResponse :=
  if foldKey k = ascii "id" then (decString d.ID v).map (fun x => { d with ID := x })
  else if foldKey k = ascii "archive_type" then
    (decString d.ArchiveType v).map (fun x => { d with ArchiveType := x })
  else if foldKey k = ascii "distribution" then
    (decString d.Distribution v).map (fun x => { d with Distribution := x })
  else if foldKey k = ascii "major_version" then
    (decInt d.MajorVersion v).map (fun x => { d with MajorVersion := x })
  else if foldKey k = ascii "java_version" then
    (decString d.JavaVersion v).map (fun x => { d with JavaVersion := x })
  else if foldKey k = ascii "distribution_version" then
    (decString d.DistributionVersion v).map (fun x => { d with DistributionVersion := x })
  else if foldKey k = ascii "jdk_version" then
    (decInt d.JDKVersion v).map (fun x => { d with JDKVersion := x })
  else if foldKey k = ascii "latest_build_available" then
    (decBool d.LatestBuildAvailable v).map (fun x => { d with LatestBuildAvailable := x })
  else if foldKey k = ascii "release_status" then
    (decString d.ReleaseStatus v).map (fun x => { d with ReleaseStatus := x })
  else if foldKey k = ascii "term_of_support" then
    (decString d.TermOfSupport v).map (fun x => { d with TermOfSupport := x })
  else if foldKey k = ascii "operating_system" then
    (decString d.OperatingSystem v).map (fun x => { d with OperatingSystem := x })
  else if foldKey k = ascii "lib_c_type" then
    (decString d.LibCType v).map (fun x => { d with LibCType := x })
  else if foldKey k = ascii "architecture" then
    (decString d.Architecture v).map (fun x => { d with Architecture := x })
  else if foldKey k = ascii "fpu" then (decString d.FPU v).map (fun x => { d with FPU := x })
  else if foldKey k = ascii "package_type" then
    (decString d.PackageType v).map (fun x => { d with PackageType := x })
  else if foldKey k = ascii "javafx_bundled" then
    (decBool d.JavaFXBundled v).map (fun x => { d with JavaFXBundled := x })
  else if foldKey k = ascii "directly_downloadable" then
    (decBool d.DirectlyDownloadable v).map (fun x => { d with DirectlyDownloadable := x })
  else if foldKey k = ascii "filename" then
    (decString d.Filename v).map (fun x => { d with Filename := x })
  else if foldKey k = ascii "links" then (decLinks d.Links v).map (fun x => { d with Links := x })
  else if foldKey k = ascii "free_use_in_production" then
    (decBool d.FreeUseInProduction v).map (fun x => { d with FreeUseInProduction := x })
  else if foldKey k = ascii "tck_tested" then
    (decString d.TCKTested v).map (fun x => { d with TCKTested := x })
  else if foldKey k = ascii "tck_cert_uri" then
    (decString d.TCKCertURI v).map (fun x => { d with TCKCertURI := x })
  else if foldKey k = ascii "aqavit_certified" then
    (decString d.AqavitCertified v).map (fun x => { d with AqavitCertified := x })
  else if foldKey k = ascii "aqavit_cert_uri" then
    (decString d.AqavitCertURI v).map (fun x => { d with AqavitCertURI := x })
  else if foldKey k = ascii "size" then (decInt d.Size v).map (fun x => { d with Size := x })
  else if foldKey k = ascii "feature" then (decFeatures v).map (fun x => { d with Feature := x })
  else .ok d

/-- Decoding a JSON value into a `GetPackagesResponse` that holds `cur`. -/
def decMeta (cur : GetPackagesResponse) : Json → Except GoError GetPackagesResponse
  | .obj kvs => decodeFields setMetaField kvs cur
  | .null => .ok cur
  | _ => .error (.jsonError "cannot unmarshal into Go value of type jlib.GetPackagesResponse")

/-- The call `Decode(&data)` with `data` a nil `*PackageMetaInfo`: `null` leaves
the pointer nil, any other value is decoded into a fresh struct. -/
def decodeMetaPtr : Json → Except GoError (Option PackageMetaInfo)
  | .null => .ok none
  | v => (decMeta {} v).map some

/-- One member into a `DiscoResponseWrapper[[]GetPackagesResponse]`, whose only
field is `Result`. -/
def setWrapperField (r : List GetPackagesResponse) (k : GoString) (v : Json) :
    Except GoError (List GetPackagesResponse) :=
  if foldKey k = ascii "result" then
    match v with
    | .arr xs => decodeElems (decMeta {}) xs
    | .null => .ok []
    | _ => .error (.jsonError "cannot unmarshal into Go value of type []jlib.GetPackagesResponse")
  else .ok r

/-- The call `Decode(&wrapper)` on the body of a catalog answer; the value is
`wrapper.Result` (a nil slice is the empty list). -/
def decodeWrapper : Json → Except GoError (List GetPackagesResponse)
  | .obj kvs => decodeFields setWrapperField kvs []
  | .null => .ok []
  | _ => .error (.jsonError "cannot unmarshal into Go value of type jlib.DiscoResponseWrapper")

/-- Whether an integer is a Go `int` (64 bits). -/
def int64OK (n : Int) : Bool := decide (-(2 ^ 63) ≤ n) && decide (n < 2 ^ 63)

/-- Whether every string of a feature is valid UTF-8. -/
def featureOK (f : GetSupportedArchiveTypesResponse) : Bool :=
  validUTF8 f.Name && validUTF8 f.UiString && validUTF8 f.ApiString

/-- Whether every string of every feature of the slice is valid UTF-8. -/
def featuresOK : Option (List GetSupportedArchiveTypesResponse) → Bool
  | none => true
  | some fs => fs.all featureOK

/-- Whether every string of the links is valid UTF-8. -/
def linksOK (l : PackageLinks) : Bool := validUTF8 l.PkgInfoURI && validUTF8 l.PkgDownloadRedirect

/-- Whether a descriptor is a value `encoding/json` writes and reads back
unchanged: every string is valid UTF-8 and every integer is a Go `int`. -/
def metaOK (d : GetPackagesResponse) : Bool :=
  validUTF8 d.ID && validUTF8 d.ArchiveType && validUTF8 d.Distribution &&
  int64OK d.MajorVersion && validUTF8 d.JavaVersion && validUTF8 d.DistributionVersion &&
  int64OK d.JDKVersion && validUTF8 d.ReleaseStatus && validUTF8 d.TermOfSupport &&
  validUTF8 d.OperatingSystem && validUTF8 d.LibCType && validUTF8 d.Architecture &&
  validUTF8 d.FPU && validUTF8 d.PackageType && validUTF8 d.Filename && linksOK d.Links &&
  validUTF8 d.TCKTested && validUTF8 d.TCKCertURI && validUTF8 d.AqavitCertified &&
  validUTF8 d.AqavitCertURI && int64OK d.Size && featuresOK d.Feature

/-! ## Files, archives and the file system -/

/-- The content of an ordinary file: a JSON document, or other bytes. -/
inductive Blob
  | json (v : Json)
  | bytes (b : GoString)

/-- An entry of a zip archive (`zip.File`): its stored name, whether its mode
has the directory bit, whether `Open` fails on it, and its content. -/
structure ZipEntry where
  Name : GoString
  dirAttr : Bool := false
  openFails : Bool := false
  body : Blob := .bytes []

/-- The method `f.FileInfo().IsDir()`: the mode has the directory bit, which
`archive/zip` also sets for a name that ends in `/`. -/
def ZipEntry.IsDir (f : ZipEntry) : Bool := f.dirAttr || f.Name.getLast? == some 47

/-- What a file (or the body of an HTTP answer) holds. -/
inductive FileData
  | blob (b : Blob)
  | archive (entries : List ZipEntry)

/-- A node of the file system. -/
inductive Node
  | dir
  | file (d : FileData)

/-- Whether a lookup found a regular file. -/
def isFile : Option Node → Bool
  | some (.file _) => true
  | _ => false

/-- Whether a lookup found a directory. -/
def isDir : Option Node → Bool
  | some .dir => true
  | _ => false

/-- The file system: the nodes that exist, by resolved path; the first pair of
a path is its node.  The root always exists and is a directory. -/
abbrev FS := List (Path × Node)

/-- The node at a path. -/
def FS.get : FS → Path → Option Node
  | [], p => if p = [] then some .dir else none
  | (q, n) :: fs, p => if p = [] then some .dir else if p = q then some n else FS.get fs p

/-- The file system with node `n` at path `p`. -/
def FS.put (fs : FS) (p : Path) (n : Node) : FS := (p, n) :: fs

/-- Whether the path or one of its ancestors is a regular file. -/
def FS.fileOnPath (fs : FS) (p : Path) : Bool := p.inits.any (fun q => isFile (fs.get q))

/-- The error number of a lookup that found nothing. -/
def FS.missing (fs : FS) (p : Path) : Errno := if fs.fileOnPath p then .ENOTDIR else .ENOENT

/-- Lexicographic order of byte strings, the order of `os.ReadDir`. -/
def strLE : GoString → GoString → Bool
  | [], _ => true
  | _ :: _, [] => false
  | a :: as, b :: bs => decide (a < b) || (decide (a = b) && strLE as bs)

/-- Insertion into a sorted list of names without repetition. -/
def insertName (n : GoString) : List GoString → List GoString
  | [] => [n]
  | m :: ms => if n = m then m :: ms else if strLE n m then n :: m :: ms else m :: insertName n ms

/-- The name of `k` inside `p` when `k` is an immediate child of `p`. -/
def childOf (p k : Path) : Option GoString :=
  match k.getLast? with
  | some n => if k.dropLast = p then some n else none
  | none => none

/-- The names of the immediate children of a directory, sorted. -/
def FS.childNames (fs : FS) (p : Path) : List GoString :=
  fs.foldr (fun kn acc => match childOf p kn.1 with
    | some n => insertName n acc
    | none => acc) []

/-- The directories `MkdirAll` adds: every missing node on the way to `p`. -/
def FS.mkdirs (fs : FS) (p : Path) : FS :=
  (p.inits.filter (fun q => (fs.get q).isNone)).map (fun q => (q, Node.dir)) ++ fs

/-! ## The environment -/

/-- The answer of `http.Get` to the redirect request: a response, whose
`Request.URL` is the final URL (with an error only when the redirect policy
stopped the request), or no response at all. -/
inductive HttpResult
  | response (finalURL : GoString) (err : Option GoError)
  | noResponse (err : GoError)

/-- What the program reads from outside: the catalog's answer to a package
search, the answer to a redirect request for a package id, the body behind a
URL, `os.TempDir()`, the working directory, the paths on which writing data
fails, `runtime.GOOS` and `runtime.GOARCH`. -/
structure World where
  catalog : GetPackagesOptions → Except GoError FileData
  redirect : GoString → HttpResult
  fetch : GoString → Except GoError FileData
  tmpDir : GoString
  cwd : Path
  writeFault : Path → Bool
  goos : GoString
  goarch : GoString

/-- A request sent to the network. -/
inductive Event
  | getPackages (options : GetPackagesOptions)
  | redirect (id : GoString)
  | download (url : GoString)
  deriving DecidableEq, Repr

/-- The state a call runs in: the file system and the requests sent so far. -/
structure State where
  fs : FS
  trace : List Event

/-- The state after one more request. -/
def State.log (s : State) (e : Event) : State := { s with trace := s.trace ++ [e] }

/-- A result, or a run-time panic. -/
inductive Ret (α : Type)
  | val (a : α)
  | panic (msg : String)

/-! ## Package `os` -/

/-- A file just created or truncated. -/
def emptyFile : FileData := .blob (.bytes [])

/-- The function `os.Stat`. -/
def osStat (W : World) (fs : FS) (name : GoString) : Except GoError Node :=
  if name = [] then .error (.pathError "stat" name .ENOENT)
  else
    match fs.get (resolve W.cwd name) with
    | some n => .ok n
    | none => .error (.pathError "stat" name (fs.missing (resolve W.cwd name)))

/-- The function `os.Open` followed by reading the whole file. -/
def osOpen (W : World) (fs : FS) (name : GoString) : Except GoError Node :=
  if name = [] then .error (.pathError "open" name .ENOENT)
  else
    match fs.get (resolve W.cwd name) with
    | some n => .ok n
    | none => .error (.pathError "open" name (fs.missing (resolve W.cwd name)))

/-- The function `os.MkdirAll`, on a name the kernel resolves as `resolve` does
(no `..` element after a missing directory): it fails, and changes nothing,
when a regular file is on the way; otherwise every missing directory on the way
is created.  On a name such as `/data/x/../jlib` with `/data/x` missing,
`os.MkdirAll` walks the string as given and creates `/data/x` too; the model
creates the directories on the way to the resolved path only. -/
def osMkdirAll (W : World) (fs : FS) (name : GoString) : Option GoError × FS :=
  if name = [] then (some (.pathError "mkdir" name .ENOENT), fs)
  else if fs.fileOnPath (resolve W.cwd name) then (some (.pathError "mkdir" name .ENOTDIR), fs)
  else (none, fs.mkdirs (resolve W.cwd name))

/-- The function `os.Create`, and `os.OpenFile` with `O_WRONLY|O_CREATE|O_TRUNC`:
an existing regular file is truncated, a missing one is created when its parent
is a directory. -/
def osCreate (W : World) (fs : FS) (name : GoString) : Except GoError FS :=
  if name = [] then .error (.pathError "open" name .ENOENT)
  else
    match fs.get (resolve W.cwd name) with
    | some .dir => .error (.pathError "open" name .EISDIR)
    | some (.file _) => .ok (fs.put (resolve W.cwd name) (.file emptyFile))
    | none =>
      if isDir (fs.get (resolve W.cwd name).dropLast) then
        .ok (fs.put (resolve W.cwd name) (.file emptyFile))
      else .error (.pathError "open" name (fs.missing (resolve W.cwd name)))

/-- Writing `data` to the open file `name` (`io.Copy`, `Encoder.Encode`): on a
path where writing fails nothing is written and the file stays as it is. -/
def writeAll (W : World) (fs : FS) (name : GoString) (data : FileData) : Option GoError × FS :=
  if W.writeFault (resolve W.cwd name) then (some (.pathError "write" name .ENOSPC), fs)
  else (none, fs.put (resolve W.cwd name) (.file data))

/-- The function `os.ReadDir`, on a name the kernel resolves as `resolve` does:
the entries of a directory, sorted by name, each with its `IsDir()`. -/
def osReadDir (W : World) (fs : FS) (name : GoString) : Except GoError (List (GoString × Bool)) :=
  if name = [] then .error (.pathError "open" name .ENOENT)
  else
    match fs.get (resolve W.cwd name) with
    | some .dir =>
      .ok ((fs.childNames (resolve W.cwd name)).map
        (fun n => (n, isDir (fs.get (resolve W.cwd name ++ [n])))))
    | some (.file _) => .error (.pathError "readdirent" name .ENOTDIR)
    | none => .error (.pathError "open" name (fs.missing (resolve W.cwd name)))

/-- The function `zip.OpenReader`: the entries of the archive at `src`. -/
def zipOpenReader (W : World) (fs : FS) (src : GoString) : Except GoError (List ZipEntry) :=
  match osOpen W fs src with
  | .error e => .error e
  | .ok (.file (.archive entries)) => .ok entries
  | .ok _ => .error (.zipError "zip: not a valid zip file")

/-! ## `utils.go` -/

/-- The function `GetOS`. -/
def GetOS (W : World) : List GoString := [W.goos]

/-- The function `GetArch`. -/
def GetArch (W : World) : List GoString := [W.goarch]

/-- The function `DownloadFile`: the name of the file it opened, and the error. -/
def DownloadFile (W : World) (url dest : GoString) (s : State) :
    (Option GoString × Option GoError) × State :=
  match W.fetch url with
  | .error e => ((none, some e), s.log (.download url))
  | .ok body =>
    match osCreate W s.fs (Join [dest, Base url]) with
    | .error e => ((none, some e), s.log (.download url))
    | .ok fs =>
      ((some (Join [dest, Base url]), (writeAll W fs (Join [dest, Base url]) body).1),
        { fs := (writeAll W fs (Join [dest, Base url]) body).2,
          trace := s.trace ++ [.download url] })

/-- The closure `extractAndWriteFile` of `unzip`.  The data of the entry is
taken to be readable: `io.Copy` fails on the side of the written file only. -/
def extractAndWriteFile (W : World) (dest : GoString) (f : ZipEntry) (fs : FS) :
    Option GoError × FS :=
  if f.openFails then (some (.zipError "zip: unsupported compression algorithm"), fs)
  else if !HasPrefix (Join [dest, f.Name]) (Clean dest ++ [47]) then
    (some (.errorfs "illegal file path" (Join [dest, f.Name])), fs)
  else if f.IsDir then (none, (osMkdirAll W fs (Join [dest, f.Name])).2)
  else
    match osCreate W (osMkdirAll W fs (Dir (Join [dest, f.Name]))).2 (Join [dest, f.Name]) with
    | .error e => (some e, (osMkdirAll W fs (Dir (Join [dest, f.Name]))).2)
    | .ok fs1 => writeAll W fs1 (Join [dest, f.Name]) (.blob f.body)

/-- The loop of `unzip` over `r.File`. -/
def unzipLoop (W : World) (dest : GoString) : List ZipEntry → FS → Option GoError × FS
  | [], fs => (none, fs)
  | f :: rest, fs =>
    match extractAndWriteFile W dest f fs with
    | (some err, fs1) => (some err, fs1)
    | (none, fs1) => unzipLoop W dest rest fs1

/-- The function `unzip`. -/
def unzip (W : World) (src dest : GoString) (fs : FS) : Option GoError × FS :=
  match zipOpenReader W fs src with
  | .error e => (some e, fs)
  | .ok entries => unzipLoop W dest entries (osMkdirAll W fs dest).2

/-- The function `saveStructToJSONFile`, at type `PackageMetaInfo`. -/
def saveStructToJSONFile (W : World) (data : PackageMetaInfo) (filename : GoString) (fs : FS) :
    Option GoError × FS :=
  match osCreate W fs filename with
  | .error e => (some e, fs)
  | .ok fs1 => writeAll W fs1 filename (.blob (.json (encodeMeta data)))

/-- The function `readStructFromJSONFile`, at type `PackageMetaInfo`: the
pointer it returns may be nil. -/
def readStructFromJSONFile (W : World) (filename : GoString) (fs : FS) :
    Except GoError (Option PackageMetaInfo) :=
  match osOpen W fs filename with
  | .error e => .error e
  | .ok .dir => .error (.pathError "read" filename .EISDIR)
  | .ok (.file (.blob (.json v))) => decodeMetaPtr v
  | .ok (.file _) => .error (.jsonError "invalid character looking for beginning of value")

/-- The function `addExeIfWindows`. -/
def addExeIfWindows (W : World) (filename : GoString) : GoString :=
  if W.goos = ascii "windows" then filename ++ ascii ".exe" else filename

/-! ## `discoapi.go` -/

/-- A value of the map `structToMap` returns (an `interface{}` that holds a
field of `GetPackagesOptions`). -/
inductive MapValue
  | str (s : GoString)
  | int (n : Int)
  | bool (b : Bool)
  | strs (l : List GoString)
  deriving DecidableEq, Repr

/-- The function `isEmptyValue` of `mapstructure`: the zero value of a string,
an integer or a boolean, and a slice of length 0. -/
def MapValue.isEmpty : MapValue → Bool
  | .str s => s.isEmpty
  | .int n => decide (n = 0)
  | .bool b => !b
  | .strs l => l.isEmpty

/-- The fields of `GetPackagesOptions` in the order of the declaration, each
under the name of its `mapstructure` tag; every tag has `omitempty`. -/
def fieldsOf (o : GetPackagesOptions) : List (GoString × MapValue) :=
  [(ascii "version", .str o.Version),
   (ascii "version_by_definition", .str o.VersionByDefinition),
   (ascii "jdk_version", .int o.JDKVersion),
   (ascii "distro", .strs o.Distro),
   (ascii "distribution", .strs o.Distribution),
   (ascii "architecture", .strs o.Architecture),
   (ascii "archive_type", .strs o.ArchiveType),
   (ascii "operating_system", .strs o.OperatingSystem),
   (ascii "package_type", .str o.PackageType),
   (ascii "operating_status", .strs o.OperatingStatus),
   (ascii "libc_type", .strs o.LibcType),
   (ascii "lib_c_type", .strs o.LibCType),
   (ascii "release_status", .strs o.ReleaseStatus),
   (ascii "term_of_support", .strs o.TermOfSupport),
   (ascii "bitness", .int o.Bitness),
   (ascii "fpu", .strs o.FPU),
   (ascii "javafx_bundled", .bool o.JavaFXBundled),
   (ascii "with_javafx_available", .bool o.WithJavaFXAvailable),
   (ascii "directly_downloadable", .bool o.DirectlyDownloadable),
   (ascii "latest", .str o.Latest),
   (ascii "feature", .strs o.Feature),
   (ascii "signature_available", .bool o.SignatureAvailable),
   (ascii "free_to_use_in_production", .bool o.FreeToUseInProduction),
   (ascii "tck_tested", .str o.TCKTested),
   (ascii "aqavit_certified", .str o.AqavitCertified),
   (ascii "discovery_scope_id", .strs o.DiscoveryScopeId),
   (ascii "match", .str o.Match)]

/-- The function `structToMap` at `*GetPackagesOptions`: `mapstructure.Decode`
goes through the fields and stores each under its name, except that a field
tagged `omitempty` whose value is empty is left out. -/
def structToMap (o : GetPackagesOptions) : List (GoString × MapValue) :=
  (fieldsOf o).filter (fun kv => !kv.2.isEmpty)

/-- The decimal digits of `n`, least significant first: the loop of
`strconv.FormatInt`, which takes `n % 10` and goes on with `n / 10`.  The fuel
bounds the number of digits. -/
def decimalDigits : Nat → Nat → List Nat
  | 0, _ => []
  | fuel + 1, n => if n < 10 then [n] else (n % 10) :: decimalDigits fuel (n / 10)

/-- The decimal text of a natural number (`0x30` is the digit `0`). -/
def formatNat (n : Nat) : GoString := (decimalDigits (n + 1) n).reverse.map (· + 48)

/-- The text of an integer, as `fmt.Sprintf("%v", n)` writes it: a `-` before
the digits of a negative number. -/
def formatInt (n : Int) : GoString :=
  if n < 0 then 45 :: formatNat n.natAbs else formatNat n.natAbs

/-- The `switch` of `getAndParseResponseWithQuery`: a `[]string` is joined by
commas, any other value is written by `fmt.Sprintf("%v", v)`. -/
def formatValue : MapValue → GoString
  | .strs l => joinComma l
  | .str s => s
  | .int n => formatInt n
  | .bool b => if b then ascii "true" else ascii "false"

/-- The `url.Values` that `getAndParseResponseWithQuery` builds from the map:
one value under each key of the map.  (`Encode` then writes them sorted by key
and escaped.) -/
def queryValues (query : List (GoString × MapValue)) : List (GoString × GoString) :=
  query.map (fun kv => (kv.1, formatValue kv.2))

/-- The function `GetPackages`: the request is sent with the options as its
query (the parameters `queryValues (structToMap options)`), and the body of the
answer is decoded. -/
def GetPackages (W : World) (options : GetPackagesOptions) (s : State) :
    Except GoError (List GetPackagesResponse) × State :=
  match W.catalog options with
  | .error e => (.error e, s.log (.getPackages options))
  | .ok (.blob (.json v)) => (decodeWrapper v, s.log (.getPackages options))
  | .ok _ =>
    (.error (.jsonError "invalid character looking for beginning of value"),
      s.log (.getPackages options))

/-- The function `GetPackageRedirect`: it reads `resp.Request.URL` before it
looks at the error. -/
def GetPackageRedirect (W : World) (id : GoString) (s : State) :
    Ret (GoString × Option GoError) × State :=
  match W.redirect id with
  | .response finalURL err => (.val (finalURL, err), s.log (.redirect id))
  | .noResponse _ =>
    (.panic "invalid memory address or nil pointer dereference", s.log (.redirect id))

/-- The function `GetFilename`. -/
def GetFilename (W : World) (id : GoString) (s : State) :
    Ret (GoString × Option GoError) × State :=
  match GetPackageRedirect W id s with
  | (.val (_, some err), s1) => (.val ([], some err), s1)
  | (.val (finalURL, none), s1) => (.val (Base finalURL, none), s1)
  | (.panic m, s1) => (.panic m, s1)

/-- The function `DownloadJavaByID`. -/
def DownloadJavaByID (W : World) (id dst : GoString) (s : State) :
    Ret (Option GoString × Option GoError) × State :=
  match GetPackageRedirect W id s with
  | (.val (_, some err), s1) => (.val (none, some err), s1)
  | (.val (javaUrl, none), s1) => (.val (DownloadFile W javaUrl dst s1).1, (DownloadFile W javaUrl dst s1).2)
  | (.panic m, s1) => (.panic m, s1)

/-! ## `version_manager.go` -/

/-- The type `VersionManager`. -/
structure VersionManager where
  DataDir : GoString

/-- What a call of `Install` does: it returns a package pointer and an error,
or it panics. -/
inductive Outcome
  | returned (pkg : Option JavaPackage) (err : Option GoError)
  | panicked (msg : String)
  deriving DecidableEq, Repr

/-- The `JavaPackage` both returns of `Install` and the loop of `List` build. -/
def mkJavaPackage (W : World) (vm : VersionManager) (meta : Option PackageMetaInfo)
    (dirname : GoString) : JavaPackage :=
  { PackageMetaInfo := meta
    JavaDir := Join [vm.DataDir, dirname]
    JavaExecPath := Join [vm.DataDir, dirname, ascii "bin", addExeIfWindows W (ascii "java")] }

/-- The part of `Install` after the existence check found nothing: download,
extraction, metadata. -/
def installFresh (W : World) (vm : VersionManager) (p0 : GetPackagesResponse)
    (dirname : GoString) (s : State) : Outcome × State :=
  match DownloadJavaByID W p0.ID W.tmpDir s with
  | (.panic m, s1) => (.panicked m, s1)
  | (.val (_, some err), s1) =>
    (.returned none (some (.wrapf "failed to download package" err)), s1)
  | (.val (none, none), s1) => (.panicked "invalid memory address or nil pointer dereference", s1)
  | (.val (some file, none), s1) =>
    match unzip W file vm.DataDir s1.fs with
    | (some err, fs2) =>
      (.returned none (some (.wrapf "failed to unzip package" err)), { s1 with fs := fs2 })
    | (none, fs2) =>
      match saveStructToJSONFile W p0 (Join [vm.DataDir, dirname, ascii "meta.json"]) fs2 with
      | (some err, fs3) =>
        (.returned none (some (.wrapf "failed to save package metadata" err)),
          { s1 with fs := fs3 })
      | (none, fs3) =>
        (.returned (some (mkJavaPackage W vm (some p0) dirname)) none, { s1 with fs := fs3 })

/-- The part of `Install` after the catalog answered: name, existence check,
and either the stored package or a fresh installation. -/
def installPackage (W : World) (vm : VersionManager) (p0 : GetPackagesResponse) (s : State) :
    Outcome × State :=
  match GetFilename W p0.ID s with
  | (.panic m, s1) => (.panicked m, s1)
  | (.val (_, some err), s1) => (.returned none (some (.wrapf "failed to get filename" err)), s1)
  | (.val (name, none), s1) =>
    match osStat W s1.fs (Join [vm.DataDir, TrimSuffix name (ascii ".zip"), ascii "meta.json"]) with
    | .ok _ =>
      match readStructFromJSONFile W
          (Join [vm.DataDir, TrimSuffix name (ascii ".zip"), ascii "meta.json"]) s1.fs with
      | .error err => (.returned none (some (.wrapf "failed to read package metadata" err)), s1)
      | .ok meta =>
        (.returned (some (mkJavaPackage W vm meta (TrimSuffix name (ascii ".zip"))))
          (some .ErrPackageAlreadyInstalled), s1)
    | .error err =>
      if !IsNotExist err then
        (.returned none (some (.wrapf "failed to check if package is installed" err)), s1)
      else installFresh W vm p0 (TrimSuffix name (ascii ".zip")) s1

/-- The method `VersionManager.Install`.  The filter is changed in place
before it is sent. -/
def VersionManager.Install (W : World) (vm : VersionManager) (options : JavaInstallOptions)
    (s : State) : Outcome × State :=
  match GetPackages W { options with ArchiveType := [ascii "zip"] } s with
  | (.error err, s1) => (.returned none (some (.wrapf "failed to fetch packages" err)), s1)
  | (.ok [], s1) => (.returned none (some (.errorf "no packages found")), s1)
  | (.ok (p0 :: _), s1) => installPackage W vm p0 s1

/-- The loop of `List` over the entries of the directory. -/
def listLoop (W : World) (vm : VersionManager) (fs : FS) :
    List (GoString × Bool) → Except GoError (List JavaPackage)
  | [] => .ok []
  | (name, dir) :: rest =>
    if dir then
      match readStructFromJSONFile W (Join [vm.DataDir, name, ascii "meta.json"]) fs with
      | .error err => .error (.wrapf "failed to read package metadata" err)
      | .ok meta =>
        match listLoop W vm fs rest with
        | .error err => .error err
        | .ok javas => .ok (mkJavaPackage W vm meta name :: javas)
    else listLoop W vm fs rest

/-- The method `VersionManager.List`. -/
def VersionManager.List (W : World) (vm : VersionManager) (fs : FS) :
    Except GoError (List JavaPackage) :=
  match osReadDir W fs vm.DataDir with
  | .error err => .error (.wrapf "failed to read directory" err)
  | .ok files => listLoop W vm fs files

/-- The loop of `GetJavaByID`: reading `java.ID` through a nil pointer panics. -/
def findByID (id : GoString) : List JavaPackage → Ret (Option JavaPackage × Option GoError)
  | [] => .val (none, some (.errorf "package not found"))
  | java :: rest =>
    match java.PackageMetaInfo with
    | none => .panic "invalid memory address or nil pointer dereference"
    | some meta => if meta.ID = id then .val (some java, none) else findByID id rest

/-- The method `VersionManager.GetJavaByID`. -/
def VersionManager.GetJavaByID (W : World) (vm : VersionManager) (id : GoString) (fs : FS) :
    Ret (Option JavaPackage × Option GoError) :=
  match VersionManager.List W vm fs with
  | .error err => .val (none, some err)
  | .ok javas => findByID id javas

/-- The loop of `Use`: reading `java.Distribution` through a nil pointer panics. -/
def useLoop (distribution : GoString) (jdkVersion : Int) :
    List JavaPackage → Ret (Option JavaPackage × Option GoError)
  | [] => .val (none, some .ErrJavaNotFound)
  | java :: rest =>
    match java.PackageMetaInfo with
    | none => .panic "invalid memory address or nil pointer dereference"
    | some meta =>
      if meta.Distribution = distribution ∧ meta.JDKVersion = jdkVersion then .val (some java, none)
      else useLoop distribution jdkVersion rest

/-- The method `VersionManager.Use`. -/
def VersionManager.Use (W : World) (vm : VersionManager) (distribution : GoString)
    (jdkVersion : Int) (fs : FS) : Ret (Option JavaPackage × Option GoError) :=
  match VersionManager.List W vm fs with
  | .error err => .val (none, some err)
  | .ok javas => useLoop distribution jdkVersion javas

/-- The method `VersionManager.UseOrInstall`: whatever error `Use` returned,
the last line returns `java, nil`. -/
def VersionManager.UseOrInstall (W : World) (vm : VersionManager) (distribution : GoString)
    (jdkVersion : Int) (s : State) : Outcome × State :=
  match VersionManager.Use W vm distribution jdkVersion s.fs with
  | .panic m => (.panicked m, s)
  | .val (java, err) =>
    if errorsIs err .ErrJavaNotFound then
      VersionManager.Install W vm
        { Distribution := [distribution], JDKVersion := jdkVersion,
          OperatingSystem := GetOS W, Architecture := GetArch W } s
    else (.returned java none, s)

/-! ## Vocabulary of the statements -/

/-- The requests a call about the package `id` may send after the search: the
redirect request for `id`, and the download of the URL that request answered. -/
def packageEvent (W : World) (id : GoString) (e : Event) : Prop :=
  e = .redirect id ∨ ∃ u, W.redirect id = .response u none ∧ e = .download u

/-- A plain file name: not empty, not `.`, not `..`, and without a separator. -/
def plainName (c : GoString) : Prop := c ≠ [] ∧ c ≠ [46] ∧ c ≠ [46, 46] ∧ 47 ∉ c

instance (c : GoString) : Decidable (plainName c) := by unfold plainName; infer_instance

/-- The strict order of names in a directory listing. -/
def strLT (a b : GoString) : Prop := strLE a b = true ∧ a ≠ b

/-- The names of the immediate subdirectories of `dir`, in the order of the
directory listing. -/
def subdirNames (W : World) (fs : FS) (dir : GoString) : List GoString :=
  (fs.childNames (resolve W.cwd dir)).filter (fun n => isDir (fs.get (resolve W.cwd dir ++ [n])))

/-- The descriptor pointer read from the `meta.json` of the subdirectory `n` of
the install root (nil when it cannot be read). -/
def metaOf (W : World) (vm : VersionManager) (fs : FS) (n : GoString) : Option PackageMetaInfo :=
  match readStructFromJSONFile W (Join [vm.DataDir, n, ascii "meta.json"]) fs with
  | .ok m => m
  | .error _ => none

/-- What a step may do outside the directory `D`: nothing, except create a
missing ancestor of `D` as a directory. -/
def frameOK (D : Path) (fs fs1 : FS) : Prop :=
  ∀ q, ¬ D <+: q → fs1.get q = fs.get q ∨ (q <+: D ∧ fs.get q = none ∧ fs1.get q = some .dir)

/-- An element of a cleaned relative path: `..` or a plain name. -/
def ddPlain (c : GoString) : Prop := c = [46, 46] ∨ plainName c

/-- A primitive change of the file system: `MkdirAll` of a resolved path, or
the creation or rewriting of the regular file at a resolved path. -/
inductive Act
  | mkdir (T : Path)
  | write (F : Path) (d : FileData)

/-- When a change can happen: `MkdirAll` needs a way free of regular files; a
file is written where no directory is and, if nothing is there, where the
parent is a directory. -/
def Act.valid (fs : FS) : Act → Prop
  | .mkdir T => fs.fileOnPath T = false
  | .write F _ =>
    F ≠ [] ∧ fs.get F ≠ some .dir ∧ (fs.get F = none → isDir (fs.get F.dropLast) = true)

/-- The file system after a change. -/
def Act.run (fs : FS) : Act → FS
  | .mkdir T => fs.mkdirs T
  | .write F d => fs.put F (.file d)

/-- The file system `fs1` is reached from `fs` by valid changes that all
satisfy `P`. -/
inductive Reach (P : Act → Prop) : FS → FS → Prop
  | refl (fs : FS) : Reach P fs fs
  | step {fs fs1 : FS} (a : Act) : Reach P fs fs1 → a.valid fs1 → P a → Reach P fs (a.run fs1)

/-- The changes the extraction of one entry may make: `MkdirAll` of its target
or of the directory of its target, and writing its target. -/
def entryAct (W : World) (dest : GoString) (f : ZipEntry) (a : Act) : Prop :=
  a = .mkdir (resolve W.cwd (Join [dest, f.Name])) ∨
  a = .mkdir (resolve W.cwd (Dir (Join [dest, f.Name]))) ∨
  ∃ d, a = .write (resolve W.cwd (Join [dest, f.Name])) d

/-- Where a regular file at `M` can come from in a call of `Install` that
fails: the write of the metadata failed after the file had been created in
place; or `M` is where the download was saved; or an entry of the downloaded
archive was extracted to `M`. -/
def failedInstallWrites (W : World) (vm : VersionManager) (M : Path) : Prop :=
  (W.writeFault M = true ∧ ∃ n, M = resolve W.cwd (Join [vm.DataDir, n, ascii "meta.json"])) ∨
  (∃ u, M = resolve W.cwd (Join [W.tmpDir, Base u])) ∨
  (∃ u es f, W.fetch u = .ok (.archive es) ∧ f ∈ es ∧
    M = resolve W.cwd (Join [vm.DataDir, f.Name]))

/-- Every entry of the archive is named `n`, or `n/` followed by plain names
(with or without a final `/`): the archive has the single top-level directory
`n` and uses neither `.` nor `..`. -/
def singleTopDir (n : GoString) (es : List ZipEntry) : Prop :=
  ∀ f ∈ es, ∃ P, (∀ c ∈ P, plainName c) ∧
    (splitPath f.Name = n :: P ∨ splitPath f.Name = n :: P ++ [[]])

/-- The install root is named by a non-empty path and nothing exists inside it. -/
def emptyRoot (W : World) (vm : VersionManager) (fs : FS) : Prop :=
  vm.DataDir ≠ [] ∧
    ∀ q, resolve W.cwd vm.DataDir <+: q → q ≠ resolve W.cwd vm.DataDir → fs.get q = none

/-- The path `p` is lexically a strict descendant of the path `d`: both are
rooted or neither is, and the elements of the cleaned `p` are those of the
cleaned `d` followed by at least one plain name. -/
def strictDescendant (p d : GoString) : Prop :=
  (p.head? = some 47 ↔ d.head? = some 47) ∧
    ∃ r, r ≠ [] ∧ (∀ c ∈ r, plainName c) ∧ cleanElems p = cleanElems d ++ r

/-- Whether the descriptor of a package has the distribution `d` and the JDK
version `v`, the two fields `Use` compares. -/
def descriptorMatches (d : GoString) (v : Int) (j : JavaPackage) : Bool :=
  match j.PackageMetaInfo with
  | some m => decide (m.Distribution = d ∧ m.JDKVersion = v)
  | none => false

/-- An error that neither is nor wraps `ErrJavaNotFound`. -/
def notNotFound (e : GoError) : Prop := e.Is .ErrJavaNotFound = false

/-- The shape of the elements of a cleaned relative path: some `..`, then plain
names. -/
def dotsThenPlain (X : List GoString) : Prop :=
  ∃ k P, X = List.replicate k [46, 46] ++ P ∧ ∀ c ∈ P, plainName c

/-- A node at `q` has a directory as its parent. -/
def parentDir (q : Path) (fs : FS) : Prop :=
  (fs.get q).isSome = true → isDir (fs.get q.dropLast) = true

/-! ## Concrete inputs -/

/-- A descriptor of the examples. -/
def exA : GetPackagesResponse :=
  { ID := ascii "pkg-1", Distribution := ascii "zulu", JDKVersion := 8, MajorVersion := 8 }

/-- Another descriptor of the examples. -/
def exB : GetPackagesResponse :=
  { ID := ascii "pkg-2", Distribution := ascii "temurin", JDKVersion := 8, MajorVersion := 8 }

/-- The archive of the examples: a directory `zulu8` that holds `bin/java`. -/
def exArchive : List ZipEntry :=
  [{ Name := ascii "zulu8/" }, { Name := ascii "zulu8/bin/" },
   { Name := ascii "zulu8/bin/java", body := .bytes [127, 69, 76, 70] }]

/-- The world of the examples: the catalog answers `[exA, exB]`, every redirect
ends at `https://cdn.example/zulu8.zip`, and every download is `exArchive`. -/
def exWorld : World :=
  { catalog := fun _ => .ok (.blob (.json (.obj [(ascii "result", .arr [encodeMeta exA, encodeMeta exB])])))
    redirect := fun _ => .response (ascii "https://cdn.example/zulu8.zip") none
    fetch := fun _ => .ok (.archive exArchive)
    tmpDir := ascii "/tmp"
    cwd := []
    writeFault := fun _ => false
    goos := ascii "linux"
    goarch := ascii "amd64" }

/-- The state of the examples: only `/tmp` and `/data` exist, nothing was sent. -/
def exState : State := { fs := [([ascii "tmp"], .dir), ([ascii "data"], .dir)], trace := [] }

/-- The version manager of the examples, rooted at `/data`. -/
def exVM : VersionManager := { DataDir := ascii "/data" }

/-- The file system of the counterexample to C1: the archive at
`/tmp/zulu8.zip`; `/data` does not exist. -/
def c1FS : FS :=
  [([ascii "tmp", ascii "zulu8.zip"], .file (.archive exArchive)), ([ascii "tmp"], .dir)]

/-- The archive of the counterexample to C2: a regular file, then an entry
that climbs out of the destination. -/
def c2Archive : List ZipEntry :=
  [{ Name := ascii "a.txt", body := .bytes [104, 105] }, { Name := ascii "../../evil" }]

/-- The file system of the counterexample to C2: the archive at `/tmp/a.zip`
and an empty destination `/d`. -/
def c2FS : FS :=
  [([ascii "tmp", ascii "a.zip"], .file (.archive c2Archive)), ([ascii "tmp"], .dir),
   ([ascii "d"], .dir)]

/-- The world of the counterexample to C4: as the example world, but writing the
data of `/data/zulu8/meta.json` fails. -/
def c4World : World :=
  { exWorld with writeFault := fun p => decide (p = [ascii "data", ascii "zulu8", ascii "meta.json"]) }

/-- The archive of the counterexample to C6: beside the directory `zulu8` it
holds a second top-level directory, `legal`. -/
def c6Archive : List ZipEntry :=
  [{ Name := ascii "zulu8/" }, { Name := ascii "zulu8/bin/" },
   { Name := ascii "zulu8/bin/java", body := .bytes [127, 69, 76, 70] }, { Name := ascii "legal/" }]

/-- The world of the counterexample to C6: as the example world, but every
download is `c6Archive`. -/
def c6World : World := { exWorld with fetch := fun _ => .ok (.archive c6Archive) }

/-- The descriptor of the counterexample to C5: its `ID` is the single byte
`0xFF`, which is not valid UTF-8. -/
def c5Meta : GetPackagesResponse := { ID := [0xFF] }

/-- The world of the counterexample to C9: the catalog request times out. -/
def c9World : World :=
  { catalog := fun _ => .error (.transport "timeout")
    redirect := fun _ => .noResponse (.transport "timeout")
    fetch := fun _ => .error (.transport "timeout")
    tmpDir := ascii "/tmp"
    cwd := []
    writeFault := fun _ => false
    goos := ascii "linux"
    goarch := ascii "amd64" }

/-- A file system of the counterexample to C11: the root `/data` holds the
subdirectory `a`, whose `meta.json` is the JSON document `null`. -/
def c11Null : FS :=
  [([ascii "data", ascii "a", ascii "meta.json"], .file (.blob (.json .null))),
   ([ascii "data", ascii "a"], .dir), ([ascii "data"], .dir)]

/-- The descriptor of the counterexample to C11: its major version is 22 and
its JDK version is 17. -/
def c11Meta : GetPackagesResponse :=
  { ID := ascii "pkg-g", Distribution := ascii "graalvm", MajorVersion := 22, JDKVersion := 17 }

/-- A file system of the counterexample to C11: the root `/data` holds the
subdirectory `g`, whose `meta.json` is the descriptor `c11Meta`. -/
def c11Graal : FS :=
  [([ascii "data", ascii "g", ascii "meta.json"], .file (.blob (.json (encodeMeta c11Meta)))),
   ([ascii "data", ascii "g"], .dir), ([ascii "data"], .dir)]

/-- A state of the failing input of C13: the install root `/data` does not exist. -/
def c13NoRoot : State := { fs := [([ascii "tmp"], .dir)], trace := [] }

/-- A state of the failing input of C13: the subdirectory `/data/a` has no
`meta.json`. -/
def c13NoMeta : State :=
  { fs := [([ascii "data", ascii "a"], .dir), ([ascii "data"], .dir), ([ascii "tmp"], .dir)],
    trace := [] }

/-- A world of the counterexample to C14: as the example world, but every
redirect ends at `https://cdn.example/.zip`. -/
def c14World : World :=
  { exWorld with redirect := fun _ => .response (ascii "https://cdn.example/.zip") none }

/-- A world of the counterexample to C14: as the example world, but every
redirect ends at `https://cdn.example/...zip`. -/
def c14WorldUp : World :=
  { exWorld with redirect := fun _ => .response (ascii "https://cdn.example/...zip") none }

/-- The world of the failing input of C16: as the example world, but the
redirect request gets no response. -/
def c16World : World :=
  { exWorld with redirect := fun _ => .noResponse (.transport "dial tcp: connection refused") }

/-- The world of the failing input of C19: as the example world, with the
working directory `/a/b`. -/
def c19World : World := { exWorld with cwd := [ascii "a", ascii "b"] }

/-- The file system of the failing input of C19: the directories `/a` and
`/a/b`. -/
def c19FS : FS := [([ascii "a", ascii "b"], .dir), ([ascii "a"], .dir)]

/-- The archive of the counterexample to C20: its single top-level directory,
`jdk8u372`, is not named after the archive file. -/
def c20Archive : List ZipEntry :=
  [{ Name := ascii "jdk8u372/" }, { Name := ascii "jdk8u372/bin/" },
   { Name := ascii "jdk8u372/bin/java", body := .bytes [127, 69, 76, 70] }]

/-- The world of the counterexample to C20: as the example world, but every
download is `c20Archive`. -/
def c20World : World := { exWorld with fetch := fun _ => .ok (.archive c20Archive) }

/-! ## Lemmas: UTF-8 -/

theorem contBytes_length : ∀ (k : Nat) (r : GoString), contBytes k r = true → k ≤ r.length
  | 0, _, _ => Nat.zero_le _
  | k + 1, [], h => by simp [contBytes] at h
  | k + 1, b :: r, h => by
    simp only [contBytes, Bool.and_eq_true] at h
    have := contBytes_length k r h.2
    simp only [List.length_cons]
    omega

theorem contBytes_take : ∀ (k : Nat) (r xs : GoString), contBytes k r = true →
    contBytes k (r.take k ++ xs) = true
  | 0, _, _, _ => by simp [contBytes]
  | k + 1, [], _, h => by simp [contBytes] at h
  | k + 1, b :: r, xs, h => by
    simp only [contBytes, Bool.and_eq_true] at h
    simp only [List.take_succ_cons, List.cons_append, contBytes, Bool.and_eq_true]
    exact ⟨h.1, contBytes_take k r xs h.2⟩

theorem utf8Tail_cases (n lo hi : Nat) (r : GoString) :
    utf8Tail n lo hi r = 0 ∨ (utf8Tail n lo hi r = n + 1 ∧ ∃ b1 r1, r = b1 :: r1 ∧
      inRange lo hi b1 = true ∧ contBytes (n - 1) r1 = true) := by
  cases r with
  | nil => left; rfl
  | cons b1 r1 =>
    simp only [utf8Tail]
    split
    · right
      rename_i h
      simp only [Bool.and_eq_true] at h
      exact ⟨rfl, b1, r1, rfl, h.1, h.2⟩
    · left; rfl

theorem utf8Tail_take (n lo hi m : Nat) (r xs : GoString) (hn : 1 ≤ n)
    (h : utf8Tail n lo hi r = m + 1) :
    m = n ∧ n ≤ r.length ∧ utf8Tail n lo hi (r.take n ++ xs) = n + 1 := by
  rcases utf8Tail_cases n lo hi r with h0 | ⟨h1, b1, r1, rfl, hb, hc⟩
  · rw [h0] at h; omega
  · rw [h1] at h
    obtain ⟨k, rfl⟩ : ∃ k, n = k + 1 := ⟨n - 1, by omega⟩
    have hl := contBytes_length _ _ hc
    refine ⟨by omega, by simp only [List.length_cons]; simp at hl; omega, ?_⟩
    simp only [List.take_succ_cons, List.cons_append, utf8Tail, hb, Bool.true_and]
    simp only [Nat.add_sub_cancel] at hc ⊢
    rw [contBytes_take k r1 xs hc]
    simp

theorem utf8First_pos (b n lo hi : Nat) (h : utf8First b = some (n, lo, hi)) : 1 ≤ n := by
  unfold utf8First at h
  split_ifs at h <;> simp at h <;> omega

theorem utf8Len_take (b : Nat) (bs xs : GoString) (m : Nat) (h : utf8Len (b :: bs) = m + 1) :
    m ≤ bs.length ∧ utf8Len (b :: (bs.take m ++ xs)) = m + 1 := by
  simp only [utf8Len] at h ⊢
  by_cases h1 : b < 128
  · simp only [h1, if_true] at h ⊢
    have : m = 0 := by omega
    subst this
    simp
  · simp only [h1, if_false] at h ⊢
    cases hf : utf8First b with
    | none => simp [hf] at h
    | some t =>
      obtain ⟨n, lo, hi⟩ := t
      simp only [hf] at h ⊢
      obtain ⟨rfl, hl, ht⟩ := utf8Tail_take n lo hi m bs xs (utf8First_pos b n lo hi hf) h
      exact ⟨hl, ht⟩

theorem toValidUTF8Aux_of_valid : ∀ (fuel : Nat) (bs : GoString),
    validUTF8Aux fuel bs = true → toValidUTF8Aux fuel bs = bs
  | _, [], _ => by cases ‹Nat› <;> rfl
  | 0, _ :: _, h => by simp [validUTF8Aux] at h
  | fuel + 1, b :: bs, h => by
    cases hn : utf8Len (b :: bs) with
    | zero => simp [validUTF8Aux, hn] at h
    | succ n =>
      simp only [validUTF8Aux, hn] at h
      simp only [toValidUTF8Aux, hn]
      rw [toValidUTF8Aux_of_valid fuel _ h, List.take_append_drop]

theorem validUTF8Aux_toValid : ∀ (fuel : Nat) (bs : GoString) (fuel2 : Nat),
    (toValidUTF8Aux fuel bs).length ≤ fuel2 → validUTF8Aux fuel2 (toValidUTF8Aux fuel bs) = true
  | _, [], _, _ => by cases ‹Nat› <;> simp [toValidUTF8Aux, validUTF8Aux]
  | 0, _ :: _, _, _ => by simp [toValidUTF8Aux, validUTF8Aux]
  | fuel + 1, b :: bs, fuel2, hl => by
    cases hn : utf8Len (b :: bs) with
    | zero =>
      simp only [toValidUTF8Aux, hn, List.length_cons] at hl ⊢
      obtain ⟨f, rfl⟩ : ∃ f, fuel2 = f + 1 := ⟨fuel2 - 1, by omega⟩
      have hlen : utf8Len (0xEF :: 0xBF :: 0xBD :: toValidUTF8Aux fuel bs) = 2 + 1 := by
        simp [utf8Len, utf8First, utf8Tail, inRange, contBytes]
      simp only [validUTF8Aux, hlen, List.drop_succ_cons, List.drop_zero]
      exact validUTF8Aux_toValid fuel bs f (by omega)
    | succ n =>
      simp only [toValidUTF8Aux, hn, List.length_cons, List.length_append] at hl ⊢
      obtain ⟨f, rfl⟩ : ∃ f, fuel2 = f + 1 := ⟨fuel2 - 1, by omega⟩
      obtain ⟨hle, hlen⟩ := utf8Len_take b bs (toValidUTF8Aux fuel (List.drop n bs)) n hn
      simp only [validUTF8Aux, hlen]
      have hd : List.drop n (List.take n bs ++ toValidUTF8Aux fuel (List.drop n bs))
          = toValidUTF8Aux fuel (List.drop n bs) := by
        rw [List.drop_append_of_le_length (by simp; omega)]
        simp [List.drop_take]
      rw [hd]
      exact validUTF8Aux_toValid fuel _ f (by omega)

theorem toValidUTF8_of_valid (s : GoString) (h : validUTF8 s = true) : toValidUTF8 s = s :=
  toValidUTF8Aux_of_valid _ _ h

theorem validUTF8_toValidUTF8 (s : GoString) : validUTF8 (toValidUTF8 s) = true :=
  validUTF8Aux_toValid _ _ _ (Nat.le_refl _)

theorem toValidUTF8_idem (s : GoString) : toValidUTF8 (toValidUTF8 s) = toValidUTF8 s :=
  toValidUTF8_of_valid _ (validUTF8_toValidUTF8 s)

/-! ## Lemmas: the JSON codec -/

theorem Except_map_ok {ε α β : Type} (f : α → β) (e : Except ε α) (b : β)
    (h : Except.map f e = .ok b) : ∃ a, e = .ok a ∧ b = f a := by
  cases e with
  | error x => simp [Except.map] at h
  | ok a => exact ⟨a, rfl, by simpa [Except.map] using h.symm⟩

theorem decodeFields_inv {α : Type} (P : α → Prop)
    (set : α → GoString → Json → Except GoError α)
    (hset : ∀ d k v d1, P d → set d k v = .ok d1 → P d1) :
    ∀ (kvs : List (GoString × Json)) (d d1 : α), P d → decodeFields set kvs d = .ok d1 → P d1
  | [], d, d1, hd, h => by
    simp only [decodeFields, Except.ok.injEq] at h
    exact h ▸ hd
  | (k, v) :: rest, d, d1, hd, h => by
    simp only [decodeFields] at h
    cases hs : set d k v with
    | error e => simp [hs] at h
    | ok d2 =>
      simp only [hs] at h
      exact decodeFields_inv P set hset rest d2 d1 (hset d k v d2 hd hs) h

theorem decodeElems_inv {α : Type} (P : α → Prop) (dec : Json → Except GoError α)
    (hdec : ∀ v a, dec v = .ok a → P a) :
    ∀ (xs : List Json) (r : List α), decodeElems dec xs = .ok r → ∀ a ∈ r, P a
  | [], r, h => by
    simp only [decodeElems, Except.ok.injEq] at h
    subst h
    simp
  | x :: xs, r, h => by
    simp only [decodeElems] at h
    cases hx : dec x with
    | error e => simp [hx] at h
    | ok a =>
      cases hr : decodeElems dec xs with
      | error e => simp [hx, hr] at h
      | ok r1 =>
        simp only [hx, hr, Except.ok.injEq] at h
        subst h
        intro b hb
        rcases List.mem_cons.1 hb with rfl | hb
        · exact hdec x _ hx
        · exact decodeElems_inv P dec hdec xs r1 hr b hb

theorem decString_valid (cur x : GoString) (v : Json) (hc : validUTF8 cur = true)
    (h : decString cur v = .ok x) : validUTF8 x = true := by
  cases v <;> simp [decString] at h
  · exact h ▸ hc
  · exact h ▸ validUTF8_toValidUTF8 _

theorem decInt_valid (cur x : Int) (v : Json) (hc : int64OK cur = true)
    (h : decInt cur v = .ok x) : int64OK x = true := by
  cases v <;> simp only [decInt] at h
  · simp only [Except.ok.injEq] at h; exact h ▸ hc
  all_goals try (simp at h)
  · split at h
    · rename_i hr
      simp only [Except.ok.injEq] at h
      subst h
      simpa [int64OK] using hr
    · simp at h

theorem setFeatureField_ok (f : GetSupportedArchiveTypesResponse) (k : GoString) (v : Json)
    (f1 : GetSupportedArchiveTypesResponse) (hf : featureOK f = true)
    (h : setFeatureField f k v = .ok f1) : featureOK f1 = true := by
  simp only [featureOK, Bool.and_eq_true] at hf
  obtain ⟨⟨h1, h2⟩, h3⟩ := hf
  unfold setFeatureField at h
  split_ifs at h
  all_goals first
    | (obtain ⟨x, hx, rfl⟩ := Except_map_ok _ _ _ h
       have := decString_valid _ _ _ (by assumption) hx
       simp [featureOK, *])
    | (simp only [Except.ok.injEq] at h; subst h; simp [featureOK, *])

theorem decodeFeature_ok (v : Json) (f : GetSupportedArchiveTypesResponse)
    (h : decodeFeature v = .ok f) : featureOK f = true := by
  cases v <;> simp only [decodeFeature] at h
  · simp only [Except.ok.injEq] at h; subst h; decide
  all_goals try (simp at h)
  · exact decodeFields_inv (fun f => featureOK f = true) _ setFeatureField_ok _ _ _ (by decide) h

theorem setLinksField_ok (l : PackageLinks) (k : GoString) (v : Json) (l1 : PackageLinks)
    (hl : linksOK l = true) (h : setLinksField l k v = .ok l1) : linksOK l1 = true := by
  simp only [linksOK, Bool.and_eq_true] at hl
  obtain ⟨h1, h2⟩ := hl
  unfold setLinksField at h
  split_ifs at h
  all_goals first
    | (obtain ⟨x, hx, rfl⟩ := Except_map_ok _ _ _ h
       have := decString_valid _ _ _ (by assumption) hx
       simp [linksOK, *])
    | (simp only [Except.ok.injEq] at h; subst h; simp [linksOK, *])

theorem decLinks_ok (cur l : PackageLinks) (v : Json) (hc : linksOK cur = true)
    (h : decLinks cur v = .ok l) : linksOK l = true := by
  cases v <;> simp only [decLinks] at h
  · simp only [Except.ok.injEq] at h; exact h ▸ hc
  all_goals try (simp at h)
  · exact decodeFields_inv (fun f => linksOK f = true) _ setLinksField_ok _ _ _ hc h

theorem decFeatures_ok (v : Json) (r : Option (List GetSupportedArchiveTypesResponse))
    (h : decFeatures v = .ok r) : featuresOK r = true := by
  cases v <;> simp only [decFeatures] at h
  · simp only [Except.ok.injEq] at h; subst h; rfl
  all_goals try (simp at h)
  · obtain ⟨fs, hfs, rfl⟩ := Except_map_ok _ _ _ h
    simp only [featuresOK, List.all_eq_true]
    exact decodeElems_inv (fun f => featureOK f = true) _ decodeFeature_ok _ _ hfs

theorem ite_eq_cases {α : Type} {c : Prop} [Decidable c] {a b r : α}
    (h : (if c then a else b) = r) : (c ∧ a = r) ∨ (¬ c ∧ b = r) := by
  by_cases hc : c
  · exact Or.inl ⟨hc, by rwa [if_pos hc] at h⟩
  · exact Or.inr ⟨hc, by rwa [if_neg hc] at h⟩

theorem metaOK_step (d1 : GetPackagesResponse) {α : Type} (e : Except GoError α)
    (f : α → GetPackagesResponse) (P : α → Prop)
    (he : ∀ x, e = .ok x → P x) (hf : ∀ x, P x → metaOK (f x) = true)
    (h : Except.map f e = .ok d1) : metaOK d1 = true := by
  obtain ⟨x, hx, rfl⟩ := Except_map_ok _ _ _ h
  exact hf x (he x hx)

set_option maxHeartbeats 4000000 in
theorem setMetaField_ok (d : GetPackagesResponse) (k : GoString) (v : Json)
    (d1 : GetPackagesResponse) (hd : metaOK d = true) (h : setMetaField d k v = .ok d1) :
    metaOK d1 = true := by
  have hd0 := hd
  simp only [metaOK, Bool.and_eq_true] at hd
  obtain ⟨⟨⟨⟨⟨⟨⟨⟨⟨⟨⟨⟨⟨⟨⟨⟨⟨⟨⟨⟨⟨h1, h2⟩, h3⟩, h4⟩, h5⟩, h6⟩, h7⟩, h8⟩, h9⟩, h10⟩, h11⟩, h12⟩,
    h13⟩, h14⟩, h15⟩, h16⟩, h17⟩, h18⟩, h19⟩, h20⟩, h21⟩, h22⟩ := hd
  have hS : ∀ cur, validUTF8 cur = true → ∀ x, decString cur v = .ok x → validUTF8 x = true :=
    fun cur hc x hx => decString_valid cur x v hc hx
  have hI : ∀ cur, int64OK cur = true → ∀ x, decInt cur v = .ok x → int64OK x = true :=
    fun cur hc x hx => decInt_valid cur x v hc hx
  have hB : ∀ cur : Bool, ∀ x, decBool cur v = .ok x → True := fun _ _ _ => trivial
  unfold setMetaField at h
  iterate 26
    replace h := ite_eq_cases h
    rcases h with ⟨-, h⟩ | ⟨-, h⟩
    · first
      | exact metaOK_step d1 _ _ _ (hS _ (by assumption))
          (fun x hx => by simp only [metaOK, Bool.and_eq_true]; simp only [*, and_self])
          h
      | exact metaOK_step d1 _ _ _ (hI _ (by assumption))
          (fun x hx => by simp only [metaOK, Bool.and_eq_true]; simp only [*, and_self])
          h
      | exact metaOK_step d1 _ _ _ (hB _)
          (fun x hx => by simp only [metaOK, Bool.and_eq_true]; simp only [*, and_self])
          h
      | exact metaOK_step d1 _ _ (fun l => linksOK l = true)
          (fun x hx => decLinks_ok _ _ _ (by assumption) hx)
          (fun x hx => by simp only [metaOK, Bool.and_eq_true]; simp only [*, and_self])
          h
      | exact metaOK_step d1 _ _ (fun r => featuresOK r = true) (fun x hx => decFeatures_ok _ _ hx)
          (fun x hx => by simp only [metaOK, Bool.and_eq_true]; simp only [*, and_self])
          h
  simp only [Except.ok.injEq] at h
  exact h ▸ hd0

theorem decMeta_ok (cur d : GetPackagesResponse) (v : Json) (hc : metaOK cur = true)
    (h : decMeta cur v = .ok d) : metaOK d = true := by
  cases v <;> simp only [decMeta] at h
  · simp only [Except.ok.injEq] at h; exact h ▸ hc
  all_goals try (simp at h)
  · exact decodeFields_inv (fun f => metaOK f = true) _ setMetaField_ok _ _ _ hc h

theorem decodeFeature_encodeFeature (f : GetSupportedArchiveTypesResponse) (h : featureOK f = true) :
    decodeFeature (encodeFeature f) = .ok f := by
  simp only [featureOK, Bool.and_eq_true] at h
  obtain ⟨⟨h1, h2⟩, h3⟩ := h
  simp +decide [decodeFeature, encodeFeature, decodeFields, setFeatureField, decString, Except.map,
    toValidUTF8_of_valid, h1, h2, h3]

theorem decodeElems_encodeFeature : ∀ (fs : List GetSupportedArchiveTypesResponse),
    fs.all featureOK = true → decodeElems decodeFeature (fs.map encodeFeature) = .ok fs
  | [], _ => rfl
  | f :: fs, h => by
    simp only [List.all_cons, Bool.and_eq_true] at h
    simp only [List.map_cons, decodeElems, decodeFeature_encodeFeature f h.1,
      decodeElems_encodeFeature fs h.2]

theorem decInt_num (cur n : Int) (h : int64OK n = true) : decInt cur (.num n) = .ok n := by
  simp only [int64OK, Bool.and_eq_true, decide_eq_true_eq] at h
  exact if_pos h

theorem decString_str (cur s : GoString) (h : validUTF8 s = true) :
    decString cur (.str (toValidUTF8 s)) = .ok s := by
  simp [decString, toValidUTF8_of_valid, h]

set_option maxHeartbeats 1000000 in
theorem decMeta_encodeMeta (d : GetPackagesResponse) (h : metaOK d = true) :
    decMeta {} (encodeMeta d) = .ok d := by
  obtain ⟨ID, ArchiveType, Distribution, MajorVersion, JavaVersion, DistributionVersion,
    JDKVersion, LatestBuildAvailable, ReleaseStatus, TermOfSupport, OperatingSystem, LibCType,
    Architecture, FPU, PackageType, JavaFXBundled, DirectlyDownloadable, Filename, ⟨l1, l2⟩,
    FreeUseInProduction, TCKTested, TCKCertURI, AqavitCertified, AqavitCertURI, Size, Feature⟩ := d
  simp only [metaOK, linksOK, Bool.and_eq_true] at h
  obtain ⟨⟨⟨⟨⟨⟨⟨⟨⟨⟨⟨⟨⟨⟨⟨⟨⟨⟨⟨⟨⟨h1, h2⟩, h3⟩, h4⟩, h5⟩, h6⟩, h7⟩, h8⟩, h9⟩, h10⟩, h11⟩, h12⟩,
    h13⟩, h14⟩, h15⟩, ⟨h16, h16b⟩⟩, h17⟩, h18⟩, h19⟩, h20⟩, h21⟩, h22⟩ := h
  cases Feature with
  | none =>
    simp +decide [decMeta, encodeMeta, decodeFields, setMetaField, decString_str, decInt_num,
      decBool, decLinks, setLinksField, decFeatures, Except.map, *]
  | some fs =>
    simp only [featuresOK] at h22
    simp +decide [decMeta, encodeMeta, decodeFields, setMetaField, decString_str, decInt_num,
      decBool, decLinks, setLinksField, decFeatures, Except.map,
      decodeElems_encodeFeature, *]

/-! ## Lemmas: the requests a call sends -/

@[simp] theorem State.log_trace (s : State) (e : Event) : (s.log e).trace = s.trace ++ [e] := rfl
@[simp] theorem State.log_fs (s : State) (e : Event) : (s.log e).fs = s.fs := rfl

theorem GetPackageRedirect_eq (W : World) (id : GoString) (s : State) :
    GetPackageRedirect W id s =
      (match W.redirect id with
        | .response finalURL err => .val (finalURL, err)
        | .noResponse _ => .panic "invalid memory address or nil pointer dereference",
       s.log (.redirect id)) := by
  unfold GetPackageRedirect
  cases W.redirect id <;> rfl

theorem GetFilename_snd (W : World) (id : GoString) (s : State) :
    (GetFilename W id s).2 = s.log (.redirect id) := by
  unfold GetFilename
  rw [GetPackageRedirect_eq]
  cases W.redirect id with
  | response u err => cases err <;> rfl
  | noResponse e => rfl

theorem GetPackages_snd (W : World) (o : GetPackagesOptions) (s : State) :
    (GetPackages W o s).2 = s.log (.getPackages o) := by
  unfold GetPackages
  split <;> rfl

theorem DownloadFile_trace (W : World) (url dest : GoString) (s : State) :
    (DownloadFile W url dest s).2.trace = s.trace ++ [.download url] := by
  unfold DownloadFile
  split
  · rfl
  · split <;> rfl

theorem DownloadJavaByID_trace (W : World) (id dst : GoString) (s : State) :
    ∃ evs, (DownloadJavaByID W id dst s).2.trace = s.trace ++ evs ∧
      ∀ e ∈ evs, packageEvent W id e := by
  unfold DownloadJavaByID
  rw [GetPackageRedirect_eq]
  cases hr : W.redirect id with
  | noResponse e => exact ⟨[.redirect id], rfl, by simp [packageEvent]⟩
  | response u err =>
    cases err with
    | some e => exact ⟨[.redirect id], rfl, by simp [packageEvent]⟩
    | none =>
      refine ⟨[.redirect id, .download u], ?_, ?_⟩
      · simp [DownloadFile_trace]
      · intro e he
        simp only [List.mem_cons, List.mem_singleton, List.not_mem_nil, or_false] at he
        rcases he with rfl | rfl
        · exact Or.inl rfl
        · exact Or.inr ⟨u, hr, rfl⟩

theorem installFresh_trace (W : World) (vm : VersionManager) (p0 : GetPackagesResponse)
    (dirname : GoString) (s : State) :
    (installFresh W vm p0 dirname s).2.trace = (DownloadJavaByID W p0.ID W.tmpDir s).2.trace := by
  unfold installFresh
  split
  · rename_i h; rw [h]
  · rename_i h; rw [h]
  · rename_i h; rw [h]
  · rename_i h; rw [h]
    split
    · rfl
    · split <;> rfl

theorem installPackage_trace (W : World) (vm : VersionManager) (p0 : GetPackagesResponse)
    (s : State) :
    ∃ evs, (installPackage W vm p0 s).2.trace = s.trace ++ evs ∧
      ∀ e ∈ evs, packageEvent W p0.ID e := by
  have hone : ∃ evs, (s.log (Event.redirect p0.ID)).trace = s.trace ++ evs ∧
      ∀ e ∈ evs, packageEvent W p0.ID e :=
    ⟨[.redirect p0.ID], rfl, by simp [packageEvent]⟩
  have hs := GetFilename_snd W p0.ID s
  unfold installPackage
  split
  · rename_i h; rw [h] at hs; simp only at hs; subst hs; exact hone
  · rename_i h; rw [h] at hs; simp only at hs; subst hs; exact hone
  · rename_i h; rw [h] at hs; simp only at hs; subst hs
    split
    · split <;> exact hone
    · split
      · exact hone
      · rw [installFresh_trace]
        obtain ⟨evs, h1, h2⟩ := DownloadJavaByID_trace W p0.ID W.tmpDir (s.log (.redirect p0.ID))
        refine ⟨.redirect p0.ID :: evs, ?_, ?_⟩
        · rw [h1]; simp
        · intro e he
          rcases List.mem_cons.1 he with rfl | he
          · exact Or.inl rfl
          · exact h2 e he

theorem Install_trace (W : World) (vm : VersionManager) (o : JavaInstallOptions) (s : State) :
    ∃ evs, (VersionManager.Install W vm o s).2.trace =
        s.trace ++ Event.getPackages { o with ArchiveType := [ascii "zip"] } :: evs ∧
      ∀ e ∈ evs, ∃ p0 rest, (GetPackages W { o with ArchiveType := [ascii "zip"] } s).1 = .ok (p0 :: rest) ∧ packageEvent W p0.ID e := by
  have hs := GetPackages_snd W { o with ArchiveType := [ascii "zip"] } s
  unfold VersionManager.Install
  split
  · rename_i h; rw [h] at hs; simp only at hs; subst hs; exact ⟨[], by simp, by simp⟩
  · rename_i h; rw [h] at hs; simp only at hs; subst hs; exact ⟨[], by simp, by simp⟩
  · rename_i p0 rest s1 h; rw [h] at hs; simp only at hs; subst hs
    obtain ⟨evs, h1, h2⟩ := installPackage_trace W vm p0 (s.log (.getPackages { o with ArchiveType := [ascii "zip"] }))
    refine ⟨evs, ?_, ?_⟩
    · rw [h1]; simp
    · intro e he
      exact ⟨p0, rest, by rw [h], h2 e he⟩

/-! ## Lemmas: paths -/

theorem splitPath_ne_nil : ∀ p : GoString, splitPath p ≠ []
  | [] => by simp [splitPath]
  | c :: cs => by
    simp only [splitPath]
    split <;> simp

theorem splitPath_cons (c : Nat) (cs : GoString) :
    splitPath (c :: cs) =
      if c = 47 then [] :: splitPath cs
      else (c :: (splitPath cs).headD []) :: (splitPath cs).tail := rfl

theorem splitPath_append_sep : ∀ a b : GoString,
    splitPath (a ++ 47 :: b) = splitPath a ++ splitPath b
  | [], b => by simp [splitPath]
  | c :: a, b => by
    have ih := splitPath_append_sep a b
    rw [List.cons_append, splitPath_cons, splitPath_cons, ih]
    by_cases hc : c = 47
    · simp [hc]
    · simp only [hc, if_false]
      cases h : splitPath a with
      | nil => exact absurd h (splitPath_ne_nil a)
      | cons x xs => simp

theorem splitPath_of_not_mem : ∀ c : GoString, 47 ∉ c → splitPath c = [c]
  | [], _ => rfl
  | x :: c, h => by
    simp only [List.mem_cons, not_or] at h
    have ih := splitPath_of_not_mem c h.2
    simp only [splitPath, ih]
    rw [if_neg (fun e => h.1 e.symm)]
    simp

theorem splitPath_slashFree : ∀ (p : GoString) (c : GoString), c ∈ splitPath p → 47 ∉ c
  | [], c, h => by
    simp only [splitPath, List.mem_singleton] at h
    subst h; simp
  | x :: p, c, h => by
    have ih := splitPath_slashFree p
    simp only [splitPath] at h
    split at h
    · rcases List.mem_cons.1 h with rfl | h
      · simp
      · exact ih c h
    · rename_i hx
      cases hs : splitPath p with
      | nil => exact absurd hs (splitPath_ne_nil p)
      | cons y ys =>
        rw [hs] at h ih
        simp only [List.headD_cons, List.tail_cons, List.mem_cons] at h
        rcases h with rfl | h
        · intro hm
          rcases List.mem_cons.1 hm with e | hm
          · exact hx e.symm
          · exact ih y (List.mem_cons_self _ _) hm
        · exact ih c (List.mem_cons_of_mem _ h)

theorem joinSlash_cons_cons (c d : GoString) (cs : List GoString) :
    joinSlash (c :: d :: cs) = c ++ 47 :: joinSlash (d :: cs) := rfl

theorem splitPath_joinSlash : ∀ X : List GoString, X ≠ [] → (∀ c ∈ X, 47 ∉ c) →
    splitPath (joinSlash X) = X
  | [], h, _ => absurd rfl h
  | [c], _, hc => by
    simp only [joinSlash]
    exact splitPath_of_not_mem c (hc c (List.mem_singleton_self c))
  | c :: d :: cs, _, hc => by
    rw [joinSlash_cons_cons, splitPath_append_sep,
      splitPath_of_not_mem c (hc c (List.mem_cons_self _ _)),
      splitPath_joinSlash (d :: cs) (by simp) (fun x hx => hc x (List.mem_cons_of_mem _ hx))]
    rfl

theorem cleanStep_true_plain (st : List GoString) (c : GoString) (h : plainName c) :
    cleanStep true st c = st ++ [c] := by
  obtain ⟨h1, h2, h3, -⟩ := h
  simp [cleanStep, h1, h2, h3]

theorem foldl_cleanStep_plain : ∀ (X st : List GoString), (∀ c ∈ X, plainName c) →
    X.foldl (cleanStep true) st = st ++ X
  | [], st, _ => by simp
  | c :: X, st, h => by
    simp only [List.foldl_cons, cleanStep_true_plain st c (h c (List.mem_cons_self _ _))]
    rw [foldl_cleanStep_plain X _ (fun x hx => h x (List.mem_cons_of_mem _ hx))]
    simp

theorem mem_dropLast {α : Type} {a : α} {l : List α} (h : a ∈ l.dropLast) : a ∈ l :=
  (List.dropLast_subset l) h

theorem cleanStep_true_allPlain (st : List GoString) (c : GoString)
    (hst : ∀ x ∈ st, plainName x) (hc : 47 ∉ c) : ∀ x ∈ cleanStep true st c, plainName x := by
  unfold cleanStep
  split
  · exact hst
  · rename_i h1
    split
    · simp only [if_true]
      exact fun x hx => hst x (mem_dropLast hx)
    · rename_i h2
      intro x hx
      rcases List.mem_append.1 hx with hx | hx
      · exact hst x hx
      · simp only [List.mem_singleton] at hx
        subst hx
        simp only [not_or] at h1
        exact ⟨h1.1, h1.2, h2, hc⟩

theorem foldl_cleanStep_allPlain : ∀ (cs st : List GoString), (∀ x ∈ st, plainName x) →
    (∀ c ∈ cs, 47 ∉ c) → ∀ x ∈ cs.foldl (cleanStep true) st, plainName x
  | [], st, hst, _ => by simpa using hst
  | c :: cs, st, hst, hcs => by
    simp only [List.foldl_cons]
    exact foldl_cleanStep_allPlain cs _
      (cleanStep_true_allPlain st c hst (hcs c (List.mem_cons_self _ _)))
      (fun x hx => hcs x (List.mem_cons_of_mem _ hx))

/-- The elements of a rooted path after cleaning. -/
theorem resolve_rooted (cwd : Path) (p : GoString) (h : p.head? = some 47) :
    resolve cwd p = (splitPath p).foldl (cleanStep true) [] := by
  simp [resolve, h]

theorem resolve_allPlain (cwd : Path) (p : GoString) (hcwd : ∀ x ∈ cwd, plainName x) :
    ∀ x ∈ resolve cwd p, plainName x := by
  unfold resolve
  apply foldl_cleanStep_allPlain _ _ _ (splitPath_slashFree p)
  split
  · simp
  · exact hcwd

theorem plain_slashFree {X : List GoString} (h : ∀ c ∈ X, plainName c) : ∀ c ∈ X, 47 ∉ c :=
  fun c hc => (h c hc).2.2.2

/-- Resolving the rendering of plain elements gives the elements back. -/
theorem resolve_render (cwd : Path) (X : List GoString) (hX : ∀ c ∈ X, plainName c) :
    resolve cwd (47 :: joinSlash X) = X := by
  rw [resolve_rooted cwd (47 :: joinSlash X) rfl]
  have : splitPath (47 :: joinSlash X) = [] :: splitPath (joinSlash X) := by simp [splitPath]
  rw [this]
  simp only [List.foldl_cons]
  have h0 : cleanStep true [] [] = [] := by simp [cleanStep]
  rw [h0]
  cases X with
  | nil => simp [joinSlash, splitPath, cleanStep]
  | cons c X =>
    rw [splitPath_joinSlash _ (by simp) (plain_slashFree hX), foldl_cleanStep_plain _ _ hX]
    simp

theorem Clean_rooted (p : GoString) (h : p.head? = some 47) :
    Clean p = 47 :: joinSlash ((splitPath p).foldl (cleanStep true) []) := by
  have hp : p ≠ [] := by rintro rfl; simp at h
  simp [Clean, hp, h, render]

theorem resolve_Clean_rooted (cwd : Path) (p : GoString) (h : p.head? = some 47) :
    resolve cwd (Clean p) = resolve cwd p := by
  rw [Clean_rooted p h, resolve_rooted cwd p h]
  exact resolve_render cwd _ (foldl_cleanStep_allPlain _ _ (by simp) (splitPath_slashFree p))

theorem plain_ne_nil {c : GoString} (h : plainName c) : c ≠ [] := h.1

theorem joinSlash_cons (c : GoString) (cs : List GoString) :
    joinSlash (c :: cs) = c ++ (if cs = [] then [] else 47 :: joinSlash cs) := by
  cases cs with
  | nil => simp [joinSlash]
  | cons d cs => simp [joinSlash]

theorem joinSlash_append_singleton : ∀ (T : List GoString) (t : GoString), T ≠ [] →
    joinSlash (T ++ [t]) = joinSlash T ++ 47 :: t
  | [], _, h => absurd rfl h
  | [c], t, _ => by simp [joinSlash]
  | c :: d :: T, t, _ => by
    have ih := joinSlash_append_singleton (d :: T) t (by simp)
    simp only [List.cons_append] at ih ⊢
    rw [joinSlash_cons_cons, ih, joinSlash_cons_cons]
    simp

/-- Two strings that agree up to their first separator. -/
theorem append_sep_inj : ∀ (d t X Y : GoString), 47 ∉ d → 47 ∉ t →
    d ++ 47 :: X = t ++ 47 :: Y → d = t ∧ X = Y
  | [], [], X, Y, _, _, h => by simpa using h
  | [], b :: t, X, Y, _, ht, h => by
    simp only [List.nil_append, List.cons_append, List.cons.injEq] at h
    exact absurd (h.1 ▸ List.mem_cons_self _ _) ht
  | a :: d, [], X, Y, hd, _, h => by
    simp only [List.nil_append, List.cons_append, List.cons.injEq] at h
    exact absurd (h.1 ▸ List.mem_cons_self _ _) hd
  | a :: d, b :: t, X, Y, hd, ht, h => by
    simp only [List.cons_append, List.cons.injEq] at h
    obtain ⟨h1, h2⟩ := append_sep_inj d t X Y (fun m => hd (List.mem_cons_of_mem _ m))
      (fun m => ht (List.mem_cons_of_mem _ m)) h.2
    exact ⟨by rw [h.1, h1], h2⟩

theorem not_sep_prefix (d t X Z : GoString) (ht : 47 ∉ t) : t ≠ d ++ 47 :: X ++ Z := by
  intro h
  apply ht
  rw [h]
  simp

/-- The check of `extractAndWriteFile` on rendered plain paths. -/
theorem joinSlash_sep_prefix : ∀ (D T : List GoString), (∀ c ∈ D, plainName c) →
    (∀ c ∈ T, plainName c) → joinSlash D ++ [47] <+: joinSlash T →
    ∃ rest, rest ≠ [] ∧ T = D ++ rest
  | [], [], _, _, h => by
    obtain ⟨Z, hZ⟩ := h
    simp [joinSlash] at hZ
  | [], t :: T, _, hT, h => by
    obtain ⟨Z, hZ⟩ := h
    rw [joinSlash_cons] at hZ
    have ht := hT t (List.mem_cons_self _ _)
    cases ht0 : t with
    | nil => exact absurd ht0 ht.1
    | cons a t1 =>
      rw [ht0] at hZ ht
      simp only [joinSlash, List.nil_append, List.cons_append, List.cons.injEq] at hZ
      exact absurd (hZ.1 ▸ List.mem_cons_self _ _) ht.2.2.2
  | d :: D, [], _, _, h => by
    obtain ⟨Z, hZ⟩ := h
    rw [joinSlash_cons] at hZ
    simp [joinSlash] at hZ
  | d :: D, t :: T, hD, hT, h => by
    obtain ⟨Z, hZ⟩ := h
    have hd := (hD d (List.mem_cons_self _ _)).2.2.2
    have ht := (hT t (List.mem_cons_self _ _)).2.2.2
    rw [joinSlash_cons d, joinSlash_cons t] at hZ
    by_cases hT0 : T = []
    · simp only [hT0, if_true, List.append_nil] at hZ
      exact absurd hZ.symm (by
        by_cases hD0 : D = []
        · simp only [hD0, if_true, List.append_nil, List.append_assoc]
          have := not_sep_prefix d t [] Z ht
          simpa using this
        · simp only [hD0, if_false, List.append_assoc, List.cons_append]
          have := not_sep_prefix d t (joinSlash D ++ [47]) Z ht
          simpa using this)
    · simp only [hT0, if_false] at hZ
      by_cases hD0 : D = []
      · subst hD0
        simp only [if_true, List.append_nil, List.append_assoc, List.singleton_append] at hZ
        obtain ⟨h1, -⟩ := append_sep_inj d t Z (joinSlash T) hd ht hZ
        exact ⟨T, hT0, by rw [h1]; rfl⟩
      · simp only [hD0, if_false, List.append_assoc, List.cons_append] at hZ
        obtain ⟨h1, h2⟩ := append_sep_inj d t _ (joinSlash T) hd ht hZ
        obtain ⟨rest, hr, hrest⟩ := joinSlash_sep_prefix D T
          (fun c hc => hD c (List.mem_cons_of_mem _ hc))
          (fun c hc => hT c (List.mem_cons_of_mem _ hc)) ⟨Z, by rw [← h2]; simp⟩
        exact ⟨rest, hr, by rw [h1, hrest]; rfl⟩

theorem head_append_sep (dest name : GoString) (h : dest.head? = some 47) :
    (dest ++ 47 :: name).head? = some 47 := by
  cases dest with
  | nil => simp at h
  | cons a d => simpa using h

theorem Join_two (dest name : GoString) (h : dest ≠ []) :
    Join [dest, name] = Clean (dest ++ 47 :: name) := by
  simp [Join, List.dropWhile, h, joinSlash]

/-- The target of an entry under a rooted destination. -/
theorem resolve_Join_rooted (cwd : Path) (dest name : GoString) (h : dest.head? = some 47) :
    resolve cwd (Join [dest, name]) = (splitPath name).foldl (cleanStep true) (resolve cwd dest) := by
  have hne : dest ≠ [] := by rintro rfl; simp at h
  rw [Join_two dest name hne, resolve_Clean_rooted cwd _ (head_append_sep dest name h),
    resolve_rooted cwd _ (head_append_sep dest name h), resolve_rooted cwd dest h,
    splitPath_append_sep, List.foldl_append]

theorem Join_rooted_render (cwd : Path) (dest name : GoString) (h : dest.head? = some 47) :
    Join [dest, name] = 47 :: joinSlash (resolve cwd (Join [dest, name])) := by
  have hne : dest ≠ [] := by rintro rfl; simp at h
  rw [resolve_Join_rooted cwd dest name h, Join_two dest name hne,
    Clean_rooted _ (head_append_sep dest name h), resolve_rooted cwd dest h,
    splitPath_append_sep, List.foldl_append]

theorem Clean_rooted_render (cwd : Path) (dest : GoString) (h : dest.head? = some 47) :
    Clean dest = 47 :: joinSlash (resolve cwd dest) := by
  rw [Clean_rooted dest h, resolve_rooted cwd dest h]

/-- The zip-slip check is sound for a rooted destination: an accepted entry
resolves strictly inside the destination. -/
theorem check_sound (cwd : Path) (dest name : GoString) (h : dest.head? = some 47)
    (hc : HasPrefix (Join [dest, name]) (Clean dest ++ [47]) = true) :
    ∃ rest, rest ≠ [] ∧ resolve cwd (Join [dest, name]) = resolve cwd dest ++ rest := by
  rw [Join_rooted_render cwd dest name h, Clean_rooted_render cwd dest h] at hc
  simp only [HasPrefix, List.cons_append, List.isPrefixOf_cons₂_self,
    List.isPrefixOf_iff_prefix] at hc
  exact joinSlash_sep_prefix _ _
    (by
      rw [resolve_rooted cwd dest h]
      exact foldl_cleanStep_allPlain _ _ (by simp) (splitPath_slashFree dest))
    (by
      rw [resolve_Join_rooted cwd dest name h, resolve_rooted cwd dest h, ← List.foldl_append]
      exact foldl_cleanStep_allPlain _ _ (by simp)
        (fun c hc => by
          rcases List.mem_append.1 hc with hc | hc
          · exact splitPath_slashFree dest c hc
          · exact splitPath_slashFree name c hc))
    hc

theorem cleanStep_plain (r : Bool) (st : List GoString) (c : GoString) (h : plainName c) :
    cleanStep r st c = st ++ [c] := by
  obtain ⟨h1, h2, h3, -⟩ := h
  simp [cleanStep, h1, h2, h3]

theorem foldl_cleanStep_plain_any (r : Bool) : ∀ (X st : List GoString), (∀ c ∈ X, plainName c) →
    X.foldl (cleanStep r) st = st ++ X
  | [], st, _ => by simp
  | c :: X, st, h => by
    simp only [List.foldl_cons, cleanStep_plain r st c (h c (List.mem_cons_self _ _))]
    rw [foldl_cleanStep_plain_any r X _ (fun x hx => h x (List.mem_cons_of_mem _ hx))]
    simp

theorem cleanStep_false_ddPlain (acc : List GoString) (c : GoString)
    (hacc : ∀ x ∈ acc, ddPlain x) (hc : 47 ∉ c) : ∀ x ∈ cleanStep false acc c, ddPlain x := by
  unfold cleanStep
  split
  · exact hacc
  · rename_i h1
    split
    · simp only [Bool.false_eq_true, if_false]
      split
      · intro x hx
        simp only [List.mem_singleton] at hx
        exact Or.inl hx
      · split
        · intro x hx
          rcases List.mem_append.1 hx with hx | hx
          · exact hacc x hx
          · simp only [List.mem_singleton] at hx
            exact Or.inl hx
        · exact fun x hx => hacc x (mem_dropLast hx)
    · rename_i h2
      intro x hx
      rcases List.mem_append.1 hx with hx | hx
      · exact hacc x hx
      · simp only [List.mem_singleton] at hx
        subst hx
        simp only [not_or] at h1
        exact Or.inr ⟨h1.1, h1.2, h2, hc⟩

theorem foldl_cleanStep_false_ddPlain : ∀ (cs acc : List GoString), (∀ x ∈ acc, ddPlain x) →
    (∀ c ∈ cs, 47 ∉ c) → ∀ x ∈ cs.foldl (cleanStep false) acc, ddPlain x
  | [], acc, hacc, _ => by simpa using hacc
  | c :: cs, acc, hacc, hcs => by
    simp only [List.foldl_cons]
    exact foldl_cleanStep_false_ddPlain cs _
      (cleanStep_false_ddPlain acc c hacc (hcs c (List.mem_cons_self _ _)))
      (fun x hx => hcs x (List.mem_cons_of_mem _ hx))

theorem foldl_cleanStep_true_snoc (st acc : List GoString) (c : GoString) :
    (acc ++ [c]).foldl (cleanStep true) st = cleanStep true (acc.foldl (cleanStep true) st) c := by
  simp [List.foldl_append]

/-- Resolving what one step of the relative cleaning wrote is one step of
resolving. -/
theorem resolve_cleanStep_false (st acc : List GoString) (c : GoString)
    (hacc : ∀ x ∈ acc, ddPlain x) :
    (cleanStep false acc c).foldl (cleanStep true) st =
      cleanStep true (acc.foldl (cleanStep true) st) c := by
  by_cases h1 : c = [] ∨ c = [46]
  · simp [cleanStep, h1]
  · by_cases h2 : c = [46, 46]
    · subst h2
      have hstep : ∀ s : List GoString, cleanStep true s [46, 46] = s.dropLast := by
        intro s; simp [cleanStep]
      rw [hstep]
      rcases List.eq_nil_or_concat acc with rfl | ⟨a0, l, rfl⟩
      · simp [cleanStep]
      · simp only [List.concat_eq_append]
        by_cases hl : l = [46, 46]
        · subst hl
          have : cleanStep false (a0 ++ [[46, 46]]) [46, 46] = (a0 ++ [[46, 46]]) ++ [[46, 46]] := by
            simp [cleanStep]
          rw [this, foldl_cleanStep_true_snoc, hstep]
        · have hp : plainName l := by
            rcases hacc l (by simp) with h | h
            · exact absurd h hl
            · exact h
          have : cleanStep false (a0 ++ [l]) [46, 46] = a0 := by
            simp [cleanStep, hl]
          rw [this, foldl_cleanStep_true_snoc, cleanStep_plain true _ l hp]
          simp
    · have : ∀ (r : Bool) (s : List GoString), cleanStep r s c = s ++ [c] := by
        intro r s; simp [cleanStep, h1, h2]
      rw [this, this, foldl_cleanStep_true_snoc, this]

theorem resolve_foldl_false : ∀ (cs acc st : List GoString), (∀ x ∈ acc, ddPlain x) →
    (∀ c ∈ cs, 47 ∉ c) →
    (cs.foldl (cleanStep false) acc).foldl (cleanStep true) st =
      cs.foldl (cleanStep true) (acc.foldl (cleanStep true) st)
  | [], _, _, _, _ => rfl
  | c :: cs, acc, st, hacc, hcs => by
    simp only [List.foldl_cons]
    rw [resolve_foldl_false cs _ st
      (cleanStep_false_ddPlain acc c hacc (hcs c (List.mem_cons_self _ _)))
      (fun x hx => hcs x (List.mem_cons_of_mem _ hx)), resolve_cleanStep_false st acc c hacc]

theorem ddPlain_head_ne_sep {Y : List GoString} (hY : ∀ x ∈ Y, ddPlain x) (hne : Y ≠ []) :
    (joinSlash Y).head? ≠ some 47 := by
  cases Y with
  | nil => exact absurd rfl hne
  | cons y Y =>
    rw [joinSlash_cons]
    rcases hY y (List.mem_cons_self _ _) with h | h
    · subst h; simp
    · cases hy : y with
      | nil => exact absurd hy h.1
      | cons a y1 =>
        simp only [List.cons_append, List.head?_cons, ne_eq, Option.some.injEq]
        intro ha
        exact h.2.2.2 (by rw [hy, ha]; exact List.mem_cons_self _ _)

theorem ddPlain_slashFree {Y : List GoString} (hY : ∀ x ∈ Y, ddPlain x) : ∀ c ∈ Y, 47 ∉ c := by
  intro c hc
  rcases hY c hc with h | h
  · subst h; decide
  · exact h.2.2.2

theorem Clean_relative (p : GoString) (hp : p ≠ []) (h : p.head? ≠ some 47) :
    Clean p = render false ((splitPath p).foldl (cleanStep false) []) := by
  simp [Clean, hp, h]

theorem resolve_relative (cwd : Path) (p : GoString) (h : p.head? ≠ some 47) :
    resolve cwd p = (splitPath p).foldl (cleanStep true) cwd := by
  simp [resolve, h]

/-- Cleaning a path does not change what it resolves to. -/
theorem resolve_Clean (cwd : Path) (p : GoString) : resolve cwd (Clean p) = resolve cwd p := by
  by_cases hp : p = []
  · subst hp
    simp [Clean, resolve, splitPath, cleanStep]
  · by_cases h : p.head? = some 47
    · exact resolve_Clean_rooted cwd p h
    · rw [Clean_relative p hp h, resolve_relative cwd p h]
      have hY := foldl_cleanStep_false_ddPlain (splitPath p) [] (by simp) (splitPath_slashFree p)
      have hR := resolve_foldl_false (splitPath p) [] cwd (by simp) (splitPath_slashFree p)
      simp only [List.foldl_nil] at hR
      by_cases hY0 : (splitPath p).foldl (cleanStep false) [] = []
      · rw [hY0] at hR
        simp only [List.foldl_nil] at hR
        rw [← hR, hY0]
        simp [render, resolve, splitPath, cleanStep]
      · simp only [render, Bool.false_eq_true, if_false, hY0]
        rw [resolve_relative cwd _ (ddPlain_head_ne_sep hY hY0),
          splitPath_joinSlash _ hY0 (ddPlain_slashFree hY), hR]

theorem head_append_of_ne_nil (D x : GoString) (hD : D ≠ []) : (D ++ x).head? = D.head? := by
  cases D with
  | nil => exact absurd rfl hD
  | cons a D => rfl

theorem resolve_append_sep (cwd : Path) (D name : GoString) (hD : D ≠ []) :
    resolve cwd (D ++ 47 :: name) = (splitPath name).foldl (cleanStep true) (resolve cwd D) := by
  unfold resolve
  rw [head_append_of_ne_nil D _ hD, splitPath_append_sep, List.foldl_append]

/-- The target of an entry below a destination. -/
theorem resolve_Join (cwd : Path) (D name : GoString) (hD : D ≠ []) :
    resolve cwd (Join [D, name]) = (splitPath name).foldl (cleanStep true) (resolve cwd D) := by
  rw [Join_two D name hD, resolve_Clean, resolve_append_sep cwd D name hD]

theorem Join_three (D n m : GoString) (hD : D ≠ []) :
    Join [D, n, m] = Clean (D ++ 47 :: (n ++ 47 :: m)) := by
  simp [Join, List.dropWhile, hD, joinSlash]

/-- The path of a file in a subdirectory of a directory. -/
theorem resolve_Join_plain (cwd : Path) (D n m : GoString) (hD : D ≠ [])
    (hn : plainName n) (hm : plainName m) :
    resolve cwd (Join [D, n, m]) = resolve cwd D ++ [n, m] := by
  rw [Join_three D n m hD, resolve_Clean, resolve_append_sep cwd D _ hD, splitPath_append_sep,
    splitPath_of_not_mem n hn.2.2.2, splitPath_of_not_mem m hm.2.2.2]
  simp [cleanStep_plain true _ n hn, cleanStep_plain true _ m hm]

/-! ## Lemmas: the file system -/

theorem FS.get_nil (fs : FS) : fs.get [] = some .dir := by
  cases fs with
  | nil => rfl
  | cons a fs => obtain ⟨q, n⟩ := a; simp [FS.get]

theorem FS.get_put (fs : FS) (p q : Path) (n : Node) :
    (fs.put p n).get q = if q = [] then some .dir else if q = p then some n else fs.get q := rfl

theorem FS.get_put_self (fs : FS) (p : Path) (n : Node) (hp : p ≠ []) :
    (fs.put p n).get p = some n := by
  simp [FS.get_put, hp]

theorem FS.get_put_ne (fs : FS) (p q : Path) (n : Node) (h : q ≠ p) :
    (fs.put p n).get q = fs.get q := by
  rw [FS.get_put]
  by_cases hq : q = []
  · simp [hq, FS.get_nil]
  · simp [hq, h]

/-! ## Lemmas: the steps of `Install` -/

theorem writeAll_eq (W : World) (fs : FS) (name : GoString) (data : FileData) :
    writeAll W fs name data =
      if W.writeFault (resolve W.cwd name) then (some (.pathError "write" name .ENOSPC), fs)
      else (none, fs.put (resolve W.cwd name) (.file data)) := rfl

theorem osCreate_ok (W : World) (fs fs1 : FS) (name : GoString)
    (h : osCreate W fs name = .ok fs1) :
    name ≠ [] ∧ resolve W.cwd name ≠ [] ∧ fs1 = fs.put (resolve W.cwd name) (.file emptyFile) ∧
      fs.get (resolve W.cwd name) ≠ some .dir ∧
      (fs.get (resolve W.cwd name) = none → isDir (fs.get (resolve W.cwd name).dropLast) = true) := by
  unfold osCreate at h
  split at h
  · cases h
  · rename_i hn
    have hne : resolve W.cwd name ≠ [] → True := fun _ => trivial
    split at h
    · cases h
    · rename_i d hg
      simp only [Except.ok.injEq] at h
      refine ⟨hn, ?_, h.symm, by simp [hg], by simp [hg]⟩
      intro h0
      rw [h0, FS.get_nil] at hg
      cases hg
    · rename_i hg
      split at h
      · rename_i hd
        simp only [Except.ok.injEq] at h
        refine ⟨hn, ?_, h.symm, by simp [hg], fun _ => hd⟩
        intro h0
        rw [h0, FS.get_nil] at hg
        cases hg
      · cases h

theorem saveStructToJSONFile_ok (W : World) (d : PackageMetaInfo) (name : GoString) (fs fs1 : FS)
    (h : saveStructToJSONFile W d name fs = (none, fs1)) :
    name ≠ [] ∧ resolve W.cwd name ≠ [] ∧ W.writeFault (resolve W.cwd name) = false ∧
      fs.get (resolve W.cwd name) ≠ some .dir ∧
      (fs.get (resolve W.cwd name) = none → isDir (fs.get (resolve W.cwd name).dropLast) = true) ∧
      fs1 = (fs.put (resolve W.cwd name) (.file emptyFile)).put (resolve W.cwd name)
        (.file (.blob (.json (encodeMeta d)))) := by
  unfold saveStructToJSONFile at h
  split at h
  · cases h
  · rename_i fs2 hc
    obtain ⟨h1, h2, h3, h4, h5⟩ := osCreate_ok W fs fs2 name hc
    rw [writeAll_eq] at h
    split at h
    · cases h
    · rename_i hw
      simp only [Prod.mk.injEq, true_and] at h
      refine ⟨h1, h2, by simpa using hw, h4, h5, ?_⟩
      rw [← h, h3]

theorem saveStructToJSONFile_get (W : World) (d : PackageMetaInfo) (name : GoString) (fs fs1 : FS)
    (h : saveStructToJSONFile W d name fs = (none, fs1)) :
    fs1.get (resolve W.cwd name) = some (.file (.blob (.json (encodeMeta d)))) := by
  obtain ⟨-, h2, -, -, -, h6⟩ := saveStructToJSONFile_ok W d name fs fs1 h
  rw [h6, FS.get_put_self _ _ _ h2]

theorem readStructFromJSONFile_json (W : World) (name : GoString) (fs : FS) (v : Json)
    (hn : name ≠ []) (h : fs.get (resolve W.cwd name) = some (.file (.blob (.json v)))) :
    readStructFromJSONFile W name fs = decodeMetaPtr v := by
  simp [readStructFromJSONFile, osOpen, hn, h]

theorem osStat_some (W : World) (name : GoString) (fs : FS) (n : Node)
    (hn : name ≠ []) (h : fs.get (resolve W.cwd name) = some n) :
    osStat W fs name = .ok n := by
  simp [osStat, hn, h]

theorem installFresh_ok_inv (W : World) (vm : VersionManager) (p0 : GetPackagesResponse)
    (dirname : GoString) (s : State) (pkg : JavaPackage) (err : Option GoError)
    (h : (installFresh W vm p0 dirname s).1 = .returned (some pkg) err) :
    err = none ∧ pkg = mkJavaPackage W vm (some p0) dirname ∧
    ∃ file s1 fs2, DownloadJavaByID W p0.ID W.tmpDir s = (.val (some file, none), s1) ∧
      unzip W file vm.DataDir s1.fs = (none, fs2) ∧
      saveStructToJSONFile W p0 (Join [vm.DataDir, dirname, ascii "meta.json"]) fs2 =
        (none, (installFresh W vm p0 dirname s).2.fs) ∧
      (installFresh W vm p0 dirname s).2.trace = s1.trace := by
  unfold installFresh at h ⊢
  split at h
  · cases h
  · cases h
  · cases h
  · rename_i file s1 hd
    split at h
    · cases h
    · rename_i fs2 hu
      split at h
      · cases h
      · rename_i fs3 hs
        simp only [Outcome.returned.injEq, Option.some.injEq] at h
        exact ⟨h.2.symm, h.1.symm, file, s1, fs2, hd, hu, hs, rfl⟩

theorem installPackage_ok_inv (W : World) (vm : VersionManager) (p0 : GetPackagesResponse)
    (s : State) (pkg : JavaPackage)
    (h : (installPackage W vm p0 s).1 = .returned (some pkg) none) :
    ∃ u, W.redirect p0.ID = .response u none ∧
      (∃ e, osStat W s.fs (Join [vm.DataDir, TrimSuffix (Base u) (ascii ".zip"), ascii "meta.json"])
        = .error e ∧ IsNotExist e = true) ∧
      installPackage W vm p0 s =
        installFresh W vm p0 (TrimSuffix (Base u) (ascii ".zip")) (s.log (.redirect p0.ID)) := by
  unfold installPackage at h ⊢
  unfold GetFilename at h ⊢
  rw [GetPackageRedirect_eq] at h ⊢
  cases hr : W.redirect p0.ID with
  | noResponse e => simp only [hr] at h; cases h
  | response u err =>
    cases err with
    | some e => simp only [hr] at h; cases h
    | none =>
      simp only [hr] at h ⊢
      simp only [State.log_fs] at h ⊢
      refine ⟨u, rfl, ?_⟩
      split at h
      · split at h <;> cases h
      · rename_i e hst
        split at h
        · cases h
        · rename_i hne
          simp only [hst]
          refine ⟨⟨e, rfl, by simpa using hne⟩, ?_⟩
          simp [hne]

theorem Install_cons (W : World) (vm : VersionManager) (o : JavaInstallOptions) (s : State)
    (A : GetPackagesResponse) (rest : List GetPackagesResponse)
    (h : (GetPackages W { o with ArchiveType := [ascii "zip"] } s).1 = .ok (A :: rest)) :
    VersionManager.Install W vm o s =
      installPackage W vm A (s.log (.getPackages { o with ArchiveType := [ascii "zip"] })) := by
  have hs := GetPackages_snd W { o with ArchiveType := [ascii "zip"] } s
  unfold VersionManager.Install
  split
  · rename_i h1; rw [h1] at h; cases h
  · rename_i h1; rw [h1] at h; cases h
  · rename_i p0 r s1 h1
    rw [h1] at h hs
    simp only [Except.ok.injEq, List.cons.injEq] at h
    simp only at hs
    rw [h.1, hs]

theorem Install_nil (W : World) (vm : VersionManager) (o : JavaInstallOptions) (s : State)
    (h : (GetPackages W { o with ArchiveType := [ascii "zip"] } s).1 = .ok []) :
    VersionManager.Install W vm o s =
      (.returned none (some (.errorf "no packages found")),
        s.log (.getPackages { o with ArchiveType := [ascii "zip"] })) := by
  have hs := GetPackages_snd W { o with ArchiveType := [ascii "zip"] } s
  unfold VersionManager.Install
  split
  · rename_i h1; rw [h1] at h; cases h
  · rename_i s1 h1
    rw [h1] at hs
    simp only at hs
    rw [hs]
  · rename_i h1; rw [h1] at h; cases h

theorem unzipLoop_catalog (W : World) (c : GetPackagesOptions → Except GoError FileData)
    (dest : GoString) : ∀ (es : List ZipEntry) (fs : FS),
    unzipLoop { W with catalog := c } dest es fs = unzipLoop W dest es fs
  | [], _ => rfl
  | f :: es, fs => by
    have h : extractAndWriteFile { W with catalog := c } dest f fs
        = extractAndWriteFile W dest f fs := rfl
    simp only [unzipLoop, h]
    split
    · rfl
    · exact unzipLoop_catalog W c dest es _

theorem unzip_catalog (W : World) (c : GetPackagesOptions → Except GoError FileData)
    (src dest : GoString) (fs : FS) :
    unzip { W with catalog := c } src dest fs = unzip W src dest fs := by
  have h : zipOpenReader { W with catalog := c } fs src = zipOpenReader W fs src := rfl
  have h2 : osMkdirAll { W with catalog := c } fs dest = osMkdirAll W fs dest := rfl
  simp only [unzip, h, h2, unzipLoop_catalog]

theorem installFresh_catalog (W : World) (c : GetPackagesOptions → Except GoError FileData)
    (vm : VersionManager) (A : GetPackagesResponse) (dirname : GoString) (s : State) :
    installFresh { W with catalog := c } vm A dirname s = installFresh W vm A dirname s := by
  have h : DownloadJavaByID { W with catalog := c } A.ID W.tmpDir s
      = DownloadJavaByID W A.ID W.tmpDir s := rfl
  have h2 : ∀ d n fs, saveStructToJSONFile { W with catalog := c } d n fs
      = saveStructToJSONFile W d n fs := fun _ _ _ => rfl
  have h3 : ∀ m d, mkJavaPackage { W with catalog := c } vm m d = mkJavaPackage W vm m d :=
    fun _ _ => rfl
  simp only [installFresh, h, h2, h3, unzip_catalog]

/-- The steps of `Install` after the search never read the catalog. -/
theorem installPackage_catalog (W : World) (c : GetPackagesOptions → Except GoError FileData)
    (vm : VersionManager) (A : GetPackagesResponse) (s : State) :
    installPackage { W with catalog := c } vm A s = installPackage W vm A s := by
  have h : GetFilename { W with catalog := c } A.ID s = GetFilename W A.ID s := rfl
  have h2 : ∀ n fs, osStat { W with catalog := c } fs n = osStat W fs n := fun _ _ => rfl
  have h3 : ∀ n fs, readStructFromJSONFile { W with catalog := c } n fs
      = readStructFromJSONFile W n fs := fun _ _ => rfl
  have h4 : ∀ m d, mkJavaPackage { W with catalog := c } vm m d = mkJavaPackage W vm m d :=
    fun _ _ => rfl
  simp only [installPackage, h, h2, h3, h4, installFresh_catalog]

theorem metaOK_zero : metaOK {} = true := by decide

theorem setWrapperField_ok (r : List GetPackagesResponse) (k : GoString) (v : Json)
    (r1 : List GetPackagesResponse) (hr : ∀ d ∈ r, metaOK d = true)
    (h : setWrapperField r k v = .ok r1) : ∀ d ∈ r1, metaOK d = true := by
  unfold setWrapperField at h
  split at h
  · split at h
    · exact decodeElems_inv (fun d => metaOK d = true) _
        (fun v a ha => decMeta_ok {} a v metaOK_zero ha) _ _ h
    · simp only [Except.ok.injEq] at h
      subst h
      simp
    · cases h
  · simp only [Except.ok.injEq] at h
    exact h ▸ hr

theorem decodeWrapper_ok (v : Json) (l : List GetPackagesResponse)
    (h : decodeWrapper v = .ok l) : ∀ d ∈ l, metaOK d = true := by
  cases v <;> simp only [decodeWrapper] at h
  · simp only [Except.ok.injEq] at h; subst h; simp
  all_goals try (simp at h)
  · exact decodeFields_inv (fun l => ∀ d ∈ l, metaOK d = true) _ setWrapperField_ok _ _ _
      (by simp) h

/-- Every descriptor `GetPackages` returns was decoded from JSON. -/
theorem GetPackages_ok (W : World) (o : GetPackagesOptions) (s : State)
    (l : List GetPackagesResponse) (h : (GetPackages W o s).1 = .ok l) :
    ∀ d ∈ l, metaOK d = true := by
  unfold GetPackages at h
  split at h
  · cases h
  · exact decodeWrapper_ok _ _ h
  · cases h

theorem GetPackages_fst (W : World) (o : GetPackagesOptions) (s s1 : State) :
    (GetPackages W o s1).1 = (GetPackages W o s).1 := by
  unfold GetPackages
  split <;> rfl

theorem decodeMetaPtr_encodeMeta (d : GetPackagesResponse) (h : metaOK d = true) :
    decodeMetaPtr (encodeMeta d) = .ok (some d) := by
  have h1 := decMeta_encodeMeta d h
  have h2 : decodeMetaPtr (encodeMeta d) = (decMeta {} (encodeMeta d)).map some := rfl
  rw [h2, h1]
  rfl

theorem installPackage_installed (W : World) (vm : VersionManager) (A : GetPackagesResponse)
    (s : State) (u : GoString) (hA : metaOK A = true)
    (hu : W.redirect A.ID = .response u none)
    (hn : Join [vm.DataDir, TrimSuffix (Base u) (ascii ".zip"), ascii "meta.json"] ≠ [])
    (hf : s.fs.get (resolve W.cwd
        (Join [vm.DataDir, TrimSuffix (Base u) (ascii ".zip"), ascii "meta.json"]))
      = some (.file (.blob (.json (encodeMeta A))))) :
    installPackage W vm A s =
      (.returned (some (mkJavaPackage W vm (some A) (TrimSuffix (Base u) (ascii ".zip"))))
        (some .ErrPackageAlreadyInstalled), s.log (.redirect A.ID)) := by
  unfold installPackage GetFilename
  rw [GetPackageRedirect_eq]
  simp only [hu, State.log_fs]
  rw [osStat_some W _ s.fs _ hn hf, readStructFromJSONFile_json W _ s.fs _ hn hf,
    decodeMetaPtr_encodeMeta A hA]

theorem Install_error (W : World) (vm : VersionManager)
    (o : JavaInstallOptions) (s : State) (e : GoError)
    (h : (GetPackages W { o with ArchiveType := [ascii "zip"] } s).1 = .error e) :
    VersionManager.Install W vm o s =
      (.returned none (some (.wrapf "failed to fetch packages" e)),
        s.log (.getPackages { o with ArchiveType := [ascii "zip"] })) := by
  have hs := GetPackages_snd W { o with ArchiveType := [ascii "zip"] } s
  unfold VersionManager.Install
  split
  · rename_i err s1 h1
    rw [h1] at h hs
    simp only [Except.error.injEq] at h
    simp only at hs
    rw [h, hs]
  · rename_i h1; rw [h1] at h; cases h
  · rename_i h1; rw [h1] at h; cases h

/-! ## Lemmas: directory listings -/

theorem strLE_refl : ∀ a : GoString, strLE a a = true
  | [] => rfl
  | x :: a => by simp [strLE, strLE_refl a]

theorem strLE_total : ∀ a b : GoString, strLE a b = true ∨ strLE b a = true
  | [], _ => Or.inl (by simp [strLE])
  | _ :: _, [] => Or.inr (by simp [strLE])
  | x :: a, y :: b => by
    simp only [strLE, Bool.or_eq_true, Bool.and_eq_true, decide_eq_true_eq]
    rcases Nat.lt_trichotomy x y with h | h | h
    · exact Or.inl (Or.inl h)
    · rcases strLE_total a b with h1 | h1
      · exact Or.inl (Or.inr ⟨h, h1⟩)
      · exact Or.inr (Or.inr ⟨h.symm, h1⟩)
    · exact Or.inr (Or.inl h)

theorem strLE_antisymm : ∀ a b : GoString, strLE a b = true → strLE b a = true → a = b
  | [], [], _, _ => rfl
  | [], _ :: _, _, h => by simp [strLE] at h
  | _ :: _, [], h, _ => by simp [strLE] at h
  | x :: a, y :: b, h1, h2 => by
    simp only [strLE, Bool.or_eq_true, Bool.and_eq_true, decide_eq_true_eq] at h1 h2
    rcases h1 with h1 | ⟨e1, h1⟩
    · rcases h2 with h2 | ⟨e2, h2⟩ <;> omega
    · rcases h2 with h2 | ⟨e2, h2⟩
      · omega
      · rw [e1, strLE_antisymm a b h1 h2]

theorem strLE_trans : ∀ a b c : GoString, strLE a b = true → strLE b c = true → strLE a c = true
  | [], _, _, _, _ => by simp [strLE]
  | _ :: _, [], _, h, _ => by simp [strLE] at h
  | _ :: _, _ :: _, [], _, h => by simp [strLE] at h
  | x :: a, y :: b, z :: c, h1, h2 => by
    simp only [strLE, Bool.or_eq_true, Bool.and_eq_true, decide_eq_true_eq] at h1 h2 ⊢
    rcases h1 with h1 | ⟨e1, h1⟩
    · rcases h2 with h2 | ⟨e2, h2⟩
      · exact Or.inl (by omega)
      · exact Or.inl (by omega)
    · rcases h2 with h2 | ⟨e2, h2⟩
      · exact Or.inl (by omega)
      · exact Or.inr ⟨by omega, strLE_trans a b c h1 h2⟩

theorem mem_insertName (n a : GoString) : ∀ l : List GoString,
    n ∈ insertName a l ↔ n = a ∨ n ∈ l
  | [] => by simp [insertName]
  | m :: ms => by
    simp only [insertName]
    split
    · rename_i h
      subst h
      simp only [List.mem_cons]
      tauto
    · split
      · simp only [List.mem_cons]
      · simp only [List.mem_cons, mem_insertName n a ms]
        tauto

theorem insertName_sorted (a : GoString) : ∀ l : List GoString,
    l.Pairwise strLT → (insertName a l).Pairwise strLT
  | [], _ => by simp [insertName]
  | m :: ms, h => by
    rw [List.pairwise_cons] at h
    simp only [insertName]
    split
    · exact List.pairwise_cons.2 h
    · rename_i hne
      split
      · rename_i hle
        refine List.pairwise_cons.2 ⟨?_, List.pairwise_cons.2 h⟩
        intro x hx
        rcases List.mem_cons.1 hx with rfl | hx
        · exact ⟨hle, hne⟩
        · have hm := h.1 x hx
          refine ⟨strLE_trans _ _ _ hle hm.1, ?_⟩
          rintro rfl
          exact hne (strLE_antisymm _ _ hle hm.1)
      · rename_i hle
        refine List.pairwise_cons.2 ⟨?_, insertName_sorted a ms h.2⟩
        intro x hx
        rcases (mem_insertName x a ms).1 hx with rfl | hx
        · refine ⟨?_, fun e => hne e.symm⟩
          rcases strLE_total x m with h1 | h1
          · exact absurd h1 hle
          · exact h1
        · exact h.1 x hx

theorem childOf_eq_some (p k : Path) (n : GoString) : childOf p k = some n ↔ k = p ++ [n] := by
  unfold childOf
  constructor
  · intro h
    split at h
    · rename_i m hm
      split at h
      · rename_i hd
        simp only [Option.some.injEq] at h
        subst h
        rw [← hd]
        exact (List.dropLast_append_getLast? m hm).symm
      · cases h
    · cases h
  · rintro rfl
    simp

theorem childNames_sorted (p : Path) : ∀ fs : FS, (FS.childNames fs p).Pairwise strLT
  | [] => by simp [FS.childNames]
  | kn :: fs => by
    have ih := childNames_sorted p fs
    simp only [FS.childNames, List.foldr_cons] at ih ⊢
    split
    · exact insertName_sorted _ _ ih
    · exact ih

theorem mem_childNames (p : Path) (n : GoString) : ∀ fs : FS,
    n ∈ FS.childNames fs p ↔ ∃ node, (p ++ [n], node) ∈ fs
  | [] => by simp [FS.childNames]
  | (k, nd) :: fs => by
    have ih := mem_childNames p n fs
    simp only [FS.childNames, List.foldr_cons] at ih ⊢
    split
    · rename_i m hm
      rw [mem_insertName, ih]
      rw [childOf_eq_some] at hm
      constructor
      · rintro (rfl | ⟨node, h⟩)
        · exact ⟨nd, by rw [hm]; exact List.mem_cons_self _ _⟩
        · exact ⟨node, List.mem_cons_of_mem _ h⟩
      · rintro ⟨node, h⟩
        rcases List.mem_cons.1 h with h | h
        · left
          simp only [Prod.mk.injEq] at h
          rw [hm] at h
          exact (List.append_cancel_left h.1) |> fun e => by simpa using e
        · exact Or.inr ⟨node, h⟩
    · rename_i hm
      rw [ih]
      constructor
      · rintro ⟨node, h⟩
        exact ⟨node, List.mem_cons_of_mem _ h⟩
      · rintro ⟨node, h⟩
        rcases List.mem_cons.1 h with h | h
        · simp only [Prod.mk.injEq] at h
          have := (childOf_eq_some p k n).2 h.1.symm
          rw [hm] at this
          cases this
        · exact ⟨node, h⟩

theorem FS.get_isSome (q : Path) (hq : q ≠ []) : ∀ fs : FS,
    (FS.get fs q).isSome = true ↔ ∃ node, (q, node) ∈ fs
  | [] => by simp [FS.get, hq]
  | (k, nd) :: fs => by
    have ih := FS.get_isSome q hq fs
    simp only [FS.get, hq, if_false]
    by_cases h : q = k
    · subst h
      simp only [if_true, Option.isSome_some, true_iff]
      exact ⟨nd, List.mem_cons_self _ _⟩
    · simp only [h, if_false, ih]
      constructor
      · rintro ⟨node, hm⟩
        exact ⟨node, List.mem_cons_of_mem _ hm⟩
      · rintro ⟨node, hm⟩
        rcases List.mem_cons.1 hm with hm | hm
        · simp only [Prod.mk.injEq] at hm
          exact absurd hm.1 h
        · exact ⟨node, hm⟩

theorem mem_childNames_iff (fs : FS) (p : Path) (n : GoString) :
    n ∈ FS.childNames fs p ↔ (fs.get (p ++ [n])).isSome = true := by
  rw [mem_childNames, FS.get_isSome _ (by simp)]

theorem listLoop_ok (W : World) (vm : VersionManager) (fs : FS) :
    ∀ (files : List (GoString × Bool)) (javas : List JavaPackage),
    listLoop W vm fs files = .ok javas →
      javas = ((files.filter (fun f => f.2)).map (fun f => f.1)).map
        (fun n => mkJavaPackage W vm (metaOf W vm fs n) n)
  | [], javas, h => by
    simp only [listLoop, Except.ok.injEq] at h
    subst h
    rfl
  | (n, d) :: files, javas, h => by
    cases d with
    | false =>
      simp only [listLoop, Bool.false_eq_true, if_false] at h
      simpa using listLoop_ok W vm fs files javas h
    | true =>
      simp only [listLoop, if_true] at h
      cases hr : readStructFromJSONFile W (Join [vm.DataDir, n, ascii "meta.json"]) fs with
      | error e => simp [hr] at h
      | ok m =>
        cases hl : listLoop W vm fs files with
        | error e => simp [hr, hl] at h
        | ok js =>
          simp only [hr, hl, Except.ok.injEq] at h
          subst h
          simp [listLoop_ok W vm fs files js hl, metaOf, hr]

theorem listLoop_error (W : World) (vm : VersionManager) (fs : FS) :
    ∀ (files : List (GoString × Bool)),
    (∃ e, listLoop W vm fs files = .error e) ↔
      ∃ n, (n, true) ∈ files ∧
        ∃ e, readStructFromJSONFile W (Join [vm.DataDir, n, ascii "meta.json"]) fs = .error e
  | [] => by simp [listLoop]
  | (n, d) :: files => by
    have ih := listLoop_error W vm fs files
    cases d with
    | false =>
      simp only [listLoop, Bool.false_eq_true, if_false, ih]
      constructor
      · rintro ⟨n1, h1, h2⟩
        exact ⟨n1, List.mem_cons_of_mem _ h1, h2⟩
      · rintro ⟨n1, h1, h2⟩
        rcases List.mem_cons.1 h1 with h1 | h1
        · cases h1
        · exact ⟨n1, h1, h2⟩
    | true =>
      simp only [listLoop, if_true]
      cases hr : readStructFromJSONFile W (Join [vm.DataDir, n, ascii "meta.json"]) fs with
      | error e =>
        simp only
        exact ⟨fun _ => ⟨n, List.mem_cons_self _ _, e, hr⟩, fun _ => ⟨_, rfl⟩⟩
      | ok m =>
        simp only
        cases hl : listLoop W vm fs files with
        | error e =>
          simp only
          obtain ⟨n1, h1, h2⟩ := ih.1 ⟨e, hl⟩
          exact ⟨fun _ => ⟨n1, List.mem_cons_of_mem _ h1, h2⟩, fun _ => ⟨_, rfl⟩⟩
        | ok js =>
          simp only
          constructor
          · rintro ⟨e, he⟩
            cases he
          · rintro ⟨n1, h1, e, h2⟩
            rcases List.mem_cons.1 h1 with h1 | h1
            · simp only [Prod.mk.injEq, and_true] at h1
              subst h1
              rw [hr] at h2
              cases h2
            · have := ih.2 ⟨n1, h1, e, h2⟩
              rw [hl] at this
              obtain ⟨e1, he1⟩ := this
              cases he1

theorem osReadDir_ok (W : World) (fs : FS) (name : GoString) (files : List (GoString × Bool))
    (h : osReadDir W fs name = .ok files) :
    files = (fs.childNames (resolve W.cwd name)).map
      (fun n => (n, isDir (fs.get (resolve W.cwd name ++ [n])))) := by
  unfold osReadDir at h
  split at h
  · cases h
  · split at h
    · simp only [Except.ok.injEq] at h
      exact h.symm
    · cases h
    · cases h

theorem subdirNames_eq (W : World) (fs : FS) (name : GoString) :
    (((fs.childNames (resolve W.cwd name)).map
      (fun n => (n, isDir (fs.get (resolve W.cwd name ++ [n]))))).filter (fun f => f.2)).map
        (fun f => f.1) = subdirNames W fs name := by
  unfold subdirNames
  induction fs.childNames (resolve W.cwd name) with
  | nil => rfl
  | cons n l ih =>
    simp only [List.map_cons, List.filter_cons]
    split
    · simp only [List.map_cons, ih]
    · exact ih

theorem mem_subdirNames (W : World) (fs : FS) (name n : GoString) :
    n ∈ subdirNames W fs name ↔
      (n, true) ∈ (fs.childNames (resolve W.cwd name)).map
        (fun n => (n, isDir (fs.get (resolve W.cwd name ++ [n])))) := by
  simp only [subdirNames, List.mem_filter, List.mem_map, Prod.mk.injEq]
  constructor
  · rintro ⟨h1, h2⟩
    exact ⟨n, h1, rfl, h2⟩
  · rintro ⟨a, h1, rfl, h2⟩
    exact ⟨h1, h2⟩

/-! ## Lemmas: what extraction leaves alone -/

theorem FS.get_dirs_append (fs : FS) (q : Path) : ∀ l : List Path,
    FS.get (l.map (fun k => (k, Node.dir)) ++ fs) q = if q ∈ l then some .dir else fs.get q
  | [] => by simp
  | k :: l => by
    have ih := FS.get_dirs_append fs q l
    simp only [List.map_cons, List.cons_append, FS.get, List.mem_cons]
    by_cases hq : q = []
    · simp [hq, FS.get_nil]
    · by_cases hk : q = k
      · simp [hq, hk]
      · simp [hq, hk, ih]

theorem FS.mkdirs_get (fs : FS) (p q : Path) :
    (fs.mkdirs p).get q = if q <+: p ∧ (fs.get q).isNone = true then some .dir else fs.get q := by
  unfold FS.mkdirs
  rw [FS.get_dirs_append]
  simp only [List.mem_filter, List.mem_inits]

theorem osMkdirAll_snd (W : World) (fs : FS) (name : GoString) :
    (osMkdirAll W fs name).2 = fs ∨ (osMkdirAll W fs name).2 = fs.mkdirs (resolve W.cwd name) := by
  unfold osMkdirAll
  split
  · exact Or.inl rfl
  · split
    · exact Or.inl rfl
    · exact Or.inr rfl

theorem frameOK_refl (D : Path) (fs : FS) : frameOK D fs fs := fun _ _ => Or.inl rfl

theorem frameOK_mkdirs (D T : Path) (fs fs1 : FS) (hT : D <+: T) (h : frameOK D fs fs1) :
    frameOK D fs (fs1.mkdirs T) := by
  intro q hq
  rw [FS.mkdirs_get]
  split
  · rename_i hc
    obtain ⟨hqT, hnone⟩ := hc
    have hqD : q <+: D := by
      rcases List.prefix_or_prefix_of_prefix hqT hT with h1 | h1
      · exact h1
      · exact absurd h1 hq
    rcases h q hq with h1 | ⟨-, -, h3⟩
    · right
      rw [h1] at hnone
      exact ⟨hqD, by simpa using hnone, rfl⟩
    · rw [h3] at hnone
      cases hnone
  · exact h q hq

theorem frameOK_put (D T : Path) (fs fs1 : FS) (n : Node) (hT : D <+: T) (h : frameOK D fs fs1) :
    frameOK D fs (fs1.put T n) := by
  intro q hq
  rw [FS.get_put_ne _ _ _ _ (by rintro rfl; exact hq hT)]
  exact h q hq

theorem frameOK_osMkdirAll (W : World) (D : Path) (fs fs1 : FS) (name : GoString)
    (hT : D <+: resolve W.cwd name) (h : frameOK D fs fs1) :
    frameOK D fs (osMkdirAll W fs1 name).2 := by
  rcases osMkdirAll_snd W fs1 name with h1 | h1 <;> rw [h1]
  · exact h
  · exact frameOK_mkdirs D _ fs fs1 hT h

theorem frameOK_osCreate (W : World) (D : Path) (fs fs1 fs2 : FS) (name : GoString)
    (hT : D <+: resolve W.cwd name) (h : frameOK D fs fs1) (hc : osCreate W fs1 name = .ok fs2) :
    frameOK D fs fs2 := by
  rw [(osCreate_ok W fs1 fs2 name hc).2.2.1]
  exact frameOK_put D _ fs fs1 _ hT h

theorem frameOK_writeAll (W : World) (D : Path) (fs fs1 : FS) (name : GoString) (data : FileData)
    (hT : D <+: resolve W.cwd name) (h : frameOK D fs fs1) :
    frameOK D fs (writeAll W fs1 name data).2 := by
  rw [writeAll_eq]
  split
  · exact h
  · exact frameOK_put D _ fs fs1 _ hT h

theorem dropWhile_append_stop {α : Type} (p : α → Bool) (a : α) (ha : p a = false) :
    ∀ (l1 l2 : List α), (∀ x ∈ l1, p x = true) → (l1 ++ a :: l2).dropWhile p = a :: l2
  | [], l2, _ => by simp [List.dropWhile, ha]
  | x :: l1, l2, h => by
    simp only [List.cons_append, List.dropWhile, h x (List.mem_cons_self _ _)]
    exact dropWhile_append_stop p a ha l1 l2 (fun y hy => h y (List.mem_cons_of_mem _ hy))

/-- The string `Dir` cleans: a path that ends in a separator followed by a
name loses the name. -/
theorem strip_last (pre t : GoString) (ht : 47 ∉ t) :
    ((pre ++ 47 :: t).reverse.dropWhile (fun c => decide (c ≠ 47))).reverse = pre ++ [47] := by
  have : (pre ++ 47 :: t).reverse = t.reverse ++ 47 :: pre.reverse := by simp
  rw [this, dropWhile_append_stop _ 47 (by simp) _ _ (fun x hx => by
    have : x ≠ 47 := fun e => ht (e ▸ List.mem_reverse.1 hx)
    simpa using this)]
  simp

theorem foldl_cleanStep_nil_end (st : List GoString) (X : List GoString) :
    (X ++ [[]]).foldl (cleanStep true) st = X.foldl (cleanStep true) st := by
  rw [List.foldl_append]
  simp [cleanStep]

/-- `Dir` of a rendered rooted path is its parent. -/
theorem resolve_Dir_render (cwd : Path) (T : List GoString) (hT : ∀ c ∈ T, plainName c) :
    resolve cwd (Dir (47 :: joinSlash T)) = T.dropLast := by
  rcases List.eq_nil_or_concat T with rfl | ⟨T0, t, rfl⟩
  · have : Dir (47 :: joinSlash []) = [47] := by decide
    rw [this]
    rfl
  · have ht : plainName t := hT t (by simp)
    have hT0 : ∀ c ∈ T0, plainName c := fun c hc => hT c (by simp [hc])
    simp only [List.concat_eq_append, List.dropLast_concat]
    by_cases h0 : T0 = []
    · subst h0
      have hs := strip_last [] t ht.2.2.2
      simp only [List.nil_append] at hs
      simp only [List.nil_append, joinSlash, Dir, hs]
      rfl
    · have hs := strip_last (47 :: joinSlash T0) t ht.2.2.2
      rw [joinSlash_append_singleton T0 t h0]
      simp only [List.cons_append] at hs
      simp only [Dir, hs]
      rw [resolve_Clean_rooted cwd (47 :: (joinSlash T0 ++ [47])) rfl,
        resolve_rooted cwd (47 :: (joinSlash T0 ++ [47])) rfl]
      have hsp : splitPath (47 :: (joinSlash T0 ++ [47])) = [] :: (T0 ++ [[]]) := by
        rw [splitPath_cons, if_pos rfl, splitPath_append_sep,
          splitPath_joinSlash T0 h0 (plain_slashFree hT0)]
        rfl
      rw [hsp, List.foldl_cons, foldl_cleanStep_nil_end]
      have h00 : cleanStep true [] [] = [] := by simp [cleanStep]
      rw [h00, foldl_cleanStep_plain T0 [] hT0]
      simp

/-! ## Lemmas: entries with plain names -/

theorem strip_all (y : GoString) (hy : 47 ∉ y) :
    (y.reverse.dropWhile (fun c => decide (c ≠ 47))).reverse = [] := by
  have : y.reverse.dropWhile (fun c => decide (c ≠ 47)) = [] := by
    rw [List.dropWhile_eq_nil_iff]
    intro x hx
    have : x ≠ 47 := fun e => hy (e ▸ List.mem_reverse.1 hx)
    simpa using this
  rw [this]
  rfl

theorem foldl_cleanStep_plain_end (r : Bool) (st P : List GoString) (name : GoString)
    (hP : ∀ c ∈ P, plainName c) (hname : splitPath name = P ∨ splitPath name = P ++ [[]]) :
    (splitPath name).foldl (cleanStep r) st = st ++ P := by
  rcases hname with h | h
  · rw [h, foldl_cleanStep_plain_any r P st hP]
  · rw [h, List.foldl_append, foldl_cleanStep_plain_any r P st hP]
    simp [cleanStep]

theorem joinSlash_ne_nil {Y : List GoString} (hY : ∀ x ∈ Y, ddPlain x) (hne : Y ≠ []) :
    joinSlash Y ≠ [] := by
  cases Y with
  | nil => exact absurd rfl hne
  | cons y Y =>
    rw [joinSlash_cons]
    rcases hY y (List.mem_cons_self _ _) with h | h
    · subst h; simp
    · cases hy : y with
      | nil => exact absurd hy h.1
      | cons a y1 => simp

theorem resolve_joinSlash (cwd : Path) (Y : List GoString) (hY : ∀ x ∈ Y, ddPlain x)
    (hne : Y ≠ []) : resolve cwd (joinSlash Y) = Y.foldl (cleanStep true) cwd := by
  rw [resolve_relative cwd _ (ddPlain_head_ne_sep hY hne),
    splitPath_joinSlash _ hne (ddPlain_slashFree hY)]

/-- The target of an entry whose name is a sequence of plain names, and the
directory `Dir` gives for it. -/
theorem resolve_entry (cwd : Path) (D name : GoString) (P : List GoString) (hD : D ≠ [])
    (hP : ∀ c ∈ P, plainName c) (hPne : P ≠ [])
    (hname : splitPath name = P ∨ splitPath name = P ++ [[]]) :
    resolve cwd (Join [D, name]) = resolve cwd D ++ P ∧
      resolve cwd (Dir (Join [D, name])) = resolve cwd D ++ P.dropLast := by
  have hT : resolve cwd (Join [D, name]) = resolve cwd D ++ P := by
    rw [resolve_Join cwd D name hD, foldl_cleanStep_plain_end true _ P name hP hname]
  refine ⟨hT, ?_⟩
  by_cases hr : D.head? = some 47
  · have hplain : ∀ c ∈ resolve cwd (Join [D, name]), plainName c := by
      rw [resolve_Join_rooted cwd D name hr, resolve_rooted cwd D hr, ← List.foldl_append]
      exact foldl_cleanStep_allPlain _ _ (by simp)
        (fun c hc => by
          rcases List.mem_append.1 hc with hc | hc
          · exact splitPath_slashFree D c hc
          · exact splitPath_slashFree name c hc)
    rw [Join_rooted_render cwd D name hr, resolve_Dir_render cwd _ hplain, hT,
      List.dropLast_append_of_ne_nil _ hPne]
  · have hx : (D ++ 47 :: name).head? ≠ some 47 := by
      rw [head_append_of_ne_nil D _ hD]; exact hr
    have hYd := foldl_cleanStep_false_ddPlain (splitPath D) [] (by simp) (splitPath_slashFree D)
    have hRd := resolve_foldl_false (splitPath D) [] cwd (by simp) (splitPath_slashFree D)
    simp only [List.foldl_nil] at hRd
    have hR : resolve cwd D = ((splitPath D).foldl (cleanStep false) []).foldl (cleanStep true) cwd := by
      rw [resolve_relative cwd D hr, hRd]
    obtain ⟨P0, y, rfl⟩ : ∃ P0 y, P = P0 ++ [y] := by
      rcases List.eq_nil_or_concat P with h | ⟨P0, y, h⟩
      · exact absurd h hPne
      · exact ⟨P0, y, by simpa using h⟩
    have hy : plainName y := hP y (by simp)
    have hP0 : ∀ c ∈ P0, plainName c := fun c hc => hP c (by simp [hc])
    have hJ : Join [D, name] =
        joinSlash (((splitPath D).foldl (cleanStep false) [] ++ P0) ++ [y]) := by
      rw [Join_two D name hD, Clean_relative _ (by simp) hx, splitPath_append_sep, List.foldl_append,
        foldl_cleanStep_plain_end false _ (P0 ++ [y]) name hP hname]
      simp [render]
    have hY0 : ∀ x ∈ (splitPath D).foldl (cleanStep false) [] ++ P0, ddPlain x := by
      intro x hx
      rcases List.mem_append.1 hx with hx | hx
      · exact hYd x hx
      · exact Or.inr (hP0 x hx)
    simp only [List.dropLast_concat, List.dropLast_append_of_ne_nil, ne_eq, List.cons_ne_self,
      not_false_eq_true, List.dropLast_single, List.append_nil]
    rw [hJ]
    by_cases h0 : (splitPath D).foldl (cleanStep false) [] ++ P0 = []
    · rw [h0]
      simp only [List.nil_append, joinSlash, Dir, strip_all y hy.2.2.2]
      obtain ⟨h1, h2⟩ := List.append_eq_nil.1 h0
      rw [hR, h1, h2]
      simp [Clean, resolve, splitPath, cleanStep]
    · rw [joinSlash_append_singleton _ y h0]
      simp only [Dir, strip_last _ y hy.2.2.2]
      rw [resolve_Clean, resolve_append_sep cwd _ [] (joinSlash_ne_nil hY0 h0),
        resolve_joinSlash cwd _ hY0 h0, List.foldl_append,
        foldl_cleanStep_plain_any true P0 _ hP0, hR]
      simp [splitPath, cleanStep]

/-! ## Lemmas: extraction -/

theorem unzipLoop_append (W : World) (dest : GoString) :
    ∀ (pre rest : List ZipEntry) (fs : FS),
    unzipLoop W dest (pre ++ rest) fs =
      match unzipLoop W dest pre fs with
      | (some e, fs1) => (some e, fs1)
      | (none, fs1) => unzipLoop W dest rest fs1
  | [], rest, fs => by simp [unzipLoop]
  | f :: pre, rest, fs => by
    simp only [List.cons_append, unzipLoop]
    cases h : extractAndWriteFile W dest f fs with
    | mk e fs1 =>
      cases e with
      | some e => rfl
      | none => exact unzipLoop_append W dest pre rest fs1

theorem extractAndWriteFile_rejected (W : World) (dest : GoString) (f : ZipEntry) (fs : FS)
    (h : HasPrefix (Join [dest, f.Name]) (Clean dest ++ [47]) = false) :
    ∃ e, extractAndWriteFile W dest f fs = (some e, fs) := by
  unfold extractAndWriteFile
  split
  · exact ⟨_, rfl⟩
  · simp only [h, Bool.not_false, if_true]
    exact ⟨_, rfl⟩

theorem frameOK_extract (W : World) (dest : GoString) (f : ZipEntry) (fs fs1 : FS)
    (habs : dest.head? = some 47) (h : frameOK (resolve W.cwd dest) fs fs1) :
    frameOK (resolve W.cwd dest) fs (extractAndWriteFile W dest f fs1).2 := by
  unfold extractAndWriteFile
  split
  · exact h
  · split
    · exact h
    · rename_i hc
      have hc : HasPrefix (Join [dest, f.Name]) (Clean dest ++ [47]) = true := by simpa using hc
      obtain ⟨rest, hr, hT⟩ := check_sound W.cwd dest f.Name habs hc
      have hpre : resolve W.cwd dest <+: resolve W.cwd (Join [dest, f.Name]) := ⟨rest, hT.symm⟩
      split
      · exact frameOK_osMkdirAll W _ fs fs1 _ hpre h
      · have hplain : ∀ c ∈ resolve W.cwd (Join [dest, f.Name]), plainName c := by
          rw [resolve_Join_rooted W.cwd dest f.Name habs, resolve_rooted W.cwd dest habs,
            ← List.foldl_append]
          exact foldl_cleanStep_allPlain _ _ (by simp)
            (fun c hc => by
              rcases List.mem_append.1 hc with hc | hc
              · exact splitPath_slashFree dest c hc
              · exact splitPath_slashFree f.Name c hc)
        have hdir : resolve W.cwd dest <+: resolve W.cwd (Dir (Join [dest, f.Name])) := by
          rw [Join_rooted_render W.cwd dest f.Name habs, resolve_Dir_render W.cwd _ hplain, hT,
            List.dropLast_append_of_ne_nil _ hr]
          exact List.prefix_append _ _
        have h1 := frameOK_osMkdirAll W _ fs fs1 (Dir (Join [dest, f.Name])) hdir h
        split
        · exact h1
        · rename_i fs2 hcr
          exact frameOK_writeAll W _ fs fs2 _ _ hpre (frameOK_osCreate W _ fs _ fs2 _ hpre h1 hcr)

theorem frameOK_unzipLoop (W : World) (dest : GoString) (habs : dest.head? = some 47) (fs : FS) :
    ∀ (es : List ZipEntry) (fs1 : FS), frameOK (resolve W.cwd dest) fs fs1 →
      frameOK (resolve W.cwd dest) fs (unzipLoop W dest es fs1).2
  | [], fs1, h => h
  | f :: es, fs1, h => by
    have h1 := frameOK_extract W dest f fs fs1 habs h
    simp only [unzipLoop]
    cases he : extractAndWriteFile W dest f fs1 with
    | mk e fs2 =>
      rw [he] at h1
      cases e with
      | some e => exact h1
      | none => exact frameOK_unzipLoop W dest habs fs es fs2 h1

theorem frameOK_unzip (W : World) (src dest : GoString) (habs : dest.head? = some 47) (fs : FS) :
    frameOK (resolve W.cwd dest) fs (unzip W src dest fs).2 := by
  unfold unzip
  split
  · exact frameOK_refl _ _
  · exact frameOK_unzipLoop W dest habs fs _ _
      (frameOK_osMkdirAll W _ fs fs dest (List.prefix_refl _) (frameOK_refl _ _))

theorem unzipLoop_rejects (W : World) (dest : GoString) :
    ∀ (es : List ZipEntry) (fs : FS),
    (∃ f ∈ es, HasPrefix (Join [dest, f.Name]) (Clean dest ++ [47]) = false) →
      (unzipLoop W dest es fs).1 ≠ none
  | [], _, h => by simp at h
  | f :: es, fs, h => by
    simp only [unzipLoop]
    cases he : extractAndWriteFile W dest f fs with
    | mk e fs2 =>
      cases e with
      | some e => simp
      | none =>
        simp only
        obtain ⟨g, hg, hrej⟩ := h
        rcases List.mem_cons.1 hg with rfl | hg
        · obtain ⟨e, he2⟩ := extractAndWriteFile_rejected W dest g fs hrej
          rw [he2] at he
          cases he
        · exact unzipLoop_rejects W dest es fs2 ⟨g, hg, hrej⟩

theorem check_rejects_outside (cwd : Path) (dest name : GoString) (habs : dest.head? = some 47)
    (h : ¬ resolve cwd dest <+: resolve cwd (Join [dest, name])) :
    HasPrefix (Join [dest, name]) (Clean dest ++ [47]) = false := by
  cases hc : HasPrefix (Join [dest, name]) (Clean dest ++ [47]) with
  | false => rfl
  | true =>
    obtain ⟨rest, -, hT⟩ := check_sound cwd dest name habs hc
    exact absurd ⟨rest, hT.symm⟩ h

/-! ## Lemmas: sequences of changes -/

theorem Reach.mono {P Q : Act → Prop} (h : ∀ a, P a → Q a) {fs fs1 : FS} (r : Reach P fs fs1) :
    Reach Q fs fs1 := by
  induction r with
  | refl => exact Reach.refl _
  | step a _ hv hp ih => exact Reach.step a ih hv (h a hp)

theorem Reach.trans {P : Act → Prop} {fs fs1 fs2 : FS} (r1 : Reach P fs fs1)
    (r2 : Reach P fs1 fs2) : Reach P fs fs2 := by
  induction r2 with
  | refl => exact r1
  | step a _ hv hp ih => exact Reach.step a ih hv hp

theorem isDir_eq_true {o : Option Node} : isDir o = true ↔ o = some .dir := by
  cases o with
  | none => simp [isDir]
  | some n => cases n <;> simp [isDir]

theorem isFile_eq_true {o : Option Node} : isFile o = true ↔ ∃ d, o = some (.file d) := by
  cases o with
  | none => simp [isFile]
  | some n => cases n <;> simp [isFile]

theorem fileOnPath_false (fs : FS) (T q : Path) (h : fs.fileOnPath T = false) (hq : q <+: T) :
    isFile (fs.get q) = false := by
  unfold FS.fileOnPath at h
  rw [List.any_eq_false] at h
  have := h q ((List.mem_inits q T).2 hq)
  simpa using this

/-- A valid change keeps every directory. -/
theorem Act.run_isDir (fs : FS) (a : Act) (hv : a.valid fs) (q : Path)
    (h : isDir (fs.get q) = true) : isDir ((a.run fs).get q) = true := by
  cases a with
  | mkdir T =>
    simp only [Act.run, FS.mkdirs_get]
    split
    · rfl
    · exact h
  | write F d =>
    obtain ⟨h1, h2, -⟩ := hv
    simp only [Act.run]
    rw [FS.get_put_ne _ _ _ _ (by rintro rfl; exact h2 (isDir_eq_true.1 h))]
    exact h

theorem Reach.isDir_mono {P : Act → Prop} {fs fs1 : FS} (r : Reach P fs fs1) (q : Path)
    (h : isDir (fs.get q) = true) : isDir (fs1.get q) = true := by
  induction r with
  | refl => exact h
  | step a _ hv _ ih => exact Act.run_isDir _ a hv q ih

/-- A directory found after the changes was there before, or lies on the way
of a `MkdirAll`. -/
theorem Reach.isDir_origin {P : Act → Prop} {fs fs1 : FS} (r : Reach P fs fs1) (q : Path)
    (h : isDir (fs1.get q) = true) :
    isDir (fs.get q) = true ∨ ∃ T, P (.mkdir T) ∧ q <+: T := by
  induction r with
  | refl => exact Or.inl h
  | step a _ hv hp ih =>
    cases a with
    | mkdir T =>
      simp only [Act.run, FS.mkdirs_get] at h
      split at h
      · rename_i hc
        exact Or.inr ⟨T, hp, hc.1⟩
      · exact ih h
    | write F d =>
      simp only [Act.run] at h
      by_cases hq : q = F
      · subst hq
        rw [FS.get_put_self _ _ _ hv.1] at h
        cases h
      · rw [FS.get_put_ne _ _ _ _ hq] at h
        exact ih h

/-- A regular file found after the changes was there before, or was written. -/
theorem Reach.isFile_origin {P : Act → Prop} {fs fs1 : FS} (r : Reach P fs fs1) (q : Path)
    (h : isFile (fs1.get q) = true) :
    isFile (fs.get q) = true ∨ ∃ d, P (.write q d) := by
  induction r with
  | refl => exact Or.inl h
  | step a _ hv hp ih =>
    cases a with
    | mkdir T =>
      simp only [Act.run, FS.mkdirs_get] at h
      split at h
      · cases h
      · exact ih h
    | write F d =>
      simp only [Act.run] at h
      by_cases hq : q = F
      · subst hq
        exact Or.inr ⟨d, hp⟩
      · rw [FS.get_put_ne _ _ _ _ hq] at h
        exact ih h

theorem dropLast_prefix {q T : Path} (h : q <+: T) : q.dropLast <+: T :=
  (List.dropLast_prefix q).trans h

/-- A valid change keeps "the node at `q` has a directory as its parent". -/
theorem Act.run_parentDir (fs : FS) (a : Act) (hv : a.valid fs) (q : Path)
    (h : parentDir q fs) : parentDir q (a.run fs) := by
  intro hq
  cases a with
  | mkdir T =>
    simp only [Act.run, FS.mkdirs_get] at hq ⊢
    by_cases hc : q <+: T ∧ (fs.get q).isNone = true
    · have hpT := dropLast_prefix hc.1
      have hnf := fileOnPath_false fs T _ hv hpT
      by_cases hn : (fs.get q.dropLast).isNone = true
      · simp [hpT, hn, isDir]
      · simp only [hpT, hn, and_false, if_false]
        cases hg : fs.get q.dropLast with
        | none => simp [hg] at hn
        | some nd =>
          cases nd with
          | dir => rfl
          | file d => simp [hg, isFile] at hnf
    · simp only [hc, if_false] at hq
      have := h hq
      split
      · rfl
      · exact this
  | write F d =>
    obtain ⟨h1, h2, h3⟩ := hv
    simp only [Act.run] at hq ⊢
    by_cases hqF : q = F
    · subst hqF
      have hpar : isDir (fs.get q.dropLast) = true := by
        cases hg : fs.get q with
        | none => exact h3 hg
        | some nd => exact h (by simp [hg])
      have hne : q.dropLast ≠ q := by
        intro e
        have := congrArg List.length e
        simp only [List.length_dropLast] at this
        have hpos : 0 < q.length := List.length_pos.2 h1
        omega
      rw [FS.get_put_ne _ _ _ _ hne]
      exact hpar
    · rw [FS.get_put_ne _ _ _ _ hqF] at hq
      have hpar := h hq
      have hne : q.dropLast ≠ F := by
        rintro rfl
        exact h2 (isDir_eq_true.1 hpar)
      rw [FS.get_put_ne _ _ _ _ hne]
      exact hpar

theorem Reach.parentDir {P : Act → Prop} {fs fs1 : FS} (r : Reach P fs fs1) (q : Path)
    (h : Jlib.parentDir q fs) : Jlib.parentDir q fs1 := by
  induction r with
  | refl => exact h
  | step a _ hv _ ih => exact Act.run_parentDir _ a hv q ih

/-! ## Lemmas: the changes each operation makes -/

theorem Reach.one {P : Act → Prop} (fs : FS) (a : Act) (hv : a.valid fs) (hp : P a) :
    Reach P fs (a.run fs) := Reach.step a (Reach.refl fs) hv hp

theorem osMkdirAll_reach (W : World) (fs : FS) (name : GoString) :
    Reach (fun a => a = .mkdir (resolve W.cwd name)) fs (osMkdirAll W fs name).2 := by
  unfold osMkdirAll
  split
  · exact Reach.refl _
  · split
    · exact Reach.refl _
    · rename_i h
      exact Reach.one fs (.mkdir (resolve W.cwd name)) (by simpa [Act.valid] using h) rfl

theorem osCreate_reach (W : World) (fs fs1 : FS) (name : GoString)
    (h : osCreate W fs name = .ok fs1) :
    Reach (fun a => ∃ d, a = .write (resolve W.cwd name) d) fs fs1 := by
  obtain ⟨-, h2, h3, h4, h5⟩ := osCreate_ok W fs fs1 name h
  rw [h3]
  exact Reach.one fs (.write (resolve W.cwd name) emptyFile) ⟨h2, h4, h5⟩ ⟨_, rfl⟩

theorem writeAll_reach (W : World) (fs fs1 : FS) (name : GoString) (data : FileData)
    (h : osCreate W fs name = .ok fs1) :
    Reach (fun a => ∃ d, a = .write (resolve W.cwd name) d) fs (writeAll W fs1 name data).2 := by
  have r1 := osCreate_reach W fs fs1 name h
  obtain ⟨-, h2, h3, -, -⟩ := osCreate_ok W fs fs1 name h
  rw [writeAll_eq]
  split
  · exact r1
  · refine Reach.step (.write (resolve W.cwd name) data) r1 ⟨h2, ?_, ?_⟩ ⟨_, rfl⟩
    · rw [h3, FS.get_put_self _ _ _ h2]
      simp
    · rw [h3, FS.get_put_self _ _ _ h2]
      simp

theorem extract_reach (W : World) (dest : GoString) (f : ZipEntry) (fs : FS) :
    Reach (entryAct W dest f) fs (extractAndWriteFile W dest f fs).2 := by
  unfold extractAndWriteFile
  split
  · exact Reach.refl _
  · split
    · exact Reach.refl _
    · split
      · exact (osMkdirAll_reach W fs _).mono (fun a ha => Or.inl ha)
      · have r1 : Reach (entryAct W dest f) fs (osMkdirAll W fs (Dir (Join [dest, f.Name]))).2 :=
          (osMkdirAll_reach W fs _).mono (fun a ha => Or.inr (Or.inl ha))
        split
        · exact r1
        · rename_i fs1 hc
          exact r1.trans ((writeAll_reach W _ fs1 _ _ hc).mono (fun a ha => Or.inr (Or.inr ha)))

theorem unzipLoop_reach (W : World) (dest : GoString) : ∀ (es : List ZipEntry) (fs : FS),
    Reach (fun a => ∃ f ∈ es, entryAct W dest f a) fs (unzipLoop W dest es fs).2
  | [], fs => Reach.refl _
  | f :: es, fs => by
    have r1 : Reach (fun a => ∃ g ∈ f :: es, entryAct W dest g a) fs
        (extractAndWriteFile W dest f fs).2 :=
      (extract_reach W dest f fs).mono (fun a ha => ⟨f, List.mem_cons_self _ _, ha⟩)
    simp only [unzipLoop]
    cases he : extractAndWriteFile W dest f fs with
    | mk e fs1 =>
      rw [he] at r1
      cases e with
      | some e => exact r1
      | none =>
        exact r1.trans ((unzipLoop_reach W dest es fs1).mono
          (fun a ⟨g, hg, ha⟩ => ⟨g, List.mem_cons_of_mem _ hg, ha⟩))

theorem unzip_reach (W : World) (src dest : GoString) (fs : FS) :
    Reach (fun a => a = .mkdir (resolve W.cwd dest) ∨
        ∃ es f, zipOpenReader W fs src = .ok es ∧ f ∈ es ∧ entryAct W dest f a)
      fs (unzip W src dest fs).2 := by
  unfold unzip
  cases hz : zipOpenReader W fs src with
  | error e => exact Reach.refl _
  | ok es =>
    simp only
    exact ((osMkdirAll_reach W fs dest).mono (fun a ha => Or.inl ha)).trans
      ((unzipLoop_reach W dest es _).mono (fun a ⟨f, hf, ha⟩ => Or.inr ⟨es, f, rfl, hf, ha⟩))

theorem DownloadFile_reach (W : World) (url dest : GoString) (s : State) :
    Reach (fun a => ∃ d, a = .write (resolve W.cwd (Join [dest, Base url])) d) s.fs
      (DownloadFile W url dest s).2.fs := by
  unfold DownloadFile
  split
  · exact Reach.refl _
  · split
    · exact Reach.refl _
    · rename_i fs1 hc
      exact writeAll_reach W s.fs fs1 _ _ hc

/-- A download that returned a file and no error wrote the fetched body there. -/
theorem DownloadFile_ok (W : World) (url dest file : GoString) (s : State)
    (h : (DownloadFile W url dest s).1 = (some file, none)) :
    file = Join [dest, Base url] ∧ file ≠ [] ∧
      ∃ body, W.fetch url = .ok body ∧
        (DownloadFile W url dest s).2.fs.get (resolve W.cwd file) = some (.file body) := by
  unfold DownloadFile at h ⊢
  split at h
  · cases h
  · rename_i body hf
    split at h
    · cases h
    · rename_i fs1 hc
      simp only [Prod.mk.injEq, Option.some.injEq] at h
      obtain ⟨h1, h2, -, -, -⟩ := osCreate_ok W s.fs fs1 _ hc
      rw [writeAll_eq] at h ⊢
      split at h
      · cases h.2
      · rename_i hw
        simp only [hw, Bool.false_eq_true, if_false]
        refine ⟨h.1.symm, h.1 ▸ h1, body, hf, ?_⟩
        rw [← h.1, FS.get_put_self _ _ _ h2]

theorem DownloadJavaByID_reach (W : World) (id dst : GoString) (s : State) :
    Reach (fun a => ∃ u d, W.redirect id = .response u none ∧
        a = .write (resolve W.cwd (Join [dst, Base u])) d) s.fs
      (DownloadJavaByID W id dst s).2.fs := by
  unfold DownloadJavaByID
  rw [GetPackageRedirect_eq]
  cases hr : W.redirect id with
  | noResponse e => exact Reach.refl _
  | response u err =>
    cases err with
    | some e => exact Reach.refl _
    | none =>
      simp only
      exact (DownloadFile_reach W u dst (s.log (.redirect id))).mono
        (fun a ⟨d, ha⟩ => ⟨u, d, rfl, ha⟩)

theorem DownloadJavaByID_ok (W : World) (id dst file : GoString) (s s1 : State)
    (h : DownloadJavaByID W id dst s = (.val (some file, none), s1)) :
    ∃ u body, W.redirect id = .response u none ∧ W.fetch u = .ok body ∧
      file = Join [dst, Base u] ∧ file ≠ [] ∧ s1.fs.get (resolve W.cwd file) = some (.file body) := by
  unfold DownloadJavaByID at h
  rw [GetPackageRedirect_eq] at h
  cases hr : W.redirect id with
  | noResponse e => simp only [hr] at h; cases h
  | response u err =>
    cases err with
    | some e => simp only [hr] at h; cases h
    | none =>
      simp only [hr, Prod.mk.injEq, Ret.val.injEq] at h
      obtain ⟨h1, h2, body, h3, h4⟩ := DownloadFile_ok W u dst file _ h.1
      rw [h.2] at h4
      exact ⟨u, body, rfl, h3, h1, h2, h4⟩

theorem zipOpenReader_of_get (W : World) (fs : FS) (src : GoString) (body : FileData)
    (es : List ZipEntry) (hn : src ≠ [])
    (hg : fs.get (resolve W.cwd src) = some (.file body))
    (h : zipOpenReader W fs src = .ok es) : body = .archive es := by
  simp only [zipOpenReader, osOpen, hn, if_false, hg] at h
  cases body with
  | blob b => simp at h
  | archive es1 =>
    simp only [Except.ok.injEq] at h
    rw [h]

/-- What saving the metadata does: nothing when the file cannot be created;
otherwise the file is written in place, and an error then means the write
failed after the file was created. -/
theorem saveStructToJSONFile_cases (W : World) (d : PackageMetaInfo) (name : GoString) (fs : FS) :
    ((saveStructToJSONFile W d name fs).1 ≠ none ∧ (saveStructToJSONFile W d name fs).2 = fs) ∨
    (Reach (fun a => ∃ x, a = .write (resolve W.cwd name) x) fs (saveStructToJSONFile W d name fs).2 ∧
      ((saveStructToJSONFile W d name fs).1 ≠ none → W.writeFault (resolve W.cwd name) = true)) := by
  unfold saveStructToJSONFile
  split
  · exact Or.inl ⟨by simp, rfl⟩
  · rename_i fs1 hc
    refine Or.inr ⟨writeAll_reach W fs fs1 name _ hc, ?_⟩
    rw [writeAll_eq]
    split
    · rename_i hw
      exact fun _ => hw
    · exact fun h => absurd rfl h

/-! ## Lemmas: where files come from -/

theorem entryAct_write (W : World) (dest : GoString) (f : ZipEntry) (M : Path) (d : FileData)
    (h : entryAct W dest f (.write M d)) : M = resolve W.cwd (Join [dest, f.Name]) := by
  rcases h with h | h | ⟨x, h⟩
  · cases h
  · cases h
  · simp only [Act.write.injEq] at h
    exact h.1

theorem installFresh_file_origin (W : World) (vm : VersionManager) (p0 : GetPackagesResponse)
    (dirname : GoString) (s : State) (M : Path)
    (h : isFile ((installFresh W vm p0 dirname s).2.fs.get M) = true) :
    isFile (s.fs.get M) = true ∨
      (∃ pkg, (installFresh W vm p0 dirname s).1 = .returned (some pkg) none) ∨
      failedInstallWrites W vm M := by
  have rd := DownloadJavaByID_reach W p0.ID W.tmpDir s
  have hdl : ∀ fs1, Reach (fun a => ∃ u d, W.redirect p0.ID = .response u none ∧
        a = .write (resolve W.cwd (Join [W.tmpDir, Base u])) d) s.fs fs1 →
      isFile (fs1.get M) = true → isFile (s.fs.get M) = true ∨ failedInstallWrites W vm M := by
    intro fs1 r hf
    rcases r.isFile_origin M hf with h1 | ⟨d, u, d1, -, h2⟩
    · exact Or.inl h1
    · simp only [Act.write.injEq] at h2
      exact Or.inr (Or.inr (Or.inl ⟨u, h2.1⟩))
  unfold installFresh at h ⊢
  cases hd : DownloadJavaByID W p0.ID W.tmpDir s with
  | mk r s1 =>
    rw [hd] at rd h
    simp only at rd
    cases r with
    | panic m =>
      simp only at h
      rcases hdl _ rd h with h1 | h1
      · exact Or.inl h1
      · exact Or.inr (Or.inr h1)
    | val v =>
      obtain ⟨file, err⟩ := v
      cases err with
      | some e =>
        simp only at h
        rcases hdl _ rd h with h1 | h1
        · exact Or.inl h1
        · exact Or.inr (Or.inr h1)
      | none =>
        cases file with
        | none =>
          simp only at h
          rcases hdl _ rd h with h1 | h1
          · exact Or.inl h1
          · exact Or.inr (Or.inr h1)
        | some file =>
          obtain ⟨u, body, -, hfetch, -, hfne, hget⟩ := DownloadJavaByID_ok W p0.ID W.tmpDir file s s1 hd
          have ru := unzip_reach W file vm.DataDir s1.fs
          have hun : ∀ fs2, Reach (fun a => a = .mkdir (resolve W.cwd vm.DataDir) ∨
                ∃ es f, zipOpenReader W s1.fs file = .ok es ∧ f ∈ es ∧
                  entryAct W vm.DataDir f a) s1.fs fs2 →
              isFile (fs2.get M) = true →
              isFile (s.fs.get M) = true ∨ failedInstallWrites W vm M := by
            intro fs2 r hf
            rcases r.isFile_origin M hf with h1 | ⟨d, h2 | ⟨es, f, hz, hf2, ha⟩⟩
            · exact hdl _ rd h1
            · cases h2
            · right; right; right
              have hb := zipOpenReader_of_get W s1.fs file body es hfne hget hz
              exact ⟨u, es, f, hb ▸ hfetch, hf2, entryAct_write W _ f M d ha⟩
          simp only at h ⊢
          cases hu : unzip W file vm.DataDir s1.fs with
          | mk e fs2 =>
            rw [hu] at ru h
            simp only at ru
            cases e with
            | some e =>
              simp only at h
              rcases hun _ ru h with h1 | h1
              · exact Or.inl h1
              · exact Or.inr (Or.inr h1)
            | none =>
              simp only at h ⊢
              have hsv := saveStructToJSONFile_cases W p0
                (Join [vm.DataDir, dirname, ascii "meta.json"]) fs2
              cases hs : saveStructToJSONFile W p0
                  (Join [vm.DataDir, dirname, ascii "meta.json"]) fs2 with
              | mk e3 fs3 =>
                rw [hs] at hsv h
                simp only at hsv
                cases e3 with
                | none => exact Or.inr (Or.inl ⟨_, rfl⟩)
                | some e3 =>
                  simp only at h
                  rcases hsv with ⟨-, h2⟩ | ⟨r3, hw⟩
                  · rw [h2] at h
                    rcases hun _ ru h with h1 | h1
                    · exact Or.inl h1
                    · exact Or.inr (Or.inr h1)
                  · rcases r3.isFile_origin M h with h1 | ⟨d, x, hx⟩
                    · rcases hun _ ru h1 with h1 | h1
                      · exact Or.inl h1
                      · exact Or.inr (Or.inr h1)
                    · simp only [Act.write.injEq] at hx
                      right; right; left
                      rw [hx.1]
                      exact ⟨hw (by simp), dirname, rfl⟩

theorem installPackage_file_origin (W : World) (vm : VersionManager) (p0 : GetPackagesResponse)
    (s : State) (M : Path)
    (h : isFile ((installPackage W vm p0 s).2.fs.get M) = true) :
    isFile (s.fs.get M) = true ∨
      (∃ pkg, (installPackage W vm p0 s).1 = .returned (some pkg) none) ∨
      failedInstallWrites W vm M := by
  unfold installPackage GetFilename at h ⊢
  rw [GetPackageRedirect_eq] at h ⊢
  cases hr : W.redirect p0.ID with
  | noResponse e => simp only [hr] at h; exact Or.inl h
  | response u err =>
    cases err with
    | some e => simp only [hr] at h; exact Or.inl h
    | none =>
      simp only [hr, State.log_fs] at h ⊢
      split at h
      · split at h <;> exact Or.inl h
      · split at h
        · exact Or.inl h
        · rename_i hc
          simp only [hc, if_false]
          exact installFresh_file_origin W vm p0 _ _ M h

theorem Install_file_origin (W : World) (vm : VersionManager) (o : JavaInstallOptions)
    (s : State) (M : Path)
    (h : isFile ((VersionManager.Install W vm o s).2.fs.get M) = true) :
    isFile (s.fs.get M) = true ∨
      (∃ pkg, (VersionManager.Install W vm o s).1 = .returned (some pkg) none) ∨
      failedInstallWrites W vm M := by
  cases hg : (GetPackages W { o with ArchiveType := [ascii "zip"] } s).1 with
  | error e =>
    rw [Install_error W vm o s e hg] at h
    exact Or.inl h
  | ok l =>
    cases l with
    | nil =>
      rw [Install_nil W vm o s hg] at h
      exact Or.inl h
    | cons A rest =>
      rw [Install_cons W vm o s A rest hg] at h ⊢
      exact installPackage_file_origin W vm A _ M h

/-! ## Lemmas: the registry after a fresh install -/

theorem filter_eq_singleton (p : GoString → Bool) (n : GoString) : ∀ (L : List GoString),
    L.Pairwise strLT → n ∈ L → p n = true → (∀ m ∈ L, p m = true → m = n) → L.filter p = [n]
  | [], _, h, _, _ => by simp at h
  | x :: L, hs, hn, hp, hall => by
    rw [List.pairwise_cons] at hs
    by_cases hx : x = n
    · subst hx
      have : L.filter p = [] := by
        rw [List.filter_eq_nil_iff]
        intro m hm hpm
        have := hall m (List.mem_cons_of_mem _ hm) hpm
        exact (hs.1 m hm).2 this.symm
      simp [List.filter_cons, hp, this]
    · have hpx : p x = false := by
        cases hpx : p x with
        | false => rfl
        | true => exact absurd (hall x (List.mem_cons_self _ _) hpx) hx
      have hn' : n ∈ L := by
        rcases List.mem_cons.1 hn with h | h
        · exact absurd h.symm hx
        · exact h
      simp only [List.filter_cons, hpx, Bool.false_eq_true, if_false]
      exact filter_eq_singleton p n L hs.2 hn' hp
        (fun m hm => hall m (List.mem_cons_of_mem _ hm))

theorem child_prefix (R L : Path) (m : GoString) (h : R ++ [m] <+: R ++ L) :
    ∃ L1, L = m :: L1 := by
  rw [List.prefix_append_right_inj] at h
  obtain ⟨z, hz⟩ := h
  exact ⟨z, by simpa using hz.symm⟩

theorem not_child_prefix_self (R : Path) (m : GoString) : ¬ R ++ [m] <+: R := by
  intro h
  have := h.length_le
  simp at this

theorem plain_meta : plainName (ascii "meta.json") := by decide

/-- After a successful fresh install into an empty root of an archive with the
single top-level directory `n`, the root is a directory whose only
subdirectory is `n`. -/
theorem installFresh_children (W : World) (vm : VersionManager) (A : GetPackagesResponse)
    (n u : GoString) (s : State) (es : List ZipEntry) (pkg : JavaPackage)
    (hempty : emptyRoot W vm s.fs)
    (hred : W.redirect A.ID = .response u none)
    (hfetch : W.fetch u = .ok (.archive es))
    (hn : plainName n) (hes : singleTopDir n es)
    (hok : (installFresh W vm A n s).1 = .returned (some pkg) none) :
    isDir ((installFresh W vm A n s).2.fs.get (resolve W.cwd vm.DataDir)) = true ∧
    isDir ((installFresh W vm A n s).2.fs.get (resolve W.cwd vm.DataDir ++ [n])) = true ∧
    (∀ m, isDir ((installFresh W vm A n s).2.fs.get (resolve W.cwd vm.DataDir ++ [m])) = true →
      m = n) ∧
    (installFresh W vm A n s).2.fs.get
        (resolve W.cwd (Join [vm.DataDir, n, ascii "meta.json"]))
      = some (.file (.blob (.json (encodeMeta A)))) ∧
    Join [vm.DataDir, n, ascii "meta.json"] ≠ [] ∧
    pkg = mkJavaPackage W vm (some A) n := by
  obtain ⟨hD, hnone⟩ := hempty
  obtain ⟨-, hpkg, file, s1, fs2, hd, hunzip, hsave, -⟩ := installFresh_ok_inv W vm A n s pkg none hok
  obtain ⟨u2, body, hred2, hfetch2, -, hfne, hget⟩ := DownloadJavaByID_ok W A.ID W.tmpDir file s s1 hd
  have hu : u2 = u := by
    rw [hred] at hred2
    simp only [HttpResult.response.injEq, and_true] at hred2
    exact hred2.symm
  subst hu
  have hbody : body = .archive es := by
    rw [hfetch] at hfetch2
    simp only [Except.ok.injEq] at hfetch2
    exact hfetch2.symm
  subst hbody
  have hz : zipOpenReader W s1.fs file = .ok es := by
    simp [zipOpenReader, osOpen, hfne, hget]
  -- the chain of changes
  have rd := DownloadJavaByID_reach W A.ID W.tmpDir s
  rw [hd] at rd
  simp only at rd
  have ru := unzip_reach W file vm.DataDir s1.fs
  rw [hunzip] at ru
  simp only at ru
  have hM : resolve W.cwd (Join [vm.DataDir, n, ascii "meta.json"]) =
      resolve W.cwd vm.DataDir ++ [n, ascii "meta.json"] :=
    resolve_Join_plain W.cwd vm.DataDir n _ hD hn plain_meta
  obtain ⟨hne, hMne, -, hnd, hpar, hfs3⟩ := saveStructToJSONFile_ok W A _ fs2 _ hsave
  have rs : Reach (fun a => ∃ x, a = .write (resolve W.cwd
      (Join [vm.DataDir, n, ascii "meta.json"])) x) fs2 (installFresh W vm A n s).2.fs := by
    rcases saveStructToJSONFile_cases W A (Join [vm.DataDir, n, ascii "meta.json"]) fs2 with h | h
    · rw [hsave] at h
      exact absurd rfl h.1
    · rw [hsave] at h
      exact h.1
  -- the directories made are the root and what the entries need
  let Q : Act → Prop := fun a => ∀ T, a = .mkdir T →
    T = resolve W.cwd vm.DataDir ∨ ∃ L, T = resolve W.cwd vm.DataDir ++ n :: L
  have hentry : ∀ f ∈ es, ∀ T, entryAct W vm.DataDir f (.mkdir T) →
      T = resolve W.cwd vm.DataDir ∨ ∃ L, T = resolve W.cwd vm.DataDir ++ n :: L := by
    intro f hf T hT
    obtain ⟨P, hP, hname⟩ := hes f hf
    obtain ⟨h1, h2⟩ := resolve_entry W.cwd vm.DataDir f.Name (n :: P) hD
      (fun c hc => by
        rcases List.mem_cons.1 hc with rfl | hc
        · exact hn
        · exact hP c hc) (by simp) hname
    rcases hT with h | h | ⟨d, h⟩
    · simp only [Act.mkdir.injEq] at h
      exact Or.inr ⟨P, by rw [h, h1]⟩
    · simp only [Act.mkdir.injEq] at h
      rw [h, h2]
      cases P with
      | nil => exact Or.inl (by simp)
      | cons c P => exact Or.inr ⟨(c :: P).dropLast, by simp [List.dropLast]⟩
    · cases h
  have rall : Reach Q s.fs (installFresh W vm A n s).2.fs := by
    refine ((rd.mono ?_).trans (ru.mono ?_)).trans (rs.mono ?_)
    · rintro a ⟨u1, d, -, rfl⟩ T hT
      cases hT
    · rintro a (rfl | ⟨es1, f, hz1, hf, ha⟩) T hT
      · simp only [Act.mkdir.injEq] at hT
        exact Or.inl hT.symm
      · rw [hz] at hz1
        simp only [Except.ok.injEq] at hz1
        subst hz1
        subst hT
        exact hentry f hf T ha
    · rintro a ⟨x, rfl⟩ T hT
      cases hT
  have r12 : Reach (fun _ => True) s.fs fs2 :=
    (rd.mono (fun _ _ => trivial)).trans (ru.mono (fun _ _ => trivial))
  -- the directory of the package
  have hdirn2 : isDir (fs2.get (resolve W.cwd vm.DataDir ++ [n])) = true := by
    have hp0 : parentDir (resolve W.cwd (Join [vm.DataDir, n, ascii "meta.json"])) s.fs := by
      intro h
      rw [hM, hnone _ (List.prefix_append _ _) (by simp)] at h
      cases h
    have hp2 := r12.parentDir _ hp0
    have hdl : (resolve W.cwd (Join [vm.DataDir, n, ascii "meta.json"])).dropLast =
        resolve W.cwd vm.DataDir ++ [n] := by
      rw [hM]
      have : resolve W.cwd vm.DataDir ++ [n, ascii "meta.json"] =
          (resolve W.cwd vm.DataDir ++ [n]) ++ [ascii "meta.json"] := by simp
      rw [this, List.dropLast_concat]
    rw [← hdl]
    cases hg : fs2.get (resolve W.cwd (Join [vm.DataDir, n, ascii "meta.json"])) with
    | none => exact hpar hg
    | some nd => exact hp2 (by simp [hg])
  have hdirn : isDir ((installFresh W vm A n s).2.fs.get (resolve W.cwd vm.DataDir ++ [n])) = true :=
    rs.isDir_mono _ hdirn2
  have hroot : isDir ((installFresh W vm A n s).2.fs.get (resolve W.cwd vm.DataDir)) = true := by
    have hp0 : parentDir (resolve W.cwd vm.DataDir ++ [n]) s.fs := by
      intro h
      rw [hnone _ (List.prefix_append _ _) (by simp)] at h
      cases h
    have hp3 := rall.parentDir _ hp0
    have := hp3 (by rw [isDir_eq_true.1 hdirn]; rfl)
    simpa using this
  refine ⟨hroot, hdirn, ?_, saveStructToJSONFile_get W A _ fs2 _ hsave, hne, hpkg⟩
  intro m hm
  rcases rall.isDir_origin _ hm with h | ⟨T, hQ, hpre⟩
  · rw [hnone _ (List.prefix_append _ _) (by simp)] at h
    cases h
  · rcases hQ T rfl with rfl | ⟨L, rfl⟩
    · exact absurd hpre (not_child_prefix_self _ _)
    · obtain ⟨L1, hL⟩ := child_prefix _ _ _ hpre
      simp only [List.cons.injEq] at hL
      exact hL.1.symm

/-- `List` on a root whose only subdirectory is `n`, with the descriptor `A`
in its `meta.json`. -/
theorem List_single (W : World) (vm : VersionManager) (fs : FS) (n : GoString)
    (A : GetPackagesResponse) (hD : vm.DataDir ≠ [])
    (hroot : isDir (fs.get (resolve W.cwd vm.DataDir)) = true)
    (hdirn : isDir (fs.get (resolve W.cwd vm.DataDir ++ [n])) = true)
    (honly : ∀ m, isDir (fs.get (resolve W.cwd vm.DataDir ++ [m])) = true → m = n)
    (hmeta : fs.get (resolve W.cwd (Join [vm.DataDir, n, ascii "meta.json"]))
      = some (.file (.blob (.json (encodeMeta A)))))
    (hne : Join [vm.DataDir, n, ascii "meta.json"] ≠ []) (hA : metaOK A = true) :
    VersionManager.List W vm fs = .ok [mkJavaPackage W vm (some A) n] := by
  have hread : readStructFromJSONFile W (Join [vm.DataDir, n, ascii "meta.json"]) fs
      = .ok (some A) := by
    rw [readStructFromJSONFile_json W _ fs _ hne hmeta, decodeMetaPtr_encodeMeta A hA]
  have hsub : subdirNames W fs vm.DataDir = [n] := by
    unfold subdirNames
    refine filter_eq_singleton _ n _ (childNames_sorted _ _) ?_ hdirn (fun m _ hm => honly m hm)
    rw [mem_childNames_iff, isDir_eq_true.1 hdirn]
    rfl
  have hrd : osReadDir W fs vm.DataDir = .ok ((fs.childNames (resolve W.cwd vm.DataDir)).map
      (fun m => (m, isDir (fs.get (resolve W.cwd vm.DataDir ++ [m]))))) := by
    simp [osReadDir, hD, isDir_eq_true.1 hroot]
  unfold VersionManager.List
  rw [hrd]
  simp only
  cases hl : listLoop W vm fs ((fs.childNames (resolve W.cwd vm.DataDir)).map
      (fun m => (m, isDir (fs.get (resolve W.cwd vm.DataDir ++ [m]))))) with
  | error e =>
    obtain ⟨m, hm, e1, he1⟩ := (listLoop_error W vm fs _).1 ⟨e, hl⟩
    rw [← mem_subdirNames, hsub, List.mem_singleton] at hm
    subst hm
    rw [hread] at he1
    cases he1
  | ok javas =>
    rw [listLoop_ok W vm fs _ javas hl, subdirNames_eq, hsub]
    simp [metaOf, hread]

theorem GetJavaByID_single (W : World) (vm : VersionManager) (fs : FS) (n : GoString)
    (A : GetPackagesResponse)
    (h : VersionManager.List W vm fs = .ok [mkJavaPackage W vm (some A) n]) :
    VersionManager.GetJavaByID W vm A.ID fs = .val (some (mkJavaPackage W vm (some A) n), none) := by
  simp [VersionManager.GetJavaByID, h, findByID, mkJavaPackage]

/-- In the example state nothing exists inside `/data`. -/
theorem exState_emptyRoot (W : World) : emptyRoot W exVM exState.fs := by
  refine ⟨by decide, ?_⟩
  intro q hq hne
  have hR : resolve W.cwd exVM.DataDir = [ascii "data"] := by
    simp [resolve, exVM, ascii, splitPath, cleanStep]
  rw [hR] at hq hne
  obtain ⟨t, rfl⟩ := hq
  cases t with
  | nil => exact absurd rfl hne
  | cons x t =>
    simp only [exState, FS.get]
    have h1 : [ascii "data"] ++ x :: t ≠ [] := by simp
    have h2 : [ascii "data"] ++ x :: t ≠ [ascii "tmp"] := by
      intro h
      injection h with h0 _
      exact absurd h0 (by decide)
    have h3 : [ascii "data"] ++ x :: t ≠ [ascii "data"] := by simp
    simp [h1, h2, h3]

/-- The example archive has the single top-level directory `zulu8`. -/
theorem exArchive_singleTopDir : singleTopDir (ascii "zulu8") exArchive := by
  intro f hf
  simp only [exArchive, List.mem_cons, List.mem_singleton, List.not_mem_nil, or_false] at hf
  rcases hf with rfl | rfl | rfl
  · exact ⟨[], by simp, Or.inr (by decide)⟩
  · exact ⟨[ascii "bin"], by decide, Or.inr (by decide)⟩
  · exact ⟨[ascii "bin", ascii "java"], by decide, Or.inl (by decide)⟩

/-! ## Lemmas: the lookup of `Use` -/

theorem useLoop_find (d : GoString) (v : Int) : ∀ javas : List JavaPackage,
    (∀ j ∈ javas, j.PackageMetaInfo ≠ none) →
    useLoop d v javas =
      match javas.find? (descriptorMatches d v) with
      | some j => .val (some j, none)
      | none => .val (none, some .ErrJavaNotFound)
  | [], _ => rfl
  | j :: rest, h => by
    have ih := useLoop_find d v rest (fun k hk => h k (List.mem_cons_of_mem _ hk))
    have hj := h j (List.mem_cons_self _ _)
    cases hm : j.PackageMetaInfo with
    | none => exact absurd hm hj
    | some m =>
      by_cases hc : m.Distribution = d ∧ m.JDKVersion = v
      · have : descriptorMatches d v j = true := by
          simp only [descriptorMatches, hm, decide_eq_true_eq]; exact hc
        simp only [useLoop, hm, if_pos hc, List.find?_cons, this]
      · have : descriptorMatches d v j = false := by
          simp only [descriptorMatches, hm, decide_eq_false_iff_not]; exact hc
        simp only [useLoop, hm, if_neg hc, List.find?_cons, this, ih]

theorem subdirNames_sorted (W : World) (fs : FS) (dir : GoString) :
    (subdirNames W fs dir).Pairwise strLT :=
  (childNames_sorted _ fs).filter _

theorem List_ok_eq (W : World) (vm : VersionManager) (fs : FS) (javas : List JavaPackage)
    (hl : VersionManager.List W vm fs = .ok javas) :
    javas = (subdirNames W fs vm.DataDir).map
      (fun n => mkJavaPackage W vm (metaOf W vm fs n) n) := by
  unfold VersionManager.List at hl
  cases hr : osReadDir W fs vm.DataDir with
  | error e => simp [hr] at hl
  | ok files =>
    simp only [hr] at hl
    rw [listLoop_ok W vm fs files javas hl, osReadDir_ok W fs _ files hr, subdirNames_eq]

/-! ## Lemmas: the errors of a lookup -/

theorem Except_map_error {ε α β : Type} (f : α → β) (x : Except ε α) (e : ε)
    (h : Except.map f x = .error e) : x = .error e := by
  cases x with
  | error y => simpa [Except.map] using h
  | ok a => simp [Except.map] at h

theorem decodeFields_err {α : Type} (Q : GoError → Prop)
    (set : α → GoString → Json → Except GoError α)
    (hset : ∀ d k v e, set d k v = .error e → Q e) :
    ∀ (kvs : List (GoString × Json)) (d : α) (e : GoError),
      decodeFields set kvs d = .error e → Q e
  | [], d, e, h => by simp [decodeFields] at h
  | (k, v) :: rest, d, e, h => by
    simp only [decodeFields] at h
    cases hs : set d k v with
    | error e1 =>
      simp only [hs, Except.error.injEq] at h
      exact h ▸ hset d k v e1 hs
    | ok d2 =>
      simp only [hs] at h
      exact decodeFields_err Q set hset rest d2 e h

theorem decodeElems_err {α : Type} (Q : GoError → Prop) (dec : Json → Except GoError α)
    (hdec : ∀ v e, dec v = .error e → Q e) :
    ∀ (xs : List Json) (e : GoError), decodeElems dec xs = .error e → Q e
  | [], e, h => by simp [decodeElems] at h
  | x :: xs, e, h => by
    simp only [decodeElems] at h
    cases hx : dec x with
    | error e1 =>
      simp only [hx, Except.error.injEq] at h
      exact h ▸ hdec x e1 hx
    | ok a =>
      cases hr : decodeElems dec xs with
      | error e1 =>
        simp only [hx, hr, Except.error.injEq] at h
        exact h ▸ decodeElems_err Q dec hdec xs e1 hr
      | ok r1 => simp [hx, hr] at h

theorem decString_err (cur : GoString) (v : Json) (e : GoError)
    (h : decString cur v = .error e) : notNotFound e := by
  cases v <;> simp only [decString, Except.error.injEq] at h <;> first | (subst h; rfl) | cases h

theorem decInt_err (cur : Int) (v : Json) (e : GoError)
    (h : decInt cur v = .error e) : notNotFound e := by
  cases v <;> simp only [decInt, Except.error.injEq] at h
  all_goals first
    | (subst h; rfl)
    | cases h
    | (split at h
       · cases h
       · simp only [Except.error.injEq] at h; subst h; rfl)

theorem decBool_err (cur : Bool) (v : Json) (e : GoError)
    (h : decBool cur v = .error e) : notNotFound e := by
  cases v <;> simp only [decBool, Except.error.injEq] at h <;> first | (subst h; rfl) | cases h

theorem setFeatureField_err (f : GetSupportedArchiveTypesResponse) (k : GoString) (v : Json)
    (e : GoError) (h : setFeatureField f k v = .error e) : notNotFound e := by
  unfold setFeatureField at h
  split_ifs at h
  all_goals exact decString_err _ _ _ (Except_map_error _ _ _ h)

theorem decodeFeature_err (v : Json) (e : GoError) (h : decodeFeature v = .error e) :
    notNotFound e := by
  cases v <;> simp only [decodeFeature, Except.error.injEq] at h
  all_goals first
    | (subst h; rfl)
    | cases h
    | exact decodeFields_err _ _ setFeatureField_err _ _ _ h

theorem decFeatures_err (v : Json) (e : GoError) (h : decFeatures v = .error e) :
    notNotFound e := by
  cases v <;> simp only [decFeatures, Except.error.injEq] at h
  all_goals first
    | (subst h; rfl)
    | cases h
    | exact decodeElems_err _ _ decodeFeature_err _ _ (Except_map_error _ _ _ h)

theorem setLinksField_err (l : PackageLinks) (k : GoString) (v : Json)
    (e : GoError) (h : setLinksField l k v = .error e) : notNotFound e := by
  unfold setLinksField at h
  split_ifs at h
  all_goals exact decString_err _ _ _ (Except_map_error _ _ _ h)

theorem decLinks_err (cur : PackageLinks) (v : Json) (e : GoError)
    (h : decLinks cur v = .error e) : notNotFound e := by
  cases v <;> simp only [decLinks, Except.error.injEq] at h
  all_goals first
    | (subst h; rfl)
    | cases h
    | exact decodeFields_err _ _ setLinksField_err _ _ _ h

set_option maxHeartbeats 4000000 in
theorem setMetaField_err (d : GetPackagesResponse) (k : GoString) (v : Json)
    (e : GoError) (h : setMetaField d k v = .error e) : notNotFound e := by
  unfold setMetaField at h
  iterate 26
    replace h := ite_eq_cases h
    rcases h with ⟨-, h⟩ | ⟨-, h⟩
    · first
      | exact decString_err _ _ _ (Except_map_error _ _ _ h)
      | exact decInt_err _ _ _ (Except_map_error _ _ _ h)
      | exact decBool_err _ _ _ (Except_map_error _ _ _ h)
      | exact decLinks_err _ _ _ (Except_map_error _ _ _ h)
      | exact decFeatures_err _ _ (Except_map_error _ _ _ h)
  cases h

theorem decMeta_err (cur : GetPackagesResponse) (v : Json) (e : GoError)
    (h : decMeta cur v = .error e) : notNotFound e := by
  cases v <;> simp only [decMeta, Except.error.injEq] at h
  all_goals first
    | (subst h; rfl)
    | cases h
    | exact decodeFields_err _ _ setMetaField_err _ _ _ h

theorem decodeMetaPtr_err (v : Json) (e : GoError) (h : decodeMetaPtr v = .error e) :
    notNotFound e := by
  cases v
  case null => simp [decodeMetaPtr] at h
  all_goals
    simp only [decodeMetaPtr] at h
    exact decMeta_err _ _ _ (Except_map_error _ _ _ h)

theorem osOpen_err (W : World) (fs : FS) (name : GoString) (e : GoError)
    (h : osOpen W fs name = .error e) : notNotFound e := by
  unfold osOpen at h
  split at h
  · simp only [Except.error.injEq] at h; subst h; rfl
  · split at h
    · cases h
    · simp only [Except.error.injEq] at h; subst h; rfl

theorem readStructFromJSONFile_err (W : World) (name : GoString) (fs : FS) (e : GoError)
    (h : readStructFromJSONFile W name fs = .error e) : notNotFound e := by
  unfold readStructFromJSONFile at h
  split at h
  · rename_i e1 ho
    simp only [Except.error.injEq] at h
    exact h ▸ osOpen_err W fs name e1 ho
  · simp only [Except.error.injEq] at h; subst h; rfl
  · exact decodeMetaPtr_err _ _ h
  · simp only [Except.error.injEq] at h; subst h; rfl

theorem osReadDir_err (W : World) (fs : FS) (name : GoString) (e : GoError)
    (h : osReadDir W fs name = .error e) : notNotFound e := by
  unfold osReadDir at h
  split at h
  · simp only [Except.error.injEq] at h; subst h; rfl
  · split at h
    · cases h
    · simp only [Except.error.injEq] at h; subst h; rfl
    · simp only [Except.error.injEq] at h; subst h; rfl

theorem listLoop_err (W : World) (vm : VersionManager) (fs : FS) :
    ∀ (files : List (GoString × Bool)) (e : GoError),
      listLoop W vm fs files = .error e → notNotFound e
  | [], e, h => by simp [listLoop] at h
  | (name, dir) :: rest, e, h => by
    simp only [listLoop] at h
    split at h
    · split at h
      · rename_i e1 hr
        simp only [Except.error.injEq] at h
        subst h
        have := readStructFromJSONFile_err W _ fs e1 hr
        simpa [notNotFound, GoError.Is] using this
      · split at h
        · rename_i e1 hl
          simp only [Except.error.injEq] at h
          exact h ▸ listLoop_err W vm fs rest e1 hl
        · cases h
    · exact listLoop_err W vm fs rest e h

theorem List_err (W : World) (vm : VersionManager) (fs : FS) (e : GoError)
    (h : VersionManager.List W vm fs = .error e) : notNotFound e := by
  unfold VersionManager.List at h
  split at h
  · rename_i e1 hr
    simp only [Except.error.injEq] at h
    subst h
    have := osReadDir_err W fs _ e1 hr
    simpa [notNotFound, GoError.Is] using this
  · exact listLoop_err W vm fs _ e h

/-! ## Lemmas: the package `Install` returns -/

theorem installPackage_pkg_inv (W : World) (vm : VersionManager) (p0 : GetPackagesResponse)
    (s : State) (pkg : JavaPackage) (err : Option GoError)
    (h : (installPackage W vm p0 s).1 = .returned (some pkg) err) :
    ∃ u meta, W.redirect p0.ID = .response u none ∧
      pkg = mkJavaPackage W vm meta (TrimSuffix (Base u) (ascii ".zip")) ∧
      ((err = none ∧ meta = some p0 ∧
          installPackage W vm p0 s =
            installFresh W vm p0 (TrimSuffix (Base u) (ascii ".zip")) (s.log (.redirect p0.ID))) ∨
        (err = some .ErrPackageAlreadyInstalled ∧
          (installPackage W vm p0 s).2 = s.log (.redirect p0.ID) ∧
          (∃ n, osStat W s.fs
            (Join [vm.DataDir, TrimSuffix (Base u) (ascii ".zip"), ascii "meta.json"]) = .ok n) ∧
          readStructFromJSONFile W
            (Join [vm.DataDir, TrimSuffix (Base u) (ascii ".zip"), ascii "meta.json"]) s.fs
              = .ok meta)) := by
  unfold installPackage at h ⊢
  unfold GetFilename at h ⊢
  rw [GetPackageRedirect_eq] at h ⊢
  cases hr : W.redirect p0.ID with
  | noResponse e => simp only [hr] at h; cases h
  | response u e =>
    cases e with
    | some e => simp only [hr] at h; cases h
    | none =>
      simp only [hr] at h ⊢
      simp only [State.log_fs] at h ⊢
      cases hst : osStat W s.fs
          (Join [vm.DataDir, TrimSuffix (Base u) (ascii ".zip"), ascii "meta.json"]) with
      | ok n =>
        simp only [hst] at h ⊢
        cases hrd : readStructFromJSONFile W
            (Join [vm.DataDir, TrimSuffix (Base u) (ascii ".zip"), ascii "meta.json"]) s.fs with
        | error e1 => simp only [hrd] at h; cases h
        | ok meta =>
          simp only [hrd, Outcome.returned.injEq, Option.some.injEq] at h ⊢
          refine ⟨u, meta, rfl, h.1.symm, Or.inr ⟨h.2.symm, ?_, ⟨n, hst⟩, ?_⟩⟩ <;> trivial
      | error e1 =>
        simp only [hst] at h ⊢
        by_cases hne : IsNotExist e1 = true
        · simp only [hne, Bool.not_true, Bool.false_eq_true, if_false] at h ⊢
          obtain ⟨he, hp, -⟩ := installFresh_ok_inv W vm p0 _ _ pkg err h
          exact ⟨u, some p0, rfl, hp, Or.inl ⟨he, rfl, rfl⟩⟩
        · simp only [hne, Bool.not_false, if_true] at h
          simp at h

theorem Install_pkg_inv (W : World) (vm : VersionManager) (o : JavaInstallOptions) (s : State)
    (pkg : JavaPackage) (err : Option GoError)
    (h : (VersionManager.Install W vm o s).1 = .returned (some pkg) err) :
    ∃ A rest, (GetPackages W { o with ArchiveType := [ascii "zip"] } s).1 = .ok (A :: rest) ∧
      VersionManager.Install W vm o s =
        installPackage W vm A (s.log (.getPackages { o with ArchiveType := [ascii "zip"] })) := by
  cases hg : (GetPackages W { o with ArchiveType := [ascii "zip"] } s).1 with
  | error e =>
    rw [Install_error W vm o s e hg] at h
    cases h
  | ok l =>
    cases l with
    | nil =>
      rw [Install_nil W vm o s hg] at h
      cases h
    | cons A rest => exact ⟨A, rest, rfl, Install_cons W vm o s A rest hg⟩

theorem resolve_nil (cwd : Path) : resolve cwd [] = cwd := by
  simp [resolve, splitPath, cleanStep]

theorem resolve_Join_child (cwd : Path) (D n : GoString) (hn : plainName n) :
    resolve cwd (Join [D, n]) = resolve cwd D ++ [n] := by
  by_cases hD : D = []
  · subst hD
    have h1 : Join [[], n] = Clean n := by
      simp [Join, List.dropWhile, hn.1, joinSlash]
    have h2 : n.head? ≠ some 47 := by
      intro h
      cases n with
      | nil => cases h
      | cons a t =>
        simp only [List.head?_cons, Option.some.injEq] at h
        exact hn.2.2.2 (h ▸ List.mem_cons_self _ _)
    rw [h1, resolve_Clean, resolve_relative cwd n h2, splitPath_of_not_mem n hn.2.2.2, resolve_nil]
    simp [cleanStep_plain true _ n hn]
  · rw [resolve_Join cwd D n hD, splitPath_of_not_mem n hn.2.2.2]
    simp [cleanStep_plain true _ n hn]

theorem resolve_Join_twice (cwd : Path) (dst name : GoString) (h : dst.head? = some 47) :
    resolve cwd (Join [dst, Join [dst, name]]) =
      resolve cwd dst ++ resolve cwd (Join [dst, name]) := by
  have hd : dst ≠ [] := by rintro rfl; cases h
  have hX : ∀ c ∈ (splitPath (dst ++ 47 :: name)).foldl (cleanStep true) [], plainName c :=
    foldl_cleanStep_allPlain _ [] (by simp) (splitPath_slashFree _)
  have hf : Join [dst, name] =
      47 :: joinSlash ((splitPath (dst ++ 47 :: name)).foldl (cleanStep true) []) := by
    rw [Join_two dst name hd, Clean_rooted _ (by rw [head_append_of_ne_nil dst _ hd]; exact h)]
  rw [resolve_Join cwd dst _ hd, hf, resolve_render cwd _ hX]
  generalize (splitPath (dst ++ 47 :: name)).foldl (cleanStep true) [] = X at hX
  rw [splitPath_cons]
  simp only [if_true, List.foldl_cons]
  have h0 : cleanStep true (resolve cwd dst) [] = resolve cwd dst := by simp [cleanStep]
  rw [h0]
  by_cases hX0 : X = []
  · subst hX0
    simp [joinSlash, splitPath, cleanStep]
  · rw [splitPath_joinSlash X hX0 (plain_slashFree hX), foldl_cleanStep_plain X _ hX]

/-! ## Lemmas: the query of a package search -/

theorem lookup_filter_nodup {β : Type} (p : GoString × β → Bool) :
    ∀ (l : List (GoString × β)), (l.map Prod.fst).Nodup → ∀ k v, (k, v) ∈ l →
      (l.filter p).lookup k = if p (k, v) then some v else none
  | [], _, k, v, h => by cases h
  | (k1, v1) :: l, hn, k, v, h => by
    simp only [List.map_cons, List.nodup_cons] at hn
    rcases List.mem_cons.1 h with heq | hmem
    · simp only [Prod.mk.injEq] at heq
      obtain ⟨rfl, rfl⟩ := heq
      by_cases hp : p (k, v) = true
      · simp [List.filter_cons, hp, List.lookup]
      · simp only [List.filter_cons, hp, if_false, Bool.false_eq_true]
        have : ∀ (m : List (GoString × β)), k ∉ m.map Prod.fst → m.lookup k = none := by
          intro m
          induction m with
          | nil => intro _; rfl
          | cons a m ih =>
            intro hk
            simp only [List.map_cons, List.mem_cons, not_or] at hk
            have hne : (k == a.1) = false := by simpa using hk.1
            rw [List.lookup, hne]
            exact ih hk.2
        apply this
        intro hk
        apply hn.1
        obtain ⟨x, hx, hxk⟩ := List.mem_map.1 hk
        exact List.mem_map.2 ⟨x, (List.mem_filter.1 hx).1, hxk⟩
    · have hne : k ≠ k1 := by
        rintro rfl
        exact hn.1 (List.mem_map.2 ⟨(k, v), hmem, rfl⟩)
      have ih := lookup_filter_nodup p l hn.2 k v hmem
      by_cases hp : p (k1, v1) = true
      · simp only [List.filter_cons, hp, if_true]
        have hb : (k == k1) = false := by simpa using hne
        rw [List.lookup, hb]
        exact ih
      · simp only [List.filter_cons, hp, if_false, Bool.false_eq_true]
        exact ih

theorem lookup_map_snd {β γ : Type} (f : β → γ) (k : GoString) :
    ∀ (l : List (GoString × β)),
      (l.map (fun kv => (kv.1, f kv.2))).lookup k = (l.lookup k).map f
  | [] => rfl
  | (k1, v1) :: l => by
    simp only [List.map_cons, List.lookup]
    cases (k == k1)
    · exact lookup_map_snd f k l
    · rfl

theorem fieldsOf_names (o : GetPackagesOptions) :
    (fieldsOf o).map Prod.fst = (fieldsOf {}).map Prod.fst := rfl

theorem fieldsOf_nodup (o : GetPackagesOptions) : ((fieldsOf o).map Prod.fst).Nodup := by
  rw [fieldsOf_names]
  decide

/-! ## Lemmas: the metadata of a returned package -/

theorem Clean_ne_nil (p : GoString) : Clean p ≠ [] := by
  by_cases hp : p = []
  · subst hp; simp [Clean]
  · by_cases h : p.head? = some 47
    · rw [Clean_rooted p h]; simp
    · rw [Clean_relative p hp h]
      have hY := foldl_cleanStep_false_ddPlain (splitPath p) [] (by simp) (splitPath_slashFree p)
      by_cases hY0 : (splitPath p).foldl (cleanStep false) [] = []
      · simp [render, hY0]
      · simp only [render, Bool.false_eq_true, if_false, hY0]
        exact joinSlash_ne_nil hY hY0

theorem Join_pair_ne_nil (x m : GoString) (hm : m ≠ []) : Join [x, m] ≠ [] := by
  by_cases hx : x = []
  · subst hx
    have : Join [[], m] = Clean m := by simp [Join, List.dropWhile, hm, joinSlash]
    rw [this]; exact Clean_ne_nil m
  · rw [Join_two x m hx]; exact Clean_ne_nil _

theorem resolve_Join_assoc (cwd : Path) (D n m : GoString) (hm : m ≠ []) :
    resolve cwd (Join [Join [D, n], m]) = resolve cwd (Join [D, n, m]) := by
  by_cases hD : D = []
  · subst hD
    by_cases hn : n = []
    · subst hn
      have h1 : Join [[], ([] : GoString)] = [] := by simp [Join, List.dropWhile]
      have h2 : Join [[], [], m] = Join [[], m] := by simp [Join, List.dropWhile, hm]
      rw [h1, h2]
    · have h1 : Join [[], n] = Clean n := by simp [Join, List.dropWhile, hn, joinSlash]
      have h2 : Join [[], n, m] = Clean (n ++ 47 :: m) := by
        simp [Join, List.dropWhile, hn, joinSlash]
      rw [h1, h2, resolve_Join cwd _ m (Clean_ne_nil n), resolve_Clean, resolve_Clean,
        resolve_append_sep cwd n m hn]
  · rw [Join_three D n m hD, resolve_Clean, resolve_append_sep cwd D _ hD, splitPath_append_sep,
      List.foldl_append, Join_two D n hD, resolve_Join cwd _ m (Clean_ne_nil _), resolve_Clean,
      resolve_append_sep cwd D n hD]

theorem osOpen_ok (W : World) (fs : FS) (name : GoString) (n : Node)
    (h : osOpen W fs name = .ok n) : name ≠ [] ∧ fs.get (resolve W.cwd name) = some n := by
  unfold osOpen at h
  split at h
  · cases h
  · rename_i hne
    split at h
    · rename_i n1 hg
      simp only [Except.ok.injEq] at h
      exact ⟨hne, h ▸ hg⟩
    · cases h

theorem readStructFromJSONFile_ok (W : World) (name : GoString) (fs : FS)
    (m : Option PackageMetaInfo) (h : readStructFromJSONFile W name fs = .ok m) :
    name ≠ [] ∧ ∃ v, fs.get (resolve W.cwd name) = some (.file (.blob (.json v))) ∧
      decodeMetaPtr v = .ok m := by
  unfold readStructFromJSONFile at h
  split at h
  · cases h
  · cases h
  · rename_i v ho
    obtain ⟨h1, h2⟩ := osOpen_ok W fs name _ ho
    exact ⟨h1, v, h2, h⟩
  · cases h

theorem readStructFromJSONFile_transfer (W : World) (name name1 : GoString) (fs : FS)
    (m : Option PackageMetaInfo) (h : readStructFromJSONFile W name fs = .ok m)
    (hn : name1 ≠ []) (hr : resolve W.cwd name1 = resolve W.cwd name) :
    isFile (fs.get (resolve W.cwd name1)) = true ∧
      readStructFromJSONFile W name1 fs = .ok m := by
  obtain ⟨-, v, hg, hd⟩ := readStructFromJSONFile_ok W name fs m h
  rw [← hr] at hg
  exact ⟨by rw [hg]; rfl, by rw [readStructFromJSONFile_json W name1 fs v hn hg, hd]⟩

theorem listLoop_mem (W : World) (vm : VersionManager) (fs : FS) :
    ∀ (files : List (GoString × Bool)) (javas : List JavaPackage),
    listLoop W vm fs files = .ok javas → ∀ j ∈ javas,
      ∃ n, (n, true) ∈ files ∧ j = mkJavaPackage W vm j.PackageMetaInfo n ∧
        readStructFromJSONFile W (Join [vm.DataDir, n, ascii "meta.json"]) fs
          = .ok j.PackageMetaInfo
  | [], javas, h => by
    simp only [listLoop, Except.ok.injEq] at h
    subst h
    intro j hj; cases hj
  | (n, d) :: files, javas, h => by
    cases d with
    | false =>
      simp only [listLoop, Bool.false_eq_true, if_false] at h
      intro j hj
      obtain ⟨n1, h1, h2⟩ := listLoop_mem W vm fs files javas h j hj
      exact ⟨n1, List.mem_cons_of_mem _ h1, h2⟩
    | true =>
      simp only [listLoop, if_true] at h
      cases hr : readStructFromJSONFile W (Join [vm.DataDir, n, ascii "meta.json"]) fs with
      | error e => simp [hr] at h
      | ok m =>
        cases hl : listLoop W vm fs files with
        | error e => simp [hr, hl] at h
        | ok js =>
          simp only [hr, hl, Except.ok.injEq] at h
          subst h
          intro j hj
          rcases List.mem_cons.1 hj with rfl | hj
          · exact ⟨n, List.mem_cons_self _ _, rfl, hr⟩
          · obtain ⟨n1, h1, h2⟩ := listLoop_mem W vm fs files js hl j hj
            exact ⟨n1, List.mem_cons_of_mem _ h1, h2⟩

theorem List_mem (W : World) (vm : VersionManager) (fs : FS) (javas : List JavaPackage)
    (h : VersionManager.List W vm fs = .ok javas) : ∀ j ∈ javas,
      ∃ n, n ∈ subdirNames W fs vm.DataDir ∧ j = mkJavaPackage W vm j.PackageMetaInfo n ∧
        readStructFromJSONFile W (Join [vm.DataDir, n, ascii "meta.json"]) fs
          = .ok j.PackageMetaInfo := by
  unfold VersionManager.List at h
  cases hr : osReadDir W fs vm.DataDir with
  | error e => simp [hr] at h
  | ok files =>
    simp only [hr] at h
    intro j hj
    obtain ⟨n, h1, h2⟩ := listLoop_mem W vm fs files javas h j hj
    refine ⟨n, ?_, h2⟩
    rw [mem_subdirNames, ← osReadDir_ok W fs _ files hr]
    exact h1

theorem meta_ne_nil : ascii "meta.json" ≠ [] := by decide

/-! ## Lemmas: the check of `extractAndWriteFile` -/

theorem dotsThenPlain_ddPlain {X : List GoString} (h : dotsThenPlain X) : ∀ x ∈ X, ddPlain x := by
  obtain ⟨k, P, rfl, hP⟩ := h
  intro x hx
  rcases List.mem_append.1 hx with hx | hx
  · exact Or.inl (List.eq_of_mem_replicate hx)
  · exact Or.inr (hP x hx)

theorem allPlain_dotsThenPlain {X : List GoString} (h : ∀ c ∈ X, plainName c) :
    dotsThenPlain X := ⟨0, X, by simp, h⟩

theorem not_plain_dd : ¬ plainName [46, 46] := fun h => h.2.2.1 rfl

theorem cleanStep_false_dots (k : Nat) :
    cleanStep false (List.replicate k [46, 46]) [46, 46] = List.replicate (k + 1) [46, 46] := by
  cases k with
  | zero => simp +decide [cleanStep]
  | succ k =>
    have hl : (List.replicate (k + 1) [46, 46]).getLast? = some [46, 46] := by
      rw [List.getLast?_eq_getLast _ (by simp)]
      simp
    have h1 : ¬ (([46, 46] : GoString) = [] ∨ ([46, 46] : GoString) = [46]) := by decide
    unfold cleanStep
    rw [if_neg h1, if_pos rfl]
    simp only [Bool.false_eq_true, if_false, hl, if_true]
    rw [List.replicate_succ' (k + 1)]

theorem cleanStep_false_canon (st : List GoString) (c : GoString) (hst : dotsThenPlain st)
    (hc : 47 ∉ c) : dotsThenPlain (cleanStep false st c) := by
  obtain ⟨k, P, rfl, hP⟩ := hst
  by_cases h1 : c = [] ∨ c = [46]
  · simp only [cleanStep, h1, if_true]
    exact ⟨k, P, rfl, hP⟩
  · by_cases h2 : c = [46, 46]
    · subst h2
      rcases List.eq_nil_or_concat P with hP0 | ⟨P1, l, hP1⟩
      · subst hP0
        rw [List.append_nil, cleanStep_false_dots]
        exact ⟨k + 1, [], by simp, by simp⟩
      · subst hP1
        have hl : plainName l := hP l (by simp)
        have hne : l ≠ [46, 46] := fun e => not_plain_dd (e ▸ hl)
        have hlast : (List.replicate k [46, 46] ++ P1 ++ [l]).getLast? = some l := by simp
        have h0 : ¬ (([46, 46] : GoString) = [] ∨ ([46, 46] : GoString) = [46]) := by decide
        unfold cleanStep
        rw [if_neg h0, if_pos rfl]
        simp only [Bool.false_eq_true, if_false, List.concat_eq_append, ← List.append_assoc, hlast,
          hne, List.dropLast_concat]
        exact ⟨k, P1, rfl, fun x hx => hP x (by simp [hx])⟩
    · have hp : plainName c := ⟨fun e => h1 (Or.inl e), fun e => h1 (Or.inr e), h2, hc⟩
      rw [cleanStep_plain false _ c hp, List.append_assoc]
      exact ⟨k, P ++ [c], rfl, fun x hx => by
        rcases List.mem_append.1 hx with hx | hx
        · exact hP x hx
        · simp only [List.mem_singleton] at hx; exact hx ▸ hp⟩

theorem foldl_cleanStep_false_canon : ∀ (cs st : List GoString), dotsThenPlain st →
    (∀ c ∈ cs, 47 ∉ c) → dotsThenPlain (cs.foldl (cleanStep false) st)
  | [], st, hst, _ => hst
  | c :: cs, st, hst, hcs => by
    simp only [List.foldl_cons]
    exact foldl_cleanStep_false_canon cs _
      (cleanStep_false_canon st c hst (hcs c (List.mem_cons_self _ _)))
      (fun x hx => hcs x (List.mem_cons_of_mem _ hx))

theorem foldl_cleanStep_false_dots : ∀ (j k : Nat),
    (List.replicate j [46, 46]).foldl (cleanStep false) (List.replicate k [46, 46]) =
      List.replicate (k + j) [46, 46]
  | 0, k => by simp
  | j + 1, k => by
    rw [List.replicate_succ, List.foldl_cons, cleanStep_false_dots, foldl_cleanStep_false_dots j]
    congr 1
    omega

theorem foldl_cleanStep_false_id (X : List GoString) (h : dotsThenPlain X) :
    X.foldl (cleanStep false) [] = X := by
  obtain ⟨k, P, rfl, hP⟩ := h
  rw [List.foldl_append]
  have := foldl_cleanStep_false_dots k 0
  simp only [List.replicate_zero, Nat.zero_add] at this
  rw [this, foldl_cleanStep_plain_any false P _ hP]

/-- The canonical shape of the elements of a cleaned path. -/
theorem cleanElems_canon (r : Bool) (cs st : List GoString) (hst : ∀ c ∈ st, plainName c)
    (hcs : ∀ c ∈ cs, 47 ∉ c) :
    dotsThenPlain (cs.foldl (cleanStep r) st) ∧
      (r = true → ∀ c ∈ cs.foldl (cleanStep r) st, plainName c) := by
  cases r with
  | true =>
    have := foldl_cleanStep_allPlain cs st hst hcs
    exact ⟨allPlain_dotsThenPlain this, fun _ => this⟩
  | false =>
    exact ⟨foldl_cleanStep_false_canon cs st (allPlain_dotsThenPlain hst) hcs,
      fun h => by cases h⟩

theorem render_head (r : Bool) (X : List GoString) (hX : dotsThenPlain X) :
    (render r X).head? = some 47 ↔ r = true := by
  cases r with
  | true => simp [render]
  | false =>
    simp only [render, Bool.false_eq_true, if_false, iff_false]
    by_cases h0 : X = []
    · simp [h0]
    · simp only [h0, if_false]
      exact ddPlain_head_ne_sep (dotsThenPlain_ddPlain hX) h0

theorem cleanElems_render (r : Bool) (X : List GoString) (hX : dotsThenPlain X)
    (hr : r = true → ∀ c ∈ X, plainName c) : cleanElems (render r X) = X := by
  cases r with
  | true =>
    have h := resolve_render [] X (hr rfl)
    simp only [render, if_true]
    rw [resolve_rooted [] (47 :: joinSlash X) rfl] at h
    simp only [cleanElems, List.head?_cons, decide_True]
    exact h
  | false =>
    by_cases h0 : X = []
    · subst h0
      simp +decide [render, cleanElems, splitPath, cleanStep]
    · have hh := ddPlain_head_ne_sep (dotsThenPlain_ddPlain hX) h0
      simp only [render, Bool.false_eq_true, if_false, h0, cleanElems, hh, decide_False]
      rw [splitPath_joinSlash X h0 (ddPlain_slashFree (dotsThenPlain_ddPlain hX))]
      exact foldl_cleanStep_false_id X hX

theorem Clean_eq_render (p : GoString) (hp : p ≠ []) :
    Clean p = render (decide (p.head? = some 47)) (cleanElems p) := by
  simp [Clean, cleanElems, hp]


theorem joinSlash_sep_prefix_elems : ∀ (D T : List GoString), (∀ c ∈ D, c ≠ [] ∧ 47 ∉ c) →
    (∀ c ∈ T, c ≠ [] ∧ 47 ∉ c) → joinSlash D ++ [47] <+: joinSlash T →
    ∃ rest, rest ≠ [] ∧ T = D ++ rest
  | [], [], _, _, h => by
    obtain ⟨Z, hZ⟩ := h
    simp [joinSlash] at hZ
  | [], t :: T, _, hT, h => by
    obtain ⟨Z, hZ⟩ := h
    rw [joinSlash_cons] at hZ
    have ht := hT t (List.mem_cons_self _ _)
    cases ht0 : t with
    | nil => exact absurd ht0 ht.1
    | cons a t1 =>
      rw [ht0] at hZ ht
      simp only [joinSlash, List.nil_append, List.cons_append, List.cons.injEq] at hZ
      exact absurd (hZ.1 ▸ List.mem_cons_self _ _) ht.2
  | d :: D, [], _, _, h => by
    obtain ⟨Z, hZ⟩ := h
    rw [joinSlash_cons] at hZ
    simp [joinSlash] at hZ
  | d :: D, t :: T, hD, hT, h => by
    obtain ⟨Z, hZ⟩ := h
    have hd := (hD d (List.mem_cons_self _ _)).2
    have ht := (hT t (List.mem_cons_self _ _)).2
    rw [joinSlash_cons d, joinSlash_cons t] at hZ
    by_cases hT0 : T = []
    · simp only [hT0, if_true, List.append_nil] at hZ
      exact absurd hZ.symm (by
        by_cases hD0 : D = []
        · simp only [hD0, if_true, List.append_nil, List.append_assoc]
          have := not_sep_prefix d t [] Z ht
          simpa using this
        · simp only [hD0, if_false, List.append_assoc, List.cons_append]
          have := not_sep_prefix d t (joinSlash D ++ [47]) Z ht
          simpa using this)
    · simp only [hT0, if_false] at hZ
      by_cases hD0 : D = []
      · subst hD0
        simp only [if_true, List.append_nil, List.append_assoc, List.singleton_append] at hZ
        obtain ⟨h1, -⟩ := append_sep_inj d t Z (joinSlash T) hd ht hZ
        exact ⟨T, hT0, by rw [h1]; rfl⟩
      · simp only [hD0, if_false, List.append_assoc, List.cons_append] at hZ
        obtain ⟨h1, h2⟩ := append_sep_inj d t _ (joinSlash T) hd ht hZ
        obtain ⟨rest, hr, hrest⟩ := joinSlash_sep_prefix_elems D T
          (fun c hc => hD c (List.mem_cons_of_mem _ hc))
          (fun c hc => hT c (List.mem_cons_of_mem _ hc)) ⟨Z, by rw [← h2]; simp⟩
        exact ⟨rest, hr, by rw [h1, hrest]; rfl⟩

theorem ddPlain_elem {c : GoString} (h : ddPlain c) : c ≠ [] ∧ 47 ∉ c := by
  rcases h with rfl | h
  · decide
  · exact ⟨h.1, h.2.2.2⟩

theorem joinSlash_append : ∀ (D R : List GoString), D ≠ [] → R ≠ [] →
    joinSlash (D ++ R) = joinSlash D ++ 47 :: joinSlash R
  | [], _, h, _ => absurd rfl h
  | [d], R, _, hR => by
    cases R with
    | nil => exact absurd rfl hR
    | cons x R => simp [joinSlash]
  | d :: e :: D, R, _, hR => by
    have ih := joinSlash_append (e :: D) R (by simp) hR
    simp only [List.cons_append] at ih ⊢
    rw [joinSlash_cons_cons, ih, joinSlash_cons_cons]
    simp

theorem dotsThenPlain_after {A R : List GoString} {l : GoString}
    (h : dotsThenPlain (A ++ [l] ++ R)) (hl : plainName l) : ∀ c ∈ R, plainName c := by
  obtain ⟨k, P, heq, hP⟩ := h
  rcases List.append_eq_append_iff.1 heq with ⟨a, h1, h2⟩ | ⟨c, h1, h2⟩
  · have hmem : l ∈ List.replicate k [46, 46] := by rw [h1]; simp
    exact absurd ((List.eq_of_mem_replicate hmem) ▸ hl) not_plain_dd
  · intro x hx
    exact hP x (by rw [h2]; exact List.mem_append_right _ hx)

/-- The check of `extractAndWriteFile`, on the elements of the cleaned paths. -/
theorem check_iff_extends (dest n l : GoString)
    (hl : (cleanElems dest).getLast? = some l) (hp : plainName l) :
    ∃ T, cleanElems (Join [dest, n]) = T ∧ cleanElems (Clean dest) = cleanElems dest ∧
      ((Join [dest, n]).head? = some 47 ↔ (Clean dest).head? = some 47) ∧
      (HasPrefix (Join [dest, n]) (Clean dest ++ [47]) = true ↔
        ∃ R, R ≠ [] ∧ (∀ c ∈ R, plainName c) ∧ T = cleanElems dest ++ R) := by
  have hne : dest ≠ [] := by
    rintro rfl
    simp +decide [cleanElems, splitPath, cleanStep] at hl
  have hne2 : dest ++ 47 :: n ≠ [] := by simp
  have hhead : (dest ++ 47 :: n).head? = dest.head? := head_append_of_ne_nil dest _ hne
  have hC := Clean_eq_render dest hne
  have hJ : Join [dest, n] =
      render (decide (dest.head? = some 47)) (cleanElems (dest ++ 47 :: n)) := by
    rw [Join_two dest n hne, Clean_eq_render _ hne2, hhead]
  have hT : cleanElems (dest ++ 47 :: n) =
      (splitPath n).foldl (cleanStep (decide (dest.head? = some 47))) (cleanElems dest) := by
    simp only [cleanElems, hhead, splitPath_append_sep, List.foldl_append]
  have hDc := cleanElems_canon (decide (dest.head? = some 47)) (splitPath dest) [] (by simp)
    (splitPath_slashFree dest)
  have hTc := cleanElems_canon (decide (dest.head? = some 47)) (splitPath (dest ++ 47 :: n)) []
    (by simp) (splitPath_slashFree _)
  have hDc1 : dotsThenPlain (cleanElems dest) := hDc.1
  have hTc1 : dotsThenPlain (cleanElems (dest ++ 47 :: n)) := by
    have := hTc.1
    simpa only [cleanElems, hhead] using this
  have hDc2 : decide (dest.head? = some 47) = true → ∀ c ∈ cleanElems dest, plainName c := hDc.2
  have hTc2 : decide (dest.head? = some 47) = true →
      ∀ c ∈ cleanElems (dest ++ 47 :: n), plainName c := by
    have := hTc.2
    simpa only [cleanElems, hhead] using this
  have hD0 : cleanElems dest ≠ [] := by
    intro h0; rw [h0] at hl; cases hl
  have hDl : cleanElems dest = (cleanElems dest).dropLast ++ [l] :=
    (List.dropLast_append_getLast? l hl).symm
  refine ⟨cleanElems (dest ++ 47 :: n), ?_, ?_, ?_, ?_⟩
  · rw [hJ]; exact cleanElems_render _ _ hTc1 hTc2
  · rw [hC]; exact cleanElems_render _ _ hDc1 hDc2
  · rw [hJ, hC, render_head _ _ hTc1, render_head _ _ hDc1]
  · rw [hJ, hC]
    generalize cleanElems (dest ++ 47 :: n) = T at hTc1 hTc2 ⊢
    generalize hDe : cleanElems dest = D at hDc1 hDc2 hD0 hDl ⊢
    generalize decide (dest.head? = some 47) = r at hTc2 hDc2 ⊢
    have hDe1 := fun c hc => ddPlain_elem (dotsThenPlain_ddPlain hDc1 c hc)
    have hTe1 := fun c hc => ddPlain_elem (dotsThenPlain_ddPlain hTc1 c hc)
    have key : (joinSlash D ++ [47] <+: joinSlash T ∧ T ≠ []) ↔
        ∃ R, R ≠ [] ∧ (∀ c ∈ R, plainName c) ∧ T = D ++ R := by
      constructor
      · rintro ⟨hpre, -⟩
        obtain ⟨R, hR, hTR⟩ := joinSlash_sep_prefix_elems D T hDe1 hTe1 hpre
        refine ⟨R, hR, ?_, hTR⟩
        rw [hTR, hDl] at hTc1
        exact dotsThenPlain_after hTc1 hp
      · rintro ⟨R, hR, -, hTR⟩
        refine ⟨?_, by rw [hTR]; simp [hD0]⟩
        rw [hTR, joinSlash_append D R hD0 hR]
        exact ⟨joinSlash R, by simp⟩
    rw [← key]
    simp only [HasPrefix, List.isPrefixOf_iff_prefix]
    cases r with
    | true =>
      simp only [render, if_true, List.cons_append]
      constructor
      · intro h
        have h1 : joinSlash D ++ [47] <+: joinSlash T := by
          obtain ⟨Z, hZ⟩ := h
          simp only [List.cons_append, List.cons.injEq, true_and] at hZ
          exact ⟨Z, hZ⟩
        refine ⟨h1, ?_⟩
        rintro rfl
        obtain ⟨Z, hZ⟩ := h1
        simp [joinSlash] at hZ
      · rintro ⟨⟨Z, hZ⟩, -⟩
        exact ⟨Z, by simp [hZ]⟩
    | false =>
      simp only [render, Bool.false_eq_true, if_false, hD0]
      by_cases hT0 : T = []
      · subst hT0
        simp only [if_true, ne_eq, not_true_eq_false, and_false, iff_false]
        rintro ⟨Z, hZ⟩
        have hlen := congrArg List.length hZ
        have hj : 0 < (joinSlash D).length :=
          List.length_pos.2 (joinSlash_ne_nil (dotsThenPlain_ddPlain hDc1) hD0)
        simp only [List.length_append, List.length_singleton] at hlen
        omega
      · simp only [hT0, if_false, ne_eq, not_false_eq_true, and_true]

theorem osCreate_error_ne (W : World) (fs : FS) (name : GoString) (e : GoError) (m : String)
    (a : GoString) (h : osCreate W fs name = .error e) : e ≠ .errorfs m a := by
  unfold osCreate at h
  split at h
  · simp only [Except.error.injEq] at h; subst h; exact fun h => by cases h
  · split at h
    · simp only [Except.error.injEq] at h; subst h; exact fun h => by cases h
    · cases h
    · split at h
      · cases h
      · simp only [Except.error.injEq] at h; subst h; exact fun h => by cases h

theorem extract_accepted (W : World) (dest : GoString) (f : ZipEntry) (fs : FS) (m : String)
    (a : GoString) (ho : f.openFails = false)
    (hc : HasPrefix (Join [dest, f.Name]) (Clean dest ++ [47]) = true) :
    (extractAndWriteFile W dest f fs).1 ≠ some (.errorfs m a) := by
  unfold extractAndWriteFile
  simp only [ho, hc, Bool.false_eq_true, if_false, Bool.not_true]
  split
  · exact fun h => by cases h
  · split
    · rename_i e he
      intro h
      simp only [Option.some.injEq] at h
      exact osCreate_error_ne W _ _ e m a he h
    · unfold writeAll
      split
      · exact fun h => by cases h
      · exact fun h => by cases h

/-! ## Lemmas: the registry across an installation -/

theorem Reach.get_unchanged {P : Act → Prop} {fs fs1 : FS} (r : Reach P fs fs1) (q : Path)
    (n : Node) (h : fs.get q = some n) (hw : ∀ d, ¬ P (.write q d)) : fs1.get q = some n := by
  induction r with
  | refl => exact h
  | step a r1 hv hp ih =>
    cases a with
    | mkdir T =>
      simp only [Act.run, FS.mkdirs_get, ih]
      simp
    | write F d =>
      simp only [Act.run]
      by_cases hq : q = F
      · subst hq
        exact absurd hp (hw d)
      · rw [FS.get_put_ne _ _ _ _ hq]
        exact ih

theorem installFresh_error_form (W : World) (vm : VersionManager) (p0 : GetPackagesResponse)
    (dirname : GoString) (s : State) (pkg : Option JavaPackage) (e : GoError)
    (h : (installFresh W vm p0 dirname s).1 = .returned pkg (some e)) :
    (∃ e1, e = .wrapf "failed to download package" e1) ∨
    (∃ e1, e = .wrapf "failed to unzip package" e1) ∨
    (∃ e1, e = .wrapf "failed to save package metadata" e1) := by
  unfold installFresh at h
  split at h
  · cases h
  · simp only [Outcome.returned.injEq, Option.some.injEq] at h
    exact Or.inl ⟨_, h.2.symm⟩
  · cases h
  · split at h
    · simp only [Outcome.returned.injEq, Option.some.injEq] at h
      exact Or.inr (Or.inl ⟨_, h.2.symm⟩)
    · split at h
      · simp only [Outcome.returned.injEq, Option.some.injEq] at h
        exact Or.inr (Or.inr ⟨_, h.2.symm⟩)
      · cases h

theorem installPackage_fs_unchanged (W : World) (vm : VersionManager) (p0 : GetPackagesResponse)
    (s : State) (pkg : Option JavaPackage) (e : GoError)
    (h : (installPackage W vm p0 s).1 = .returned pkg (some e))
    (h1 : ∀ e1, e ≠ .wrapf "failed to download package" e1)
    (h2 : ∀ e1, e ≠ .wrapf "failed to unzip package" e1)
    (h3 : ∀ e1, e ≠ .wrapf "failed to save package metadata" e1) :
    (installPackage W vm p0 s).2.fs = s.fs := by
  unfold installPackage at h ⊢
  have hs := GetFilename_snd W p0.ID s
  cases hf : GetFilename W p0.ID s with
  | mk r s1 =>
    rw [hf] at hs h
    simp only at hs
    subst hs
    cases r with
    | panic m => simp only at h; cases h
    | val v =>
      obtain ⟨name, err⟩ := v
      cases err with
      | some e0 => rfl
      | none =>
        simp only at h ⊢
        split
        · split <;> rfl
        · rename_i e0 hst
          simp only [hst] at h
          by_cases hne : IsNotExist e0 = true
          · simp only [hne, Bool.not_true, Bool.false_eq_true, if_false] at h ⊢
            rcases installFresh_error_form W vm p0 _ _ pkg e h with ⟨e1, he⟩ | ⟨e1, he⟩ | ⟨e1, he⟩
            · exact absurd he (h1 e1)
            · exact absurd he (h2 e1)
            · exact absurd he (h3 e1)
          · simp only [hne, Bool.not_false, if_true]
            rfl

theorem Install_fs_unchanged (W : World) (vm : VersionManager) (o : JavaInstallOptions)
    (s : State) (pkg : Option JavaPackage) (e : GoError)
    (h : (VersionManager.Install W vm o s).1 = .returned pkg (some e))
    (h1 : ∀ e1, e ≠ .wrapf "failed to download package" e1)
    (h2 : ∀ e1, e ≠ .wrapf "failed to unzip package" e1)
    (h3 : ∀ e1, e ≠ .wrapf "failed to save package metadata" e1) :
    (VersionManager.Install W vm o s).2.fs = s.fs := by
  cases hg : (GetPackages W { o with ArchiveType := [ascii "zip"] } s).1 with
  | error e0 => rw [Install_error W vm o s e0 hg]; rfl
  | ok l =>
    cases l with
    | nil => rw [Install_nil W vm o s hg]; rfl
    | cons A rest =>
      rw [Install_cons W vm o s A rest hg] at h ⊢
      rw [installPackage_fs_unchanged W vm A _ pkg e h h1 h2 h3]
      rfl


theorem mem_subdirNames_iff (W : World) (fs : FS) (dir m : GoString) :
    m ∈ subdirNames W fs dir ↔ isDir (fs.get (resolve W.cwd dir ++ [m])) = true := by
  unfold subdirNames
  rw [List.mem_filter, mem_childNames_iff]
  constructor
  · exact fun h => h.2
  · intro h
    exact ⟨by rw [isDir_eq_true.1 h]; rfl, h⟩

theorem List_ok_root (W : World) (vm : VersionManager) (fs : FS) (javas : List JavaPackage)
    (h : VersionManager.List W vm fs = .ok javas) :
    vm.DataDir ≠ [] ∧ isDir (fs.get (resolve W.cwd vm.DataDir)) = true := by
  unfold VersionManager.List at h
  cases hr : osReadDir W fs vm.DataDir with
  | error e => simp [hr] at h
  | ok files =>
    unfold osReadDir at hr
    split at hr
    · cases hr
    · rename_i hne
      split at hr
      · rename_i hg
        exact ⟨hne, by rw [hg]; rfl⟩
      · cases hr
      · cases hr

theorem osReadDir_dir (W : World) (fs : FS) (name : GoString) (hn : name ≠ [])
    (h : isDir (fs.get (resolve W.cwd name)) = true) :
    osReadDir W fs name = .ok ((fs.childNames (resolve W.cwd name)).map
      (fun m => (m, isDir (fs.get (resolve W.cwd name ++ [m]))))) := by
  simp [osReadDir, hn, isDir_eq_true.1 h]

/-- `List` succeeds when the root is a directory and every subdirectory has a
readable `meta.json`. -/
theorem List_ok_of_readable (W : World) (vm : VersionManager) (fs : FS) (hD : vm.DataDir ≠ [])
    (hroot : isDir (fs.get (resolve W.cwd vm.DataDir)) = true)
    (hall : ∀ m ∈ subdirNames W fs vm.DataDir,
      ∃ x, readStructFromJSONFile W (Join [vm.DataDir, m, ascii "meta.json"]) fs = .ok x) :
    ∃ javas, VersionManager.List W vm fs = .ok javas := by
  unfold VersionManager.List
  rw [osReadDir_dir W fs _ hD hroot]
  simp only
  cases hl : listLoop W vm fs ((fs.childNames (resolve W.cwd vm.DataDir)).map
      (fun m => (m, isDir (fs.get (resolve W.cwd vm.DataDir ++ [m]))))) with
  | error e =>
    obtain ⟨m, hm, e1, he1⟩ := (listLoop_error W vm fs _).1 ⟨e, hl⟩
    rw [← mem_subdirNames] at hm
    obtain ⟨x, hx⟩ := hall m hm
    rw [hx] at he1
    cases he1
  | ok javas => exact ⟨javas, rfl⟩

theorem List_ok_readable (W : World) (vm : VersionManager) (fs : FS) (javas : List JavaPackage)
    (h : VersionManager.List W vm fs = .ok javas) :
    ∀ m ∈ subdirNames W fs vm.DataDir,
      ∃ x, readStructFromJSONFile W (Join [vm.DataDir, m, ascii "meta.json"]) fs = .ok x := by
  intro m hm
  obtain ⟨hD, hroot⟩ := List_ok_root W vm fs javas h
  cases hr : readStructFromJSONFile W (Join [vm.DataDir, m, ascii "meta.json"]) fs with
  | ok x => exact ⟨x, rfl⟩
  | error e =>
    exfalso
    unfold VersionManager.List at h
    rw [osReadDir_dir W fs _ hD hroot] at h
    simp only at h
    have := (listLoop_error W vm fs _).2 ⟨m, (mem_subdirNames W fs _ m).1 hm, e, hr⟩
    obtain ⟨e1, he1⟩ := this
    rw [he1] at h
    cases h

/-- A fresh installation of an archive with the single top-level directory `n`,
downloaded to a place outside the root, keeps every `meta.json` of the root
readable and adds the one of `n`. -/
theorem installFresh_keeps_registry (W : World) (vm : VersionManager) (A : GetPackagesResponse)
    (n u : GoString) (s : State) (es : List ZipEntry) (pkg : JavaPackage)
    (javas : List JavaPackage)
    (hL : VersionManager.List W vm s.fs = .ok javas)
    (hnames : ∀ m ∈ subdirNames W s.fs vm.DataDir, plainName m)
    (hA : metaOK A = true)
    (hred : W.redirect A.ID = .response u none)
    (hfetch : W.fetch u = .ok (.archive es))
    (hn : plainName n) (hes : singleTopDir n es)
    (htmp : ¬ resolve W.cwd vm.DataDir <+: resolve W.cwd (Join [W.tmpDir, Base u]))
    (hok : (installFresh W vm A n s).1 = .returned (some pkg) none) :
    isDir ((installFresh W vm A n s).2.fs.get (resolve W.cwd vm.DataDir)) = true ∧
    ∀ m ∈ subdirNames W (installFresh W vm A n s).2.fs vm.DataDir,
      ∃ x, readStructFromJSONFile W (Join [vm.DataDir, m, ascii "meta.json"])
        (installFresh W vm A n s).2.fs = .ok x := by
  obtain ⟨hD, hroot⟩ := List_ok_root W vm s.fs javas hL
  have hold := List_ok_readable W vm s.fs javas hL
  obtain ⟨-, hpkg, file, s1, fs2, hd, hunzip, hsave, -⟩ :=
    installFresh_ok_inv W vm A n s pkg none hok
  obtain ⟨u2, body, hred2, hfetch2, -, hfne, hget⟩ :=
    DownloadJavaByID_ok W A.ID W.tmpDir file s s1 hd
  have hu : u2 = u := by
    rw [hred] at hred2
    simp only [HttpResult.response.injEq, and_true] at hred2
    exact hred2.symm
  rw [hu] at hfetch2
  have hbody : body = .archive es := by
    rw [hfetch] at hfetch2
    simp only [Except.ok.injEq] at hfetch2
    exact hfetch2.symm
  subst hbody
  have hz : zipOpenReader W s1.fs file = .ok es := by
    simp [zipOpenReader, osOpen, hfne, hget]
  have rd := DownloadJavaByID_reach W A.ID W.tmpDir s
  rw [hd] at rd
  simp only at rd
  have ru := unzip_reach W file vm.DataDir s1.fs
  rw [hunzip] at ru
  simp only at ru
  have hM : resolve W.cwd (Join [vm.DataDir, n, ascii "meta.json"]) =
      resolve W.cwd vm.DataDir ++ [n, ascii "meta.json"] :=
    resolve_Join_plain W.cwd vm.DataDir n _ hD hn plain_meta
  obtain ⟨hne, -, -, -, -, -⟩ := saveStructToJSONFile_ok W A _ fs2 _ hsave
  have rs : Reach (fun a => ∃ x, a = .write (resolve W.cwd
      (Join [vm.DataDir, n, ascii "meta.json"])) x) fs2 (installFresh W vm A n s).2.fs := by
    rcases saveStructToJSONFile_cases W A (Join [vm.DataDir, n, ascii "meta.json"]) fs2 with h | h
    · rw [hsave] at h
      exact absurd rfl h.1
    · rw [hsave] at h
      exact h.1
  -- what the installation changes
  let Q : Act → Prop := fun a =>
    (∀ T, a = .mkdir T →
      T = resolve W.cwd vm.DataDir ∨ ∃ L, T = resolve W.cwd vm.DataDir ++ n :: L) ∧
    (∀ F d, a = .write F d →
      F = resolve W.cwd (Join [W.tmpDir, Base u]) ∨ ∃ L, F = resolve W.cwd vm.DataDir ++ n :: L)
  have hentry : ∀ f ∈ es, ∀ a, entryAct W vm.DataDir f a → Q a := by
    intro f hf a ha
    obtain ⟨P, hP, hname⟩ := hes f hf
    obtain ⟨h1, h2⟩ := resolve_entry W.cwd vm.DataDir f.Name (n :: P) hD
      (fun c hc => by
        rcases List.mem_cons.1 hc with rfl | hc
        · exact hn
        · exact hP c hc) (by simp) hname
    rcases ha with h | h | ⟨d, h⟩
    · subst h
      refine ⟨fun T hT => ?_, fun F d hF => by cases hF⟩
      simp only [Act.mkdir.injEq] at hT
      exact Or.inr ⟨P, by rw [← hT, h1]⟩
    · subst h
      refine ⟨fun T hT => ?_, fun F d hF => by cases hF⟩
      simp only [Act.mkdir.injEq] at hT
      rw [← hT, h2]
      cases P with
      | nil => exact Or.inl (by simp)
      | cons c P => exact Or.inr ⟨(c :: P).dropLast, by simp [List.dropLast]⟩
    · subst h
      refine ⟨fun T hT => (by cases hT), fun F d1 hF => ?_⟩
      simp only [Act.write.injEq] at hF
      exact Or.inr ⟨P, by rw [← hF.1, h1]⟩
  have rall : Reach Q s.fs (installFresh W vm A n s).2.fs := by
    refine ((rd.mono ?_).trans (ru.mono ?_)).trans (rs.mono ?_)
    · rintro a ⟨u1, d, hu1, rfl⟩
      have hu0 : u1 = u := by
        rw [hred] at hu1
        simp only [HttpResult.response.injEq, and_true] at hu1
        exact hu1.symm
      rw [hu0]
      refine ⟨fun T hT => (by cases hT), fun F d1 hF => ?_⟩
      simp only [Act.write.injEq] at hF
      exact Or.inl hF.1.symm
    · rintro a (rfl | ⟨es1, f, hz1, hf, ha⟩)
      · refine ⟨fun T hT => ?_, fun F d hF => by cases hF⟩
        simp only [Act.mkdir.injEq] at hT
        exact Or.inl hT.symm
      · rw [hz] at hz1
        simp only [Except.ok.injEq] at hz1
        subst hz1
        exact hentry f hf a ha
    · rintro a ⟨x, rfl⟩
      refine ⟨fun T hT => (by cases hT), fun F d1 hF => ?_⟩
      simp only [Act.write.injEq] at hF
      exact Or.inr ⟨[ascii "meta.json"], by rw [← hF.1, hM]⟩
  have hroot1 : isDir ((installFresh W vm A n s).2.fs.get (resolve W.cwd vm.DataDir)) = true :=
    rall.isDir_mono _ hroot
  have hnew : readStructFromJSONFile W (Join [vm.DataDir, n, ascii "meta.json"])
      (installFresh W vm A n s).2.fs = .ok (some A) := by
    rw [readStructFromJSONFile_json W _ _ _ hne (saveStructToJSONFile_get W A _ fs2 _ hsave),
      decodeMetaPtr_encodeMeta A hA]
  refine ⟨hroot1, ?_⟩
  intro m hm
  rw [mem_subdirNames_iff] at hm
  by_cases hmn : m = n
  · subst hmn
    exact ⟨some A, hnew⟩
  · rcases rall.isDir_origin _ hm with h | ⟨T, hQ, hpre⟩
    · have hm0 : m ∈ subdirNames W s.fs vm.DataDir := (mem_subdirNames_iff W s.fs _ m).2 h
      have hmp := hnames m hm0
      obtain ⟨x, hx⟩ := hold m hm0
      obtain ⟨hne1, v, hg, hdec⟩ := readStructFromJSONFile_ok W _ s.fs x hx
      have hMm : resolve W.cwd (Join [vm.DataDir, m, ascii "meta.json"]) =
          resolve W.cwd vm.DataDir ++ [m, ascii "meta.json"] :=
        resolve_Join_plain W.cwd vm.DataDir m _ hD hmp plain_meta
      have hkeep := rall.get_unchanged _ _ hg (by
        rintro d ⟨-, hw⟩
        rcases hw _ d rfl with h0 | ⟨L, h0⟩
        · apply htmp
          rw [← h0, hMm]
          exact List.prefix_append _ _
        · rw [hMm] at h0
          have := List.append_cancel_left h0
          simp only [List.cons.injEq] at this
          exact hmn this.1)
      exact ⟨x, by rw [readStructFromJSONFile_json W _ _ v hne1 hkeep, hdec]⟩
    · exfalso
      rcases hQ.1 T rfl with rfl | ⟨L, rfl⟩
      · exact not_child_prefix_self _ _ hpre
      · obtain ⟨L1, hL1⟩ := child_prefix _ _ _ hpre
        simp only [List.cons.injEq] at hL1
        exact hmn hL1.1.symm

/-! ## Lemmas: the parameters of a query -/

theorem decimalDigits_spec : ∀ (fuel n : Nat), n < fuel →
    decimalDigits fuel n = if n = 0 then [0] else Nat.digits 10 n
  | 0, n, h => by omega
  | fuel + 1, n, h => by
    unfold decimalDigits
    by_cases h10 : n < 10
    · simp only [h10, if_true]
      by_cases h0 : n = 0
      · simp [h0]
      · simp only [h0, if_false]
        rw [Nat.digits_of_lt 10 n h0 h10]
    · simp only [h10, if_false]
      have hn0 : n ≠ 0 := by omega
      have hd : n / 10 ≠ 0 := by omega
      rw [decimalDigits_spec fuel (n / 10) (by omega)]
      simp only [hn0, hd, if_false]
      exact (Nat.digits_def' (by norm_num) (by omega)).symm

theorem formatNat_spec (n : Nat) :
    ∃ ds : List Nat, ds ≠ [] ∧ (∀ d ∈ ds, d < 10) ∧ (ds.head? = some 0 → ds = [0]) ∧
      Nat.ofDigits 10 ds.reverse = n ∧ formatNat n = ds.map (· + 48) := by
  unfold formatNat
  rw [decimalDigits_spec (n + 1) n (by omega)]
  by_cases h0 : n = 0
  · subst h0
    exact ⟨[0], by simp, by simp, by simp, by simp [Nat.ofDigits], by simp⟩
  · simp only [h0, if_false]
    have hne : Nat.digits 10 n ≠ [] := Nat.digits_ne_nil_iff_ne_zero.2 h0
    refine ⟨(Nat.digits 10 n).reverse, by simpa using hne, ?_, ?_, ?_, rfl⟩
    · intro d hd
      exact Nat.digits_lt_base (by norm_num) (List.mem_reverse.1 hd)
    · intro hh
      exfalso
      have := Nat.getLast_digit_ne_zero 10 h0
      rw [List.head?_reverse, List.getLast?_eq_getLast _ hne] at hh
      simp only [Option.some.injEq] at hh
      exact this hh
    · rw [List.reverse_reverse, Nat.ofDigits_digits]

theorem joinComma_eq_intercalate : ∀ l : List GoString, joinComma l = List.intercalate [44] l
  | [] => rfl
  | [c] => by simp [joinComma, List.intercalate]
  | c :: d :: cs => by
    have ih := joinComma_eq_intercalate (d :: cs)
    simp only [joinComma, ih, List.intercalate, List.intersperse, List.flatten]
    simp

theorem lookup_field (o : GetPackagesOptions) (name : GoString) (value : MapValue)
    (h : (name, value) ∈ fieldsOf o) :
    (queryValues (structToMap o)).lookup name =
      if value.isEmpty then none else some (formatValue value) := by
  unfold queryValues structToMap
  rw [lookup_map_snd, lookup_filter_nodup _ _ (fieldsOf_nodup o) name value h]
  cases value.isEmpty <;> rfl

theorem key_mem_of_lookup {β : Type} (k : GoString) (x : β) :
    ∀ l : List (GoString × β), l.lookup k = some x → k ∈ l.map Prod.fst
  | [], h => by cases h
  | (k1, v1) :: l, h => by
    rw [List.lookup] at h
    cases hb : (k == k1) with
    | true =>
      have : k = k1 := by simpa using hb
      simp [this]
    | false =>
      rw [hb] at h
      exact List.mem_cons_of_mem _ (key_mem_of_lookup k x l h)

theorem lookup_str (o : GetPackagesOptions) (name t : GoString)
    (h : (name, MapValue.str t) ∈ fieldsOf o) :
    (queryValues (structToMap o)).lookup name = if t = [] then none else some t := by
  rw [lookup_field o _ _ h]
  simp [MapValue.isEmpty, formatValue]

theorem lookup_strs (o : GetPackagesOptions) (name : GoString) (l : List GoString)
    (h : (name, MapValue.strs l) ∈ fieldsOf o) :
    (queryValues (structToMap o)).lookup name =
      if l = [] then none else some (List.intercalate [44] l) := by
  rw [lookup_field o _ _ h]
  simp [MapValue.isEmpty, formatValue, joinComma_eq_intercalate]

theorem lookup_int (o : GetPackagesOptions) (name : GoString) (n : Int)
    (h : (name, MapValue.int n) ∈ fieldsOf o) :
    (queryValues (structToMap o)).lookup name = if n = 0 then none else some (formatInt n) := by
  rw [lookup_field o _ _ h]
  simp [MapValue.isEmpty, formatValue]

theorem lookup_bool (o : GetPackagesOptions) (name : GoString) (b : Bool)
    (h : (name, MapValue.bool b) ∈ fieldsOf o) :
    (queryValues (structToMap o)).lookup name = if b = true then some (ascii "true") else none := by
  rw [lookup_field o _ _ h]
  cases b <;> simp [MapValue.isEmpty, formatValue]

/-! ## Lemmas: a fresh installation that succeeds -/

/-- The run of a fresh installation whose steps all succeed. -/
theorem Install_fresh_run (W : World) (vm : VersionManager) (o : JavaInstallOptions) (s : State)
    (A : GetPackagesResponse) (rest : List GetPackagesResponse) (u : GoString) (e : GoError)
    (body : FileData) (fs1 fs2 fs3 : FS)
    (hg : (GetPackages W { o with ArchiveType := [ascii "zip"] } s).1 = .ok (A :: rest))
    (hu : W.redirect A.ID = .response u none)
    (hst : osStat W s.fs
      (Join [vm.DataDir, TrimSuffix (Base u) (ascii ".zip"), ascii "meta.json"]) = .error e)
    (hne : IsNotExist e = true)
    (hf : W.fetch u = .ok body)
    (hc : osCreate W s.fs (Join [W.tmpDir, Base u]) = .ok fs1)
    (hw : W.writeFault (resolve W.cwd (Join [W.tmpDir, Base u])) = false)
    (hz : unzip W (Join [W.tmpDir, Base u]) vm.DataDir
      (fs1.put (resolve W.cwd (Join [W.tmpDir, Base u])) (.file body)) = (none, fs2))
    (hs : saveStructToJSONFile W A
      (Join [vm.DataDir, TrimSuffix (Base u) (ascii ".zip"), ascii "meta.json"]) fs2 = (none, fs3)) :
    VersionManager.Install W vm o s =
      (.returned (some
          { PackageMetaInfo := some A
            JavaDir := Join [vm.DataDir, TrimSuffix (Base u) (ascii ".zip")]
            JavaExecPath := Join [vm.DataDir, TrimSuffix (Base u) (ascii ".zip"), ascii "bin",
              addExeIfWindows W (ascii "java")] }) none,
        { fs := fs3
          trace := s.trace ++ [.getPackages { o with ArchiveType := [ascii "zip"] },
            .redirect A.ID, .redirect A.ID, .download u] }) := by
  rw [Install_cons W vm o s A rest hg]
  unfold installPackage GetFilename
  rw [GetPackageRedirect_eq]
  simp only [hu, State.log_fs, hst, hne, Bool.not_true, Bool.false_eq_true, if_false]
  unfold installFresh DownloadJavaByID
  rw [GetPackageRedirect_eq]
  simp only [hu]
  unfold DownloadFile
  simp only [hf, State.log_fs, hc, writeAll, hw, Bool.false_eq_true, if_false, hz, hs]
  simp [State.log, mkJavaPackage]

theorem DownloadJavaByID_ok_trace (W : World) (id dst file : GoString) (s s1 : State)
    (h : DownloadJavaByID W id dst s = (.val (some file, none), s1)) :
    ∃ u, W.redirect id = .response u none ∧ s1.trace = s.trace ++ [.redirect id, .download u] := by
  unfold DownloadJavaByID at h
  rw [GetPackageRedirect_eq] at h
  cases hr : W.redirect id with
  | noResponse e => simp only [hr] at h; cases h
  | response u err =>
    cases err with
    | some e => simp only [hr] at h; cases h
    | none =>
      simp only [hr] at h
      refine ⟨u, rfl, ?_⟩
      have := congrArg (fun x => x.2.trace) h
      simp only [DownloadFile_trace] at this
      rw [← this]
      simp [State.log]

/-! ## Lemmas: files a failed installation leaves -/

theorem Join_triple_ne_nil (x n m : GoString) (hm : m ≠ []) : Join [x, n, m] ≠ [] := by
  unfold Join
  by_cases hx : x = [] <;> by_cases hn : n = [] <;>
    simp only [List.dropWhile, hx, hn, hm, decide_True, decide_False] <;> exact Clean_ne_nil _

/-- A failed save of the metadata: either the file was created, empty, and the
write failed; or the file could not be created, nothing was changed and no
regular file is there. -/
theorem saveStructToJSONFile_failed (W : World) (d : PackageMetaInfo) (name : GoString) (fs : FS)
    (e : GoError) (hn : name ≠ []) (h : (saveStructToJSONFile W d name fs).1 = some e) :
    (e = .pathError "write" name .ENOSPC ∧ W.writeFault (resolve W.cwd name) = true ∧
      (saveStructToJSONFile W d name fs).2 = fs.put (resolve W.cwd name) (.file emptyFile) ∧
      (saveStructToJSONFile W d name fs).2.get (resolve W.cwd name) = some (.file emptyFile)) ∨
    (e ≠ .pathError "write" name .ENOSPC ∧ (saveStructToJSONFile W d name fs).2 = fs ∧
      isFile (fs.get (resolve W.cwd name)) = false) := by
  unfold saveStructToJSONFile osCreate at h ⊢
  simp only [hn, if_false] at h ⊢
  have key : ∀ (hok : fs.get (resolve W.cwd name) ≠ some .dir),
      (writeAll W (fs.put (resolve W.cwd name) (.file emptyFile)) name
        (.blob (.json (encodeMeta d)))).1 = some e →
      e = .pathError "write" name .ENOSPC ∧ W.writeFault (resolve W.cwd name) = true ∧
      (writeAll W (fs.put (resolve W.cwd name) (.file emptyFile)) name
        (.blob (.json (encodeMeta d)))).2 = fs.put (resolve W.cwd name) (.file emptyFile) ∧
      (writeAll W (fs.put (resolve W.cwd name) (.file emptyFile)) name
        (.blob (.json (encodeMeta d)))).2.get (resolve W.cwd name) = some (.file emptyFile) := by
    intro hok hw
    have hne : resolve W.cwd name ≠ [] := by
      intro h0
      rw [h0, FS.get_nil] at hok
      exact hok rfl
    rw [writeAll_eq] at hw ⊢
    by_cases hf : W.writeFault (resolve W.cwd name) = true
    · simp only [hf, if_true, Option.some.injEq] at hw
      rw [if_pos hf]
      exact ⟨hw.symm, hf, rfl, FS.get_put_self _ _ _ hne⟩
    · simp only [hf, Bool.false_eq_true, if_false] at hw
      cases hw
  cases hg : fs.get (resolve W.cwd name) with
  | none =>
    simp only [hg] at h ⊢
    by_cases hp : isDir (fs.get (resolve W.cwd name).dropLast) = true
    · simp only [hp, if_true] at h ⊢
      exact Or.inl (key (by rw [hg]; simp) h)
    · simp only [hp, Bool.false_eq_true, if_false, Option.some.injEq] at h ⊢
      refine Or.inr ⟨?_, trivial, rfl⟩
      rw [← h]; simp
  | some nd =>
    cases nd with
    | dir =>
      simp only [hg, Option.some.injEq] at h ⊢
      refine Or.inr ⟨?_, trivial, rfl⟩
      rw [← h]; simp
    | file x =>
      simp only [hg] at h ⊢
      exact Or.inl (key (by rw [hg]; simp) h)

/-- Where a regular file that a failed fresh installation leaves comes from. -/
theorem installFresh_failure_origin (W : World) (vm : VersionManager) (p0 : GetPackagesResponse)
    (dirname u : GoString) (s : State) (M : Path) (pkg : Option JavaPackage) (err : GoError)
    (hu : W.redirect p0.ID = .response u none)
    (hpre : isFile (s.fs.get M) = false)
    (herr : (installFresh W vm p0 dirname s).1 = .returned pkg (some err))
    (hpost : isFile ((installFresh W vm p0 dirname s).2.fs.get M) = true) :
    M = resolve W.cwd (Join [W.tmpDir, Base u]) ∨
    ((∃ e1, err = .wrapf "failed to unzip package" e1 ∨
        err = .wrapf "failed to save package metadata" e1) ∧
      ∃ es f, W.fetch u = .ok (.archive es) ∧ f ∈ es ∧
        M = resolve W.cwd (Join [vm.DataDir, f.Name])) ∨
    (M = resolve W.cwd (Join [vm.DataDir, dirname, ascii "meta.json"]) ∧
      W.writeFault M = true ∧
      err = .wrapf "failed to save package metadata"
        (.pathError "write" (Join [vm.DataDir, dirname, ascii "meta.json"]) .ENOSPC) ∧
      (installFresh W vm p0 dirname s).2.fs.get M = some (.file emptyFile)) := by
  have rd := DownloadJavaByID_reach W p0.ID W.tmpDir s
  have hdl : ∀ fs1, Reach (fun a => ∃ u d, W.redirect p0.ID = .response u none ∧
        a = .write (resolve W.cwd (Join [W.tmpDir, Base u])) d) s.fs fs1 →
      isFile (fs1.get M) = true → M = resolve W.cwd (Join [W.tmpDir, Base u]) := by
    intro fs1 r hf
    rcases r.isFile_origin M hf with h1 | ⟨d, u1, d1, hu1, h2⟩
    · rw [hpre] at h1; cases h1
    · rw [hu] at hu1
      simp only [HttpResult.response.injEq, and_true] at hu1
      subst hu1
      simp only [Act.write.injEq] at h2
      exact h2.1
  unfold installFresh at herr hpost ⊢
  cases hd : DownloadJavaByID W p0.ID W.tmpDir s with
  | mk r s1 =>
    rw [hd] at rd herr hpost
    simp only at rd
    cases r with
    | panic m => simp only at herr; cases herr
    | val v =>
      obtain ⟨file, e0⟩ := v
      cases e0 with
      | some e => simp only at hpost; exact Or.inl (hdl _ rd hpost)
      | none =>
        cases file with
        | none => simp only at herr; cases herr
        | some file =>
          obtain ⟨u1, body, hu1, hfetch, -, hfne, hget⟩ :=
            DownloadJavaByID_ok W p0.ID W.tmpDir file s s1 hd
          rw [hu] at hu1
          simp only [HttpResult.response.injEq, and_true] at hu1
          subst hu1
          have ru := unzip_reach W file vm.DataDir s1.fs
          have hun : ∀ fs2, Reach (fun a => a = .mkdir (resolve W.cwd vm.DataDir) ∨
                ∃ es f, zipOpenReader W s1.fs file = .ok es ∧ f ∈ es ∧
                  entryAct W vm.DataDir f a) s1.fs fs2 →
              isFile (fs2.get M) = true →
              M = resolve W.cwd (Join [W.tmpDir, Base u]) ∨
                ∃ es f, W.fetch u = .ok (.archive es) ∧ f ∈ es ∧
                  M = resolve W.cwd (Join [vm.DataDir, f.Name]) := by
            intro fs2 r hf
            rcases r.isFile_origin M hf with h1 | ⟨d, h2 | ⟨es, f, hz, hf2, ha⟩⟩
            · exact Or.inl (hdl _ rd h1)
            · cases h2
            · right
              have hb := zipOpenReader_of_get W s1.fs file body es hfne hget hz
              exact ⟨es, f, hb ▸ hfetch, hf2, entryAct_write W _ f M d ha⟩
          simp only at herr hpost ⊢
          cases hz : unzip W file vm.DataDir s1.fs with
          | mk e fs2 =>
            rw [hz] at ru herr hpost
            simp only at ru
            cases e with
            | some e =>
              simp only [Outcome.returned.injEq, Option.some.injEq] at herr hpost
              rcases hun _ ru hpost with h1 | h1
              · exact Or.inl h1
              · exact Or.inr (Or.inl ⟨⟨e, Or.inl herr.2.symm⟩, h1⟩)
            | none =>
              simp only at herr hpost ⊢
              cases hs : saveStructToJSONFile W p0
                  (Join [vm.DataDir, dirname, ascii "meta.json"]) fs2 with
              | mk e3 fs3 =>
                rw [hs] at herr hpost
                cases e3 with
                | none => simp only at herr; cases herr
                | some e3 =>
                  simp only [Outcome.returned.injEq, Option.some.injEq] at herr hpost ⊢
                  have hsv := saveStructToJSONFile_failed W p0
                    (Join [vm.DataDir, dirname, ascii "meta.json"]) fs2 e3
                    (Join_triple_ne_nil _ _ _ meta_ne_nil) (by rw [hs])
                  rw [hs] at hsv
                  simp only at hsv
                  rcases hsv with ⟨he, hw, hfs, hg⟩ | ⟨-, hfs, -⟩
                  · by_cases hM : M = resolve W.cwd (Join [vm.DataDir, dirname, ascii "meta.json"])
                    · right; right
                      subst hM
                      exact ⟨rfl, hw, by rw [← herr.2, he], hg⟩
                    · rw [hfs, FS.get_put_ne _ _ _ _ hM] at hpost
                      rcases hun _ ru hpost with h1 | h1
                      · exact Or.inl h1
                      · exact Or.inr (Or.inl ⟨⟨e3, Or.inr herr.2.symm⟩, h1⟩)
                  · rw [hfs] at hpost
                    rcases hun _ ru hpost with h1 | h1
                    · exact Or.inl h1
                    · exact Or.inr (Or.inl ⟨⟨e3, Or.inr herr.2.symm⟩, h1⟩)

/-- When the file of the metadata cannot be created, no regular file is at its
path after the fresh installation. -/
theorem installFresh_create_failed (W : World) (vm : VersionManager) (p0 : GetPackagesResponse)
    (dirname : GoString) (s : State) (pkg : Option JavaPackage) (e1 : GoError)
    (herr : (installFresh W vm p0 dirname s).1 =
      .returned pkg (some (.wrapf "failed to save package metadata" e1)))
    (hne : e1 ≠ .pathError "write" (Join [vm.DataDir, dirname, ascii "meta.json"]) .ENOSPC) :
    isFile ((installFresh W vm p0 dirname s).2.fs.get
      (resolve W.cwd (Join [vm.DataDir, dirname, ascii "meta.json"]))) = false := by
  unfold installFresh at herr ⊢
  split at herr
  · cases herr
  · simp only [Outcome.returned.injEq, Option.some.injEq, GoError.wrapf.injEq] at herr
    exact absurd herr.2.1 (by decide)
  · cases herr
  · rename_i file s1 hd
    try simp only [hd]
    split at herr
    · simp only [Outcome.returned.injEq, Option.some.injEq, GoError.wrapf.injEq] at herr
      exact absurd herr.2.1 (by decide)
    · rename_i fs2 hz
      try simp only [hz]
      split at herr
      · rename_i e3 fs3 hs
        simp only [Outcome.returned.injEq, Option.some.injEq, GoError.wrapf.injEq,
          true_and] at herr
        have hsv := saveStructToJSONFile_failed W p0
          (Join [vm.DataDir, dirname, ascii "meta.json"]) fs2 e3
          (Join_triple_ne_nil _ _ _ meta_ne_nil) (by rw [hs])
        rw [hs] at hsv
        try simp only [hs]
        simp only at hsv
        rcases hsv with ⟨he, -⟩ | ⟨-, hfs, hfile⟩
        · rw [herr.2] at he; exact absurd he hne
        · rw [hfs]; exact hfile
      · cases herr

theorem installPackage_failure_origin (W : World) (vm : VersionManager) (p0 : GetPackagesResponse)
    (s : State) (M : Path) (pkg : Option JavaPackage) (err : GoError)
    (hpre : isFile (s.fs.get M) = false)
    (herr : (installPackage W vm p0 s).1 = .returned pkg (some err))
    (hpost : isFile ((installPackage W vm p0 s).2.fs.get M) = true) :
    ∃ u, W.redirect p0.ID = .response u none ∧
      (M = resolve W.cwd (Join [W.tmpDir, Base u]) ∨
      ((∃ e1, err = .wrapf "failed to unzip package" e1 ∨
          err = .wrapf "failed to save package metadata" e1) ∧
        ∃ es f, W.fetch u = .ok (.archive es) ∧ f ∈ es ∧
          M = resolve W.cwd (Join [vm.DataDir, f.Name])) ∨
      (M = resolve W.cwd
          (Join [vm.DataDir, TrimSuffix (Base u) (ascii ".zip"), ascii "meta.json"]) ∧
        W.writeFault M = true ∧
        err = .wrapf "failed to save package metadata"
          (.pathError "write"
            (Join [vm.DataDir, TrimSuffix (Base u) (ascii ".zip"), ascii "meta.json"]) .ENOSPC) ∧
        (installPackage W vm p0 s).2.fs.get M = some (.file emptyFile))) := by
  unfold installPackage GetFilename at herr hpost ⊢
  rw [GetPackageRedirect_eq] at herr hpost ⊢
  cases hr : W.redirect p0.ID with
  | noResponse e => simp only [hr] at hpost; rw [State.log_fs, hpre] at hpost; cases hpost
  | response u e0 =>
    cases e0 with
    | some e => simp only [hr] at hpost; rw [State.log_fs, hpre] at hpost; cases hpost
    | none =>
      simp only [hr, State.log_fs] at herr hpost ⊢
      refine ⟨u, rfl, ?_⟩
      split at hpost
      · split at hpost <;> (rw [State.log_fs, hpre] at hpost; cases hpost)
      · rename_i e hst
        simp only [hst] at herr ⊢
        split at hpost
        · rw [State.log_fs, hpre] at hpost; cases hpost
        · rename_i hc
          simp only [hc, if_false] at herr ⊢
          exact installFresh_failure_origin W vm p0 _ u _ M pkg err hr
            (by rw [State.log_fs]; exact hpre) herr hpost

theorem installPackage_create_failed (W : World) (vm : VersionManager) (p0 : GetPackagesResponse)
    (s : State) (pkg : Option JavaPackage) (u : GoString) (e1 : GoError)
    (hu : W.redirect p0.ID = .response u none)
    (herr : (installPackage W vm p0 s).1 =
      .returned pkg (some (.wrapf "failed to save package metadata" e1)))
    (hne : e1 ≠ .pathError "write"
      (Join [vm.DataDir, TrimSuffix (Base u) (ascii ".zip"), ascii "meta.json"]) .ENOSPC) :
    isFile ((installPackage W vm p0 s).2.fs.get (resolve W.cwd
      (Join [vm.DataDir, TrimSuffix (Base u) (ascii ".zip"), ascii "meta.json"]))) = false := by
  unfold installPackage GetFilename at herr ⊢
  rw [GetPackageRedirect_eq] at herr ⊢
  simp only [hu, State.log_fs] at herr ⊢
  split at herr
  · split at herr
    · simp only [Outcome.returned.injEq, Option.some.injEq, GoError.wrapf.injEq] at herr
      exact absurd herr.2.1 (by decide)
    · simp only [Outcome.returned.injEq, Option.some.injEq] at herr
      cases herr.2
  · rename_i e hst
    try simp only [hst]
    split at herr
    · simp only [Outcome.returned.injEq, Option.some.injEq, GoError.wrapf.injEq] at herr
      exact absurd herr.2.1 (by decide)
    · rename_i hc
      try simp only [hc, if_false]
      exact installFresh_create_failed W vm p0 _ _ pkg e1 herr hne

/-! ## Lemmas: the registry after a change outside the root -/

theorem childOf_outside (R p : Path) (h : ¬ R <+: p) : childOf R p = none := by
  unfold childOf
  cases hl : p.getLast? with
  | none => rfl
  | some x =>
    simp only
    split
    · rename_i hd
      exfalso
      apply h
      have := List.dropLast_append_getLast? x hl
      rw [hd] at this
      exact ⟨[x], this⟩
    · rfl

theorem childNames_put_outside (fs : FS) (R p : Path) (n : Node) (h : ¬ R <+: p) :
    (fs.put p n).childNames R = fs.childNames R := by
  unfold FS.put FS.childNames
  simp only [List.foldr_cons, childOf_outside R p h]

theorem subdirNames_put_outside (W : World) (fs : FS) (D : GoString) (p : Path) (n : Node)
    (h : ¬ resolve W.cwd D <+: p) :
    subdirNames W (fs.put p n) D = subdirNames W fs D := by
  unfold subdirNames
  rw [childNames_put_outside fs _ p n h]
  apply List.filter_congr
  intro m _
  rw [FS.get_put_ne]
  intro hq
  exact h ⟨[m], hq⟩

/-- Writes outside the root change neither the nodes inside it nor its
subdirectories. -/
theorem Reach.registry_unchanged {P : Act → Prop} {fs fs1 : FS} (r : Reach P fs fs1)
    (W : World) (D : GoString)
    (hP : ∀ a, P a → ∃ F d, a = .write F d ∧ ¬ resolve W.cwd D <+: F) :
    subdirNames W fs1 D = subdirNames W fs D ∧
      ∀ q, resolve W.cwd D <+: q → fs1.get q = fs.get q := by
  induction r with
  | refl => exact ⟨rfl, fun _ _ => rfl⟩
  | step a r1 hv hp ih =>
    obtain ⟨F, d, rfl, hF⟩ := hP a hp
    simp only [Act.run]
    refine ⟨by rw [subdirNames_put_outside W _ D F _ hF, ih.1], fun q hq => ?_⟩
    rw [FS.get_put_ne _ _ _ _ (fun h => hF (by rw [← h]; exact hq)), ih.2 q hq]

theorem readStructFromJSONFile_congr (W : World) (name : GoString) (fs fs1 : FS)
    (m : Option PackageMetaInfo) (hr : readStructFromJSONFile W name fs = .ok m)
    (h : fs1.get (resolve W.cwd name) = fs.get (resolve W.cwd name)) :
    readStructFromJSONFile W name fs1 = .ok m := by
  obtain ⟨hn, v, hg, hd⟩ := readStructFromJSONFile_ok W name fs m hr
  rw [readStructFromJSONFile_json W name fs1 v hn (by rw [h, hg]), hd]

/-- `List` reads only the root: on a file system with the same nodes inside the
root and the same subdirectories it returns the same. -/
theorem List_congr (W : World) (vm : VersionManager) (fs fs1 : FS) (javas : List JavaPackage)
    (hL : VersionManager.List W vm fs = .ok javas)
    (hnames : ∀ m ∈ subdirNames W fs vm.DataDir, plainName m)
    (hs : subdirNames W fs1 vm.DataDir = subdirNames W fs vm.DataDir)
    (hg : ∀ q, resolve W.cwd vm.DataDir <+: q → fs1.get q = fs.get q) :
    VersionManager.List W vm fs1 = .ok javas := by
  obtain ⟨hD, hroot⟩ := List_ok_root W vm fs javas hL
  have hold := List_ok_readable W vm fs javas hL
  have hread : ∀ m ∈ subdirNames W fs vm.DataDir, ∀ x,
      readStructFromJSONFile W (Join [vm.DataDir, m, ascii "meta.json"]) fs = .ok x →
      readStructFromJSONFile W (Join [vm.DataDir, m, ascii "meta.json"]) fs1 = .ok x := by
    intro m hm x hx
    apply readStructFromJSONFile_congr W _ fs fs1 x hx
    rw [resolve_Join_plain W.cwd vm.DataDir m _ hD (hnames m hm) plain_meta]
    exact hg _ ⟨_, rfl⟩
  obtain ⟨javas1, h1⟩ := List_ok_of_readable W vm fs1 hD
    (by rw [hg _ (List.prefix_refl _)]; exact hroot)
    (fun m hm => by
      rw [hs] at hm
      obtain ⟨x, hx⟩ := hold m hm
      exact ⟨x, hread m hm x hx⟩)
  rw [h1, List_ok_eq W vm fs1 javas1 h1, List_ok_eq W vm fs javas hL, hs]
  congr 1
  apply List.map_congr_left
  intro m hm
  obtain ⟨x, hx⟩ := hold m hm
  unfold metaOf
  rw [hread m hm x hx, hx]

/-- A fresh installation that fails in the download, or in the extraction
because the body is no archive, leaves the file system of the download. -/
theorem installFresh_early_failure (W : World) (vm : VersionManager) (p0 : GetPackagesResponse)
    (dirname u : GoString) (s : State) (pkg : Option JavaPackage) (e : GoError)
    (hu : W.redirect p0.ID = .response u none)
    (herr : (installFresh W vm p0 dirname s).1 = .returned pkg (some e))
    (hc : (∃ e1, e = .wrapf "failed to download package" e1) ∨
      ((∃ e1, e = .wrapf "failed to unzip package" e1) ∧ ∀ es, W.fetch u ≠ .ok (.archive es))) :
    (installFresh W vm p0 dirname s).2.fs = (DownloadJavaByID W p0.ID W.tmpDir s).2.fs := by
  unfold installFresh at herr ⊢
  cases hd : DownloadJavaByID W p0.ID W.tmpDir s with
  | mk r s1 =>
    rw [hd] at herr
    cases r with
    | panic m => rfl
    | val v =>
      obtain ⟨file, e0⟩ := v
      cases e0 with
      | some e => cases file <;> rfl
      | none =>
        cases file with
        | none => rfl
        | some file =>
          obtain ⟨u1, body, hu1, hfetch, -, hfne, hget⟩ :=
            DownloadJavaByID_ok W p0.ID W.tmpDir file s s1 hd
          rw [hu] at hu1
          simp only [HttpResult.response.injEq, and_true] at hu1
          subst hu1
          simp only at herr ⊢
          have hz : ∃ e2, unzip W file vm.DataDir s1.fs = (some e2, s1.fs) := by
            rcases hc with ⟨e1, he1⟩ | ⟨-, hna⟩
            · exfalso
              subst he1
              split at herr
              · simp only [Outcome.returned.injEq, Option.some.injEq, GoError.wrapf.injEq] at herr
                exact absurd herr.2.1 (by decide)
              · split at herr
                · simp only [Outcome.returned.injEq, Option.some.injEq,
                    GoError.wrapf.injEq] at herr
                  exact absurd herr.2.1 (by decide)
                · cases herr
            · unfold unzip zipOpenReader osOpen
              simp only [hfne, if_false, hget]
              cases body with
              | archive es => exact absurd hfetch (hna es)
              | blob b => exact ⟨_, rfl⟩
          obtain ⟨e2, hz⟩ := hz
          rw [hz]

theorem installPackage_early_failure (W : World) (vm : VersionManager) (p0 : GetPackagesResponse)
    (u : GoString) (s : State) (pkg : Option JavaPackage) (e : GoError)
    (hu : W.redirect p0.ID = .response u none)
    (herr : (installPackage W vm p0 s).1 = .returned pkg (some e))
    (hc : (∃ e1, e = .wrapf "failed to download package" e1) ∨
      ((∃ e1, e = .wrapf "failed to unzip package" e1) ∧ ∀ es, W.fetch u ≠ .ok (.archive es))) :
    Reach (fun a => ∃ d, a = .write (resolve W.cwd (Join [W.tmpDir, Base u])) d) s.fs
      (installPackage W vm p0 s).2.fs := by
  by_cases hfresh : installPackage W vm p0 s =
      installFresh W vm p0 (TrimSuffix (Base u) (ascii ".zip")) (s.log (.redirect p0.ID))
  · rw [hfresh] at herr ⊢
    rw [installFresh_early_failure W vm p0 _ u _ pkg e hu herr hc]
    refine (DownloadJavaByID_reach W p0.ID W.tmpDir (s.log (.redirect p0.ID))).mono ?_
    rintro a ⟨u1, d, hu1, rfl⟩
    rw [hu] at hu1
    simp only [HttpResult.response.injEq, and_true] at hu1
    subst hu1
    exact ⟨d, rfl⟩
  · exfalso
    apply hfresh
    unfold installPackage GetFilename at herr ⊢
    rw [GetPackageRedirect_eq] at herr ⊢
    simp only [hu, State.log_fs] at herr ⊢
    split at herr
    · split at herr
      · simp only [Outcome.returned.injEq, Option.some.injEq] at herr
        rcases hc with ⟨e1, he1⟩ | ⟨⟨e1, he1⟩, -⟩ <;>
          (rw [he1] at herr; simp only [GoError.wrapf.injEq] at herr;
           exact absurd herr.2.1 (by decide))
      · simp only [Outcome.returned.injEq, Option.some.injEq] at herr
        rcases hc with ⟨e1, he1⟩ | ⟨⟨e1, he1⟩, -⟩ <;>
          (rw [he1] at herr; cases herr.2)
    · split at herr
      · simp only [Outcome.returned.injEq, Option.some.injEq] at herr
        rcases hc with ⟨e1, he1⟩ | ⟨⟨e1, he1⟩, -⟩ <;>
          (rw [he1] at herr; simp only [GoError.wrapf.injEq] at herr;
           exact absurd herr.2.1 (by decide))
      · rename_i hcnd
        simp [hcnd]

/-- `List` after an installation that failed in the download, or in the
extraction because the body is no archive. -/
theorem Install_early_failure_List (W : World) (vm : VersionManager) (o : JavaInstallOptions)
    (s : State) (javas : List JavaPackage) (pkg : Option JavaPackage) (e : GoError)
    (A : GetPackagesResponse) (rest : List GetPackagesResponse) (u : GoString)
    (hL : VersionManager.List W vm s.fs = .ok javas)
    (herr : (VersionManager.Install W vm o s).1 = .returned pkg (some e))
    (hg : (GetPackages W { o with ArchiveType := [ascii "zip"] } s).1 = .ok (A :: rest))
    (hu : W.redirect A.ID = .response u none)
    (hc : (∃ e1, e = .wrapf "failed to download package" e1) ∨
      ((∃ e1, e = .wrapf "failed to unzip package" e1) ∧ ∀ es, W.fetch u ≠ .ok (.archive es)))
    (htmp : ¬ resolve W.cwd vm.DataDir <+: resolve W.cwd (Join [W.tmpDir, Base u]))
    (hnames : ∀ m ∈ subdirNames W s.fs vm.DataDir, plainName m) :
    VersionManager.List W vm (VersionManager.Install W vm o s).2.fs = .ok javas := by
  rw [Install_cons W vm o s A rest hg] at herr ⊢
  have r := installPackage_early_failure W vm A u _ pkg e hu herr hc
  rw [State.log_fs] at r
  obtain ⟨h1, h2⟩ := r.registry_unchanged W vm.DataDir
    (fun a ⟨d, ha⟩ => ⟨_, d, ha, htmp⟩)
  exact List_congr W vm s.fs _ javas hL hnames h1 h2

/-! ## The claims -/

/-- C1, counterexample. Extracting the example archive into `/data/jlib` when
`/data` does not exist succeeds and creates the directory `/data`, a path
outside the destination. -/
theorem unzip_creates_ancestor_of_dest :
    (unzip exWorld (ascii "/tmp/zulu8.zip") (ascii "/data/jlib") c1FS).1 = none ∧
      resolve exWorld.cwd (ascii "/data/jlib") = [ascii "data", ascii "jlib"] ∧
      ¬ [ascii "data", ascii "jlib"] <+: [ascii "data"] ∧
      c1FS.get [ascii "data"] = none ∧
      (unzip exWorld (ascii "/tmp/zulu8.zip") (ascii "/data/jlib") c1FS).2.get [ascii "data"]
        = some .dir :=
  ⟨rfl, rfl, by decide, rfl, rfl⟩

/-- C1, amended. For every absolute destination `dest` and every archive:

* an entry whose name, joined with `dest`, resolves outside `dest` makes
  `extractAndWriteFile` return an error without changing the file system;
* an archive that holds such an entry makes `unzip` return an error;
* `unzip` is `os.MkdirAll(dest)` followed by the loop over the entries, and
  the loop, from any file system, leaves every path outside `dest` as it is,
  except that a missing ancestor of `dest` may have been created as a
  directory;
* when `dest` has no `..` element, the same holds of the whole of `unzip`:
  at every path outside `dest` the file system after `unzip` is as before,
  except that a missing ancestor of `dest` may have been created as a
  directory (by `os.MkdirAll(dest)`).

For a destination with a `..` element, such as `/data/x/../jlib`,
`os.MkdirAll(dest)` also creates the directory the `..` steps back from, and
the last part says nothing. -/
theorem unzip_traversal_safe (W : World) (src dest : GoString) (fs : FS)
    (habs : dest.head? = some 47) :
    (∀ f fs0, ¬ resolve W.cwd dest <+: resolve W.cwd (Join [dest, f.Name]) →
      ∃ e, extractAndWriteFile W dest f fs0 = (some e, fs0)) ∧
    (∀ entries, zipOpenReader W fs src = .ok entries →
      (∃ f ∈ entries, ¬ resolve W.cwd dest <+: resolve W.cwd (Join [dest, f.Name])) →
      (unzip W src dest fs).1 ≠ none) ∧
    (∀ entries, zipOpenReader W fs src = .ok entries →
      unzip W src dest fs = unzipLoop W dest entries (osMkdirAll W fs dest).2) ∧
    (∀ entries fs0 q, ¬ resolve W.cwd dest <+: q →
      (unzipLoop W dest entries fs0).2.get q = fs0.get q ∨
      (q <+: resolve W.cwd dest ∧ fs0.get q = none ∧
        (unzipLoop W dest entries fs0).2.get q = some .dir)) ∧
    ((∀ c ∈ splitPath dest, c ≠ [46, 46]) →
      ∀ q, ¬ resolve W.cwd dest <+: q →
        (unzip W src dest fs).2.get q = fs.get q ∨
        (q <+: resolve W.cwd dest ∧ fs.get q = none ∧
          (unzip W src dest fs).2.get q = some .dir)) := by
  refine ⟨fun f fs0 h => ?_, fun entries hopen h => ?_, fun entries hopen => ?_,
    fun entries fs0 => frameOK_unzipLoop W dest habs fs0 entries fs0 (frameOK_refl _ _),
    fun _ => frameOK_unzip W src dest habs fs⟩
  · exact extractAndWriteFile_rejected W dest f fs0 (check_rejects_outside W.cwd dest f.Name habs h)
  · obtain ⟨f, hf, hout⟩ := h
    simp only [unzip, hopen]
    exact unzipLoop_rejects W dest entries _
      ⟨f, hf, check_rejects_outside W.cwd dest f.Name habs hout⟩
  · simp only [unzip, hopen]

/-- C1, witness: the archive with the entry `../../evil`, extracted into `/d`:
`unzip` returns an error, and nothing is at `/evil` afterwards. -/
theorem unzip_traversal_safe_witness :
    (ascii "/d").head? = some 47 ∧
      (zipOpenReader exWorld c2FS (ascii "/tmp/a.zip") = .ok c2Archive ∧
        ¬ resolve exWorld.cwd (ascii "/d") <+:
          resolve exWorld.cwd (Join [ascii "/d", ascii "../../evil"])) ∧
      (unzip exWorld (ascii "/tmp/a.zip") (ascii "/d") c2FS).1 ≠ none ∧
      (unzip exWorld (ascii "/tmp/a.zip") (ascii "/d") c2FS).2.get [ascii "evil"] = none :=
  ⟨rfl, ⟨rfl, by decide⟩,
    (unzip_traversal_safe exWorld (ascii "/tmp/a.zip") (ascii "/d") c2FS rfl).2.1 c2Archive rfl
      ⟨{ Name := ascii "../../evil" }, by simp [c2Archive], by decide⟩,
    rfl⟩

/-- C2, counterexample. The archive holds the file `a.txt` and then the entry
`../../evil`; `unzip` into the empty `/d` fails on the second entry, and
`/d/a.txt`, absent before the call, is present afterwards. -/
theorem unzip_not_all_or_nothing :
    (unzip exWorld (ascii "/tmp/a.zip") (ascii "/d") c2FS).1 =
        some (.errorfs "illegal file path" (ascii "/evil")) ∧
      c2FS.get [ascii "d", ascii "a.txt"] = none ∧
      (unzip exWorld (ascii "/tmp/a.zip") (ascii "/d") c2FS).2.get [ascii "d", ascii "a.txt"]
        = some (.file (.blob (.bytes [104, 105]))) :=
  ⟨rfl, rfl, rfl⟩

/-- C2, amended. Extraction stops at the first failure and rolls nothing back.
If the archive cannot be opened, `unzip` returns that error and the file system
is as before the call.  If the entries before `f` are extracted without error
and `f` fails, `unzip` returns the error of `f`, the entries after `f` are not
touched, and the file system is the one the entries before `f` produced
followed by what `f` did before failing; an entry rejected by the path check
does nothing. -/
theorem unzip_stops_at_first_failure (W : World) (src dest : GoString) (fs : FS) :
    (∀ e, zipOpenReader W fs src = .error e → unzip W src dest fs = (some e, fs)) ∧
    (∀ pre f post err fs1 fs2, zipOpenReader W fs src = .ok (pre ++ f :: post) →
      unzipLoop W dest pre (osMkdirAll W fs dest).2 = (none, fs1) →
      extractAndWriteFile W dest f fs1 = (some err, fs2) →
      unzip W src dest fs = (some err, fs2) ∧
        (HasPrefix (Join [dest, f.Name]) (Clean dest ++ [47]) = false → fs2 = fs1)) := by
  refine ⟨fun e h => ?_, fun pre f post err fs1 fs2 hopen hpre hf => ⟨?_, fun hrej => ?_⟩⟩
  · simp [unzip, h]
  · simp only [unzip, hopen]
    rw [unzipLoop_append, hpre]
    simp only [unzipLoop, hf]
  · obtain ⟨e, he⟩ := extractAndWriteFile_rejected W dest f fs1 hrej
    rw [he] at hf
    simp only [Prod.mk.injEq] at hf
    exact hf.2.symm

/-- C2, witness: on the archive of the counterexample `unzip` returns the error
of the second entry and the file system the first entry produced. -/
theorem unzip_stops_at_first_failure_witness :
    zipOpenReader exWorld c2FS (ascii "/tmp/a.zip")
        = .ok ([{ Name := ascii "a.txt", body := .bytes [104, 105] }] ++
            { Name := ascii "../../evil" } :: []) ∧
      unzip exWorld (ascii "/tmp/a.zip") (ascii "/d") c2FS =
        (some (.errorfs "illegal file path" (ascii "/evil")),
          (unzipLoop exWorld (ascii "/d") [{ Name := ascii "a.txt", body := .bytes [104, 105] }]
            (osMkdirAll exWorld c2FS (ascii "/d")).2).2) :=
  ⟨rfl, ((unzip_stops_at_first_failure exWorld (ascii "/tmp/a.zip") (ascii "/d") c2FS).2
    [{ Name := ascii "a.txt", body := .bytes [104, 105] }] { Name := ascii "../../evil" } []
    (.errorfs "illegal file path" (ascii "/evil")) _ _ rfl rfl rfl).1⟩

/-- C3. `Install` is idempotent: when a first `Install` returned a package with
a nil error, a second `Install` with the same filter, run on the state the first
one left and against the same catalog answers, returns the same package together
with `ErrPackageAlreadyInstalled`, leaves the file system as it is, and sends
only the search and one redirect request (no download). -/
theorem Install_idempotent (W : World) (vm : VersionManager) (o : JavaInstallOptions) (s : State)
    (pkg : JavaPackage) (h : (VersionManager.Install W vm o s).1 = .returned (some pkg) none) :
    (VersionManager.Install W vm o (VersionManager.Install W vm o s).2).1 =
        .returned (some pkg) (some .ErrPackageAlreadyInstalled) ∧
      (VersionManager.Install W vm o (VersionManager.Install W vm o s).2).2.fs =
        (VersionManager.Install W vm o s).2.fs ∧
      ∃ id, (VersionManager.Install W vm o (VersionManager.Install W vm o s).2).2.trace =
        (VersionManager.Install W vm o s).2.trace ++
          [.getPackages { o with ArchiveType := [ascii "zip"] }, .redirect id] := by
  cases hg : (GetPackages W { o with ArchiveType := [ascii "zip"] } s).1 with
  | error e =>
    rw [Install_error W vm o s e hg] at h
    cases h
  | ok l =>
    cases l with
    | nil => rw [Install_nil W vm o s hg] at h; cases h
    | cons A rest =>
      have hA := GetPackages_ok W _ s _ hg A (List.mem_cons_self _ _)
      rw [Install_cons W vm o s A rest hg] at h ⊢
      obtain ⟨u, hu, -, hfresh⟩ := installPackage_ok_inv W vm A _ pkg h
      rw [hfresh] at h ⊢
      obtain ⟨-, hpkg, file, s1, fs2, -, -, hsave, -⟩ := installFresh_ok_inv W vm A _ _ pkg none h
      have hget := saveStructToJSONFile_get W A _ _ _ hsave
      have hne := (saveStructToJSONFile_ok W A _ _ _ hsave).1
      have hg2 : (GetPackages W { o with ArchiveType := [ascii "zip"] }
          (installFresh W vm A (TrimSuffix (Base u) (ascii ".zip"))
            ((s.log (Event.getPackages { o with ArchiveType := [ascii "zip"] })).log
              (Event.redirect A.ID))).2).1 = .ok (A :: rest) := by
        rw [GetPackages_fst W _ s, hg]
      rw [Install_cons W vm o _ A rest hg2,
        installPackage_installed W vm A _ u hA hu hne (by simpa using hget)]
      refine ⟨by rw [hpkg], rfl, A.ID, ?_⟩
      simp

/-- C3, witness: the example world installs `zulu8` into the empty `/data`, and
the second call answers `ErrPackageAlreadyInstalled` with the same package. -/
theorem Install_idempotent_witness :
    (VersionManager.Install exWorld exVM {} exState).1 =
        .returned (some (mkJavaPackage exWorld exVM (some exA) (ascii "zulu8"))) none ∧
      (VersionManager.Install exWorld exVM {} (VersionManager.Install exWorld exVM {} exState).2).1 =
        .returned (some (mkJavaPackage exWorld exVM (some exA) (ascii "zulu8")))
          (some .ErrPackageAlreadyInstalled) :=
  ⟨rfl, (Install_idempotent exWorld exVM {} exState _ rfl).1⟩

/-- C4, counterexample. No `meta.json` exists before the call; the download
and the extraction succeed, the write of the metadata fails, `Install` returns
the error `failed to save package metadata`, and an (empty) file exists at
`/data/zulu8/meta.json` afterwards. -/
theorem Install_failure_leaves_metadata_file :
    exState.fs.get (resolve c4World.cwd (Join [exVM.DataDir, ascii "zulu8", ascii "meta.json"]))
        = none ∧
      (VersionManager.Install c4World exVM {} exState).1 =
        .returned none (some (.wrapf "failed to save package metadata"
          (.pathError "write" (ascii "/data/zulu8/meta.json") .ENOSPC))) ∧
      (VersionManager.Install c4World exVM {} exState).2.fs.get
          (resolve c4World.cwd (Join [exVM.DataDir, ascii "zulu8", ascii "meta.json"]))
        = some (.file emptyFile) :=
  ⟨rfl, rfl, rfl⟩

/-- C4, amended. Let `Install` return the non-nil error `err`.

* If `err` is none of `failed to download package`, `failed to unzip package`
  and `failed to save package metadata` (so the call failed in the search, the
  redirect, the existence check or the reading of stored metadata, or found
  the package installed), the file system is as it was before the call.
* If no regular file is at a path `M` before the call and one is there
  afterwards, then the search answered a list with a head `A`, the redirect
  for `A.ID` answered a URL `u`, and one of these holds: `M` is where the
  download of `u` is saved; or the error is that of the extraction or of the
  metadata, the body of `u` is an archive and `M` is where one of its entries
  is extracted; or `M` is the metadata path of this installation, writing to
  it fails, `err` is that failed write of the metadata, and the file at `M`
  is the empty file `os.Create` left.
* If the error is `failed to save package metadata` for another reason than
  the failed write (the file could not be created), no regular file is at the
  metadata path after the call. -/
theorem Install_failure_metadata_origin (W : World) (vm : VersionManager)
    (o : JavaInstallOptions) (s : State) (pkg : Option JavaPackage) (err : GoError)
    (herr : (VersionManager.Install W vm o s).1 = .returned pkg (some err)) :
    (((∀ e1, err ≠ .wrapf "failed to download package" e1) ∧
        (∀ e1, err ≠ .wrapf "failed to unzip package" e1) ∧
        (∀ e1, err ≠ .wrapf "failed to save package metadata" e1)) →
      (VersionManager.Install W vm o s).2.fs = s.fs) ∧
    (∀ M, isFile (s.fs.get M) = false →
      isFile ((VersionManager.Install W vm o s).2.fs.get M) = true →
      ∃ A rest u,
        (GetPackages W { o with ArchiveType := [ascii "zip"] } s).1 = .ok (A :: rest) ∧
        W.redirect A.ID = .response u none ∧
        (M = resolve W.cwd (Join [W.tmpDir, Base u]) ∨
        ((∃ e1, err = .wrapf "failed to unzip package" e1 ∨
            err = .wrapf "failed to save package metadata" e1) ∧
          ∃ es f, W.fetch u = .ok (.archive es) ∧ f ∈ es ∧
            M = resolve W.cwd (Join [vm.DataDir, f.Name])) ∨
        (M = resolve W.cwd
            (Join [vm.DataDir, TrimSuffix (Base u) (ascii ".zip"), ascii "meta.json"]) ∧
          W.writeFault M = true ∧
          err = .wrapf "failed to save package metadata"
            (.pathError "write"
              (Join [vm.DataDir, TrimSuffix (Base u) (ascii ".zip"), ascii "meta.json"])
              .ENOSPC) ∧
          (VersionManager.Install W vm o s).2.fs.get M = some (.file emptyFile)))) ∧
    (∀ A rest u e1,
      (GetPackages W { o with ArchiveType := [ascii "zip"] } s).1 = .ok (A :: rest) →
      W.redirect A.ID = .response u none →
      err = .wrapf "failed to save package metadata" e1 →
      e1 ≠ .pathError "write"
        (Join [vm.DataDir, TrimSuffix (Base u) (ascii ".zip"), ascii "meta.json"]) .ENOSPC →
      isFile ((VersionManager.Install W vm o s).2.fs.get (resolve W.cwd
        (Join [vm.DataDir, TrimSuffix (Base u) (ascii ".zip"), ascii "meta.json"]))) = false) := by
  refine ⟨fun h => Install_fs_unchanged W vm o s pkg err herr h.1 h.2.1 h.2.2,
    fun M hpre hpost => ?_, fun A rest u e1 hg hu he hne => ?_⟩
  · cases hg : (GetPackages W { o with ArchiveType := [ascii "zip"] } s).1 with
    | error e =>
      rw [Install_error W vm o s e hg] at hpost
      rw [State.log_fs, hpre] at hpost
      cases hpost
    | ok l =>
      cases l with
      | nil =>
        rw [Install_nil W vm o s hg] at hpost
        rw [State.log_fs, hpre] at hpost
        cases hpost
      | cons A rest =>
        rw [Install_cons W vm o s A rest hg] at herr hpost ⊢
        obtain ⟨u, hu, h⟩ := installPackage_failure_origin W vm A _ M pkg err
          (by rw [State.log_fs]; exact hpre) herr hpost
        exact ⟨A, rest, u, rfl, hu, h⟩
  · rw [Install_cons W vm o s A rest hg] at herr ⊢
    subst he
    exact installPackage_create_failed W vm A _ pkg u e1 hu herr hne

/-- C4, witness: the failed metadata write of the counterexample.  The file at
`/data/zulu8/meta.json` is neither the download nor an entry of the archive:
it is the empty file left by the failed write. -/
theorem Install_failure_metadata_origin_witness :
    ∃ A rest u,
      (GetPackages c4World { ({} : JavaInstallOptions) with ArchiveType := [ascii "zip"] }
        exState).1 = .ok (A :: rest) ∧
      c4World.redirect A.ID = .response u none ∧
      ([ascii "data", ascii "zulu8", ascii "meta.json"]
          = resolve c4World.cwd (Join [c4World.tmpDir, Base u]) ∨
      ((∃ e1, GoError.wrapf "failed to save package metadata"
            (.pathError "write" (ascii "/data/zulu8/meta.json") .ENOSPC)
              = .wrapf "failed to unzip package" e1 ∨
          GoError.wrapf "failed to save package metadata"
            (.pathError "write" (ascii "/data/zulu8/meta.json") .ENOSPC)
              = .wrapf "failed to save package metadata" e1) ∧
        ∃ es f, c4World.fetch u = .ok (.archive es) ∧ f ∈ es ∧
          [ascii "data", ascii "zulu8", ascii "meta.json"]
            = resolve c4World.cwd (Join [exVM.DataDir, f.Name])) ∨
      ([ascii "data", ascii "zulu8", ascii "meta.json"] = resolve c4World.cwd
          (Join [exVM.DataDir, TrimSuffix (Base u) (ascii ".zip"), ascii "meta.json"]) ∧
        c4World.writeFault [ascii "data", ascii "zulu8", ascii "meta.json"] = true ∧
        GoError.wrapf "failed to save package metadata"
            (.pathError "write" (ascii "/data/zulu8/meta.json") .ENOSPC)
          = .wrapf "failed to save package metadata"
            (.pathError "write"
              (Join [exVM.DataDir, TrimSuffix (Base u) (ascii ".zip"), ascii "meta.json"])
              .ENOSPC) ∧
        (VersionManager.Install c4World exVM {} exState).2.fs.get
          [ascii "data", ascii "zulu8", ascii "meta.json"] = some (.file emptyFile))) :=
  (Install_failure_metadata_origin c4World exVM {} exState none
    (.wrapf "failed to save package metadata"
      (.pathError "write" (ascii "/data/zulu8/meta.json") .ENOSPC)) rfl).2.1
    [ascii "data", ascii "zulu8", ascii "meta.json"] rfl rfl

/-- C5, counterexample. The descriptor whose `ID` is the byte `0xFF` is saved
without error, and what is read back has the `ID` `EF BF BD` (U+FFFD): the
value read is not the value saved. -/
theorem save_read_not_round_trip :
    (saveStructToJSONFile exWorld c5Meta (ascii "/meta.json") []).1 = none ∧
      readStructFromJSONFile exWorld (ascii "/meta.json")
          (saveStructToJSONFile exWorld c5Meta (ascii "/meta.json") []).2
        = .ok (some { ID := [0xEF, 0xBF, 0xBD] }) ∧
      ({ ID := [0xEF, 0xBF, 0xBD] } : GetPackagesResponse) ≠ c5Meta :=
  ⟨rfl, rfl, by decide⟩

/-- C5, amended. Metadata round trip for descriptors whose strings are valid
UTF-8 (and whose integers are Go ints), nil and empty `Feature` lists included:
if `saveStructToJSONFile(d, p)` succeeds then `readStructFromJSONFile(p)`
succeeds and returns a value equal to `d`. -/
theorem save_read_round_trip (W : World) (d : PackageMetaInfo) (p : GoString) (fs : FS)
    (hd : metaOK d = true) (h : (saveStructToJSONFile W d p fs).1 = none) :
    readStructFromJSONFile W p (saveStructToJSONFile W d p fs).2 = .ok (some d) := by
  have hs : saveStructToJSONFile W d p fs = (none, (saveStructToJSONFile W d p fs).2) := by
    rw [← h]
  rw [readStructFromJSONFile_json W p _ _ (saveStructToJSONFile_ok W d p fs _ hs).1
    (saveStructToJSONFile_get W d p fs _ hs), decodeMetaPtr_encodeMeta d hd]

/-- C5, witness: the descriptor `exA` saved at `/meta.json` is read back. -/
theorem save_read_round_trip_witness :
    metaOK exA = true ∧ (saveStructToJSONFile exWorld exA (ascii "/meta.json") []).1 = none ∧
      readStructFromJSONFile exWorld (ascii "/meta.json")
          (saveStructToJSONFile exWorld exA (ascii "/meta.json") []).2 = .ok (some exA) :=
  ⟨by decide, rfl, save_read_round_trip exWorld exA (ascii "/meta.json") [] (by decide) rfl⟩

/-- C6, counterexample. The install root `/data` is empty; the archive holds,
beside `zulu8`, a second top-level directory `legal`.  `Install` returns the
package with a nil error, and `List` then fails on `/data/legal`, which has no
`meta.json`. -/
theorem Install_ok_List_fails :
    emptyRoot c6World exVM exState.fs ∧
      (VersionManager.Install c6World exVM {} exState).1 =
        .returned (some (mkJavaPackage c6World exVM (some exA) (ascii "zulu8"))) none ∧
      VersionManager.List c6World exVM (VersionManager.Install c6World exVM {} exState).2.fs =
        .error (.wrapf "failed to read package metadata"
          (.pathError "open" (ascii "/data/legal/meta.json") .ENOENT)) :=
  ⟨exState_emptyRoot c6World, rfl, rfl⟩

/-- C6, amended. Registry consistency for an archive with a single top-level
directory named after the archive file.  Let the install root be initially
empty, `A` the first catalog result, `u` the URL its redirect answers, `n` the
last element of `u` without `.zip` (a plain name), and let every entry of the
archive behind `u` be named `n` or `n/...` with plain names.  If `Install`
returns `pkg` with a nil error, then `pkg` carries the descriptor `A`, `List`
succeeds and returns exactly `[pkg]`, and `GetJavaByID(A.ID)` returns `pkg`
with a nil error. -/
theorem Install_registry_consistent (W : World) (vm : VersionManager) (o : JavaInstallOptions)
    (s : State) (A : GetPackagesResponse) (rest : List GetPackagesResponse) (u : GoString)
    (es : List ZipEntry) (pkg : JavaPackage)
    (hempty : emptyRoot W vm s.fs)
    (hcat : (GetPackages W { o with ArchiveType := [ascii "zip"] } s).1 = .ok (A :: rest))
    (hred : W.redirect A.ID = .response u none)
    (hfetch : W.fetch u = .ok (.archive es))
    (hn : plainName (TrimSuffix (Base u) (ascii ".zip")))
    (hes : singleTopDir (TrimSuffix (Base u) (ascii ".zip")) es)
    (hok : (VersionManager.Install W vm o s).1 = .returned (some pkg) none) :
    pkg.PackageMetaInfo = some A ∧
      VersionManager.List W vm (VersionManager.Install W vm o s).2.fs = .ok [pkg] ∧
      VersionManager.GetJavaByID W vm A.ID (VersionManager.Install W vm o s).2.fs
        = .val (some pkg, none) := by
  have hA := GetPackages_ok W _ s _ hcat A (List.mem_cons_self _ _)
  rw [Install_cons W vm o s A rest hcat] at hok ⊢
  obtain ⟨u1, hu1, -, hfresh⟩ := installPackage_ok_inv W vm A _ pkg hok
  have hu : u1 = u := by
    rw [hred] at hu1
    simp only [HttpResult.response.injEq, and_true] at hu1
    exact hu1.symm
  subst hu
  rw [hfresh] at hok ⊢
  obtain ⟨hroot, hdirn, honly, hmeta, hne, hpkg⟩ :=
    installFresh_children W vm A _ u1
      ((s.log (.getPackages { o with ArchiveType := [ascii "zip"] })).log (.redirect A.ID))
      es pkg hempty hred hfetch hn hes hok
  have hl := List_single W vm _ _ A hempty.1 hroot hdirn honly hmeta hne hA
  rw [hpkg]
  exact ⟨rfl, hl, GetJavaByID_single W vm _ _ A hl⟩

/-- C6, witness: the example installation into the empty `/data`. -/
theorem Install_registry_consistent_witness :
    VersionManager.List exWorld exVM (VersionManager.Install exWorld exVM {} exState).2.fs =
        .ok [mkJavaPackage exWorld exVM (some exA) (ascii "zulu8")] ∧
      VersionManager.GetJavaByID exWorld exVM exA.ID
          (VersionManager.Install exWorld exVM {} exState).2.fs
        = .val (some (mkJavaPackage exWorld exVM (some exA) (ascii "zulu8")), none) :=
  (Install_registry_consistent exWorld exVM {} exState exA [exB]
    (ascii "https://cdn.example/zulu8.zip") exArchive
    (mkJavaPackage exWorld exVM (some exA) (ascii "zulu8"))
    (exState_emptyRoot exWorld) rfl rfl rfl (by decide) exArchive_singleTopDir rfl).2

/-- C7. Whatever the caller's filter holds in `ArchiveType`, `Install` sends
exactly one search, and its filter is the caller's with `ArchiveType` set to
`["zip"]` and every other field unchanged. -/
theorem Install_search_filter_forced_zip (W : World) (vm : VersionManager)
    (o : JavaInstallOptions) (s : State) :
    ∃ evs, (VersionManager.Install W vm o s).2.trace =
        s.trace ++ Event.getPackages { o with ArchiveType := [ascii "zip"] } :: evs ∧
      ∀ o1, Event.getPackages o1 ∉ evs := by
  obtain ⟨evs, h1, h2⟩ := Install_trace W vm o s
  refine ⟨evs, h1, fun o1 hm => ?_⟩
  obtain ⟨p0, rest, -, hp⟩ := h2 _ hm
  rcases hp with h | ⟨u, -, h⟩ <;> cases h

/-- C8. Selection is the head of the catalog's answer.  When the search returns
the empty list, `Install` returns the error `no packages found` and does nothing
but the search.  When it returns `A :: _`:

* the result is the same for every catalog whose answer starts with `A`;
* every request after the search is the redirect request for `A.ID` or the
  download of the URL it answered;
* a call that returns a package with a nil error got a URL `u` for `A.ID` and
  the body of `u`; the package has the descriptor `A`, the directory
  `DataDir/<name>` and the executable `DataDir/<name>/bin/java` (with `.exe` on
  Windows), where `<name>` is the base name of `u` without `.zip`; the requests
  of the call are the search, the redirect request for `A.ID` twice and the
  download of `u`, in this order; and `A` is recorded in the `meta.json` of the
  directory;
* a fresh installation succeeds whenever its steps do: if the redirect for
  `A.ID` answers `u`, no `meta.json` exists under the name of `u`, the download
  of `u` can be saved in the temporary directory, the archive extracts and the
  metadata can be saved, `Install` returns that package with a nil error and
  leaves the file system of the last step. -/
theorem Install_selects_first_candidate (W : World) (vm : VersionManager)
    (o : JavaInstallOptions) (s : State) (packages : List GetPackagesResponse)
    (h : (GetPackages W { o with ArchiveType := [ascii "zip"] } s).1 = .ok packages) :
    match packages with
    | [] =>
      VersionManager.Install W vm o s =
        (.returned none (some (.errorf "no packages found")),
          s.log (.getPackages { o with ArchiveType := [ascii "zip"] }))
    | A :: _ =>
      (∀ c rest, (GetPackages { W with catalog := c } { o with ArchiveType := [ascii "zip"] } s).1
            = .ok (A :: rest) →
          VersionManager.Install { W with catalog := c } vm o s = VersionManager.Install W vm o s) ∧
      (∃ evs, (VersionManager.Install W vm o s).2.trace =
            s.trace ++ Event.getPackages { o with ArchiveType := [ascii "zip"] } :: evs ∧
          ∀ e ∈ evs, packageEvent W A.ID e) ∧
      (∀ pkg, (VersionManager.Install W vm o s).1 = .returned (some pkg) none →
        ∃ u body, W.redirect A.ID = .response u none ∧ W.fetch u = .ok body ∧
          pkg.PackageMetaInfo = some A ∧
          pkg.JavaDir = Join [vm.DataDir, TrimSuffix (Base u) (ascii ".zip")] ∧
          pkg.JavaExecPath = Join [vm.DataDir, TrimSuffix (Base u) (ascii ".zip"), ascii "bin",
            addExeIfWindows W (ascii "java")] ∧
          (VersionManager.Install W vm o s).2.trace =
            s.trace ++ [.getPackages { o with ArchiveType := [ascii "zip"] },
              .redirect A.ID, .redirect A.ID, .download u] ∧
          (VersionManager.Install W vm o s).2.fs.get (resolve W.cwd
              (Join [vm.DataDir, TrimSuffix (Base u) (ascii ".zip"), ascii "meta.json"]))
            = some (.file (.blob (.json (encodeMeta A))))) ∧
      (∀ u e body fs1 fs2 fs3,
        W.redirect A.ID = .response u none →
        osStat W s.fs (Join [vm.DataDir, TrimSuffix (Base u) (ascii ".zip"), ascii "meta.json"])
          = .error e →
        IsNotExist e = true →
        W.fetch u = .ok body →
        osCreate W s.fs (Join [W.tmpDir, Base u]) = .ok fs1 →
        W.writeFault (resolve W.cwd (Join [W.tmpDir, Base u])) = false →
        unzip W (Join [W.tmpDir, Base u]) vm.DataDir
          (fs1.put (resolve W.cwd (Join [W.tmpDir, Base u])) (.file body)) = (none, fs2) →
        saveStructToJSONFile W A
          (Join [vm.DataDir, TrimSuffix (Base u) (ascii ".zip"), ascii "meta.json"]) fs2
          = (none, fs3) →
        VersionManager.Install W vm o s =
          (.returned (some
              { PackageMetaInfo := some A
                JavaDir := Join [vm.DataDir, TrimSuffix (Base u) (ascii ".zip")]
                JavaExecPath := Join [vm.DataDir, TrimSuffix (Base u) (ascii ".zip"), ascii "bin",
                  addExeIfWindows W (ascii "java")] }) none,
            { fs := fs3
              trace := s.trace ++ [.getPackages { o with ArchiveType := [ascii "zip"] },
                .redirect A.ID, .redirect A.ID, .download u] })) := by
  cases packages with
  | nil => exact Install_nil W vm o s h
  | cons A rest =>
    simp only
    refine ⟨fun c rest2 hc => ?_, ?_, fun pkg hp => ?_,
      fun u e body fs1 fs2 fs3 hu hst hne hf hc hw hz hs =>
        Install_fresh_run W vm o s A rest u e body fs1 fs2 fs3 h hu hst hne hf hc hw hz hs⟩
    · rw [Install_cons _ vm o s A rest2 hc, Install_cons W vm o s A rest h]
      exact installPackage_catalog W c vm A _
    · rw [Install_cons W vm o s A rest h]
      obtain ⟨evs, h1, h2⟩ := installPackage_trace W vm A
        (s.log (.getPackages { o with ArchiveType := [ascii "zip"] }))
      exact ⟨evs, by rw [h1]; simp, h2⟩
    · rw [Install_cons W vm o s A rest h] at hp ⊢
      obtain ⟨u, hu, -, hfresh⟩ := installPackage_ok_inv W vm A _ pkg hp
      rw [hfresh] at hp ⊢
      obtain ⟨-, hpkg, file, s1, fs2, hd, -, hsave, htr⟩ :=
        installFresh_ok_inv W vm A _ _ pkg none hp
      obtain ⟨u1, body, hu1, hf, -⟩ := DownloadJavaByID_ok W A.ID W.tmpDir file _ s1 hd
      obtain ⟨u2, hu2, ht2⟩ := DownloadJavaByID_ok_trace W A.ID W.tmpDir file _ s1 hd
      rw [hu] at hu1 hu2
      simp only [HttpResult.response.injEq, and_true] at hu1 hu2
      subst hu1
      subst hu2
      refine ⟨u, body, hu, hf, ?_, ?_, ?_, ?_, saveStructToJSONFile_get W A _ _ _ hsave⟩
      · rw [hpkg]; rfl
      · rw [hpkg]; rfl
      · rw [hpkg]; rfl
      · rw [htr, ht2]; simp [State.log]

/-- C8, witness: the example catalog answers `[exA, exB]`; the fresh
installation into the empty `/data` returns the package of `exA` in
`/data/zulu8` after the search, two redirect requests for the ID of `exA` and
the download of `https://cdn.example/zulu8.zip`; and a catalog that answers
nothing gives the error `no packages found`. -/
theorem Install_selects_first_candidate_witness :
    ((GetPackages exWorld { ({} : JavaInstallOptions) with ArchiveType := [ascii "zip"] } exState).1
        = .ok [exA, exB] ∧
      (VersionManager.Install exWorld exVM {} exState).1 =
        .returned (some
          { PackageMetaInfo := some exA
            JavaDir := ascii "/data/zulu8"
            JavaExecPath := ascii "/data/zulu8/bin/java" }) none ∧
      (VersionManager.Install exWorld exVM {} exState).2.trace =
        [.getPackages { ({} : JavaInstallOptions) with ArchiveType := [ascii "zip"] },
          .redirect exA.ID, .redirect exA.ID, .download (ascii "https://cdn.example/zulu8.zip")] ∧
      (VersionManager.Install exWorld exVM {} exState).2.fs.get
          [ascii "data", ascii "zulu8", ascii "meta.json"]
        = some (.file (.blob (.json (encodeMeta exA))))) ∧
    VersionManager.Install { exWorld with catalog := fun _ => .ok (.blob (.json (.obj []))) }
        exVM {} exState =
      (.returned none (some (.errorf "no packages found")),
        exState.log (.getPackages { ({} : JavaInstallOptions) with ArchiveType := [ascii "zip"] })) :=
  ⟨⟨rfl,
      congrArg Prod.fst
        ((Install_selects_first_candidate exWorld exVM {} exState [exA, exB] rfl).2.2.2
          (ascii "https://cdn.example/zulu8.zip")
          (.pathError "stat" (ascii "/data/zulu8/meta.json") .ENOENT)
          (.archive exArchive)
          (exState.fs.put [ascii "tmp", ascii "zulu8.zip"] (.file emptyFile))
          (unzip exWorld (ascii "/tmp/zulu8.zip") (ascii "/data")
            ((exState.fs.put [ascii "tmp", ascii "zulu8.zip"] (.file emptyFile)).put
              [ascii "tmp", ascii "zulu8.zip"] (.file (.archive exArchive)))).2
          (VersionManager.Install exWorld exVM {} exState).2.fs
          rfl rfl rfl rfl rfl rfl rfl rfl),
      rfl, rfl⟩,
    Install_selects_first_candidate { exWorld with catalog := fun _ => .ok (.blob (.json (.obj []))) }
      exVM {} exState [] rfl⟩

/-- C9, counterexample. The catalog request fails with the transport error
`timeout`; `GetPackages` returns that error, and `Install` returns a different
error value, one that wraps it under the text `failed to fetch packages`. -/
theorem Install_catalog_error_not_unchanged :
    (GetPackages c9World { ArchiveType := [ascii "zip"] } { fs := [], trace := [] }).1
        = .error (.transport "timeout") ∧
      (VersionManager.Install c9World { DataDir := ascii "/data" } {} { fs := [], trace := [] }).1
        = .returned none (some (.wrapf "failed to fetch packages" (.transport "timeout"))) ∧
      GoError.wrapf "failed to fetch packages" (.transport "timeout") ≠ .transport "timeout" := by
  refine ⟨rfl, rfl, by decide⟩

/-- C9, amended. When the catalog search fails with the error `e`, `Install`
returns no package and the error `fmt.Errorf("failed to fetch packages: %w", e)`:
a new value whose `Unwrap` is `e`. -/
theorem Install_catalog_error_wrapped (W : World) (vm : VersionManager)
    (o : JavaInstallOptions) (s : State) (e : GoError)
    (h : (GetPackages W { o with ArchiveType := [ascii "zip"] } s).1 = .error e) :
    (VersionManager.Install W vm o s).1 =
        .returned none (some (.wrapf "failed to fetch packages" e)) ∧
      (GoError.wrapf "failed to fetch packages" e).Unwrap = some e := by
  rw [Install_error W vm o s e h]
  exact ⟨rfl, rfl⟩

/-- C9, witness: the catalog request of `c9World` times out. -/
theorem Install_catalog_error_wrapped_witness :
    (GetPackages c9World { ({} : JavaInstallOptions) with ArchiveType := [ascii "zip"] }
        { fs := [], trace := [] }).1 = .error (.transport "timeout") ∧
      ((VersionManager.Install c9World { DataDir := ascii "/data" } {} { fs := [], trace := [] }).1 =
        .returned none (some (.wrapf "failed to fetch packages" (.transport "timeout"))) ∧
      (GoError.wrapf "failed to fetch packages" (.transport "timeout")).Unwrap
        = some (.transport "timeout")) :=
  ⟨rfl, Install_catalog_error_wrapped c9World { DataDir := ascii "/data" } {}
    { fs := [], trace := [] } (.transport "timeout") rfl⟩

/-- C10. `List` fails exactly when the root cannot be read or the `meta.json`
of some immediate subdirectory cannot be read and decoded.  Otherwise it returns
one package per immediate subdirectory, in the order of the directory listing
(strictly increasing names; the subdirectories are the names under the root at
which a directory is): the package of the subdirectory `n` has `JavaDir =
path.Join(DataDir, n)`, `JavaExecPath = path.Join(DataDir, n, "bin", java)` and
as descriptor what `readStructFromJSONFile` returns for
`path.Join(DataDir, n, "meta.json")`; other entries contribute nothing. -/
theorem List_exactly_subdirectories (W : World) (vm : VersionManager) (fs : FS) :
    (fs.childNames (resolve W.cwd vm.DataDir)).Pairwise strLT ∧
    (∀ n, n ∈ fs.childNames (resolve W.cwd vm.DataDir) ↔
      (fs.get (resolve W.cwd vm.DataDir ++ [n])).isSome = true) ∧
    ((subdirNames W fs vm.DataDir).Pairwise strLT ∧
      ∀ n, n ∈ subdirNames W fs vm.DataDir ↔
        isDir (fs.get (resolve W.cwd vm.DataDir ++ [n])) = true) ∧
    ((∃ e, VersionManager.List W vm fs = .error e) ↔
      (∃ e, osReadDir W fs vm.DataDir = .error e) ∨
      ∃ n, n ∈ subdirNames W fs vm.DataDir ∧
        ∃ e, readStructFromJSONFile W (Join [vm.DataDir, n, ascii "meta.json"]) fs = .error e) ∧
    (∀ javas, VersionManager.List W vm fs = .ok javas →
      javas.map (fun j => j.JavaDir) =
        (subdirNames W fs vm.DataDir).map (fun n => Join [vm.DataDir, n]) ∧
      javas.map (fun j => j.JavaExecPath) =
        (subdirNames W fs vm.DataDir).map
          (fun n => Join [vm.DataDir, n, ascii "bin", addExeIfWindows W (ascii "java")]) ∧
      (subdirNames W fs vm.DataDir).map
          (fun n => readStructFromJSONFile W (Join [vm.DataDir, n, ascii "meta.json"]) fs) =
        javas.map (fun j => .ok j.PackageMetaInfo)) := by
  refine ⟨childNames_sorted _ _, mem_childNames_iff _ _,
    ⟨subdirNames_sorted W fs _, mem_subdirNames_iff W fs _⟩, ?_, ?_⟩
  · unfold VersionManager.List
    cases hr : osReadDir W fs vm.DataDir with
    | error e =>
      simp only
      exact ⟨fun _ => Or.inl ⟨e, rfl⟩, fun _ => ⟨_, rfl⟩⟩
    | ok files =>
      simp only
      rw [listLoop_error, osReadDir_ok W fs _ files hr]
      simp only [mem_subdirNames]
      constructor
      · exact fun h => Or.inr h
      · rintro (⟨e, he⟩ | h)
        · cases he
        · exact h
  · intro javas h
    have hj := List_ok_eq W vm fs javas h
    have hr := List_ok_readable W vm fs javas h
    refine ⟨?_, ?_, ?_⟩
    · rw [hj, List.map_map]; rfl
    · rw [hj, List.map_map]; rfl
    · rw [hj, List.map_map]
      refine List.map_congr_left (fun n hn => ?_)
      obtain ⟨x, hx⟩ := hr n hn
      simp only [Function.comp, mkJavaPackage, metaOf, hx]

/-- C10, witness: after the example installation `List` returns one package,
with `JavaDir = /data/zulu8`, `JavaExecPath = /data/zulu8/bin/java` and the
descriptor read from `/data/zulu8/meta.json`. -/
theorem List_exactly_subdirectories_witness :
    VersionManager.List exWorld exVM (VersionManager.Install exWorld exVM {} exState).2.fs =
        .ok [{ PackageMetaInfo := some exA, JavaDir := ascii "/data/zulu8",
               JavaExecPath := ascii "/data/zulu8/bin/java" }] ∧
      subdirNames exWorld (VersionManager.Install exWorld exVM {} exState).2.fs exVM.DataDir =
        [ascii "zulu8"] ∧
      [ascii "/data/zulu8"] =
        (subdirNames exWorld (VersionManager.Install exWorld exVM {} exState).2.fs exVM.DataDir).map
          (fun n => Join [exVM.DataDir, n]) ∧
      (subdirNames exWorld (VersionManager.Install exWorld exVM {} exState).2.fs exVM.DataDir).map
          (fun n => readStructFromJSONFile exWorld (Join [exVM.DataDir, n, ascii "meta.json"])
            (VersionManager.Install exWorld exVM {} exState).2.fs) =
        [.ok (some exA)] :=
  ⟨rfl, by decide,
    ((List_exactly_subdirectories exWorld exVM
      (VersionManager.Install exWorld exVM {} exState).2.fs).2.2.2.2
        [{ PackageMetaInfo := some exA, JavaDir := ascii "/data/zulu8",
           JavaExecPath := ascii "/data/zulu8/bin/java" }] rfl).1,
    ((List_exactly_subdirectories exWorld exVM
      (VersionManager.Install exWorld exVM {} exState).2.fs).2.2.2.2
        [{ PackageMetaInfo := some exA, JavaDir := ascii "/data/zulu8",
           JavaExecPath := ascii "/data/zulu8/bin/java" }] rfl).2.2⟩

/-- C11, counterexample. On both roots `List` succeeds.  On the first, whose
only `meta.json` holds `null`, the listed package has a nil descriptor and `Use`
panics.  On the second the listed package has the distribution `graalvm` and
the major version 22, yet `Use("graalvm", 22)` answers `ErrJavaNotFound`: `Use`
compares the field `JDKVersion`, which is 17, and `Use("graalvm", 17)` returns
the package. -/
theorem Use_not_by_major_version :
    (VersionManager.List exWorld exVM c11Null =
        .ok [mkJavaPackage exWorld exVM none (ascii "a")] ∧
      VersionManager.Use exWorld exVM (ascii "zulu") 8 c11Null =
        .panic "invalid memory address or nil pointer dereference") ∧
    (VersionManager.List exWorld exVM c11Graal =
        .ok [mkJavaPackage exWorld exVM (some c11Meta) (ascii "g")] ∧
      c11Meta.Distribution = ascii "graalvm" ∧ c11Meta.MajorVersion = 22 ∧
      VersionManager.Use exWorld exVM (ascii "graalvm") 22 c11Graal =
        .val (none, some .ErrJavaNotFound) ∧
      VersionManager.Use exWorld exVM (ascii "graalvm") 17 c11Graal =
        .val (some (mkJavaPackage exWorld exVM (some c11Meta) (ascii "g")), none)) :=
  ⟨⟨rfl, rfl⟩, rfl, rfl, rfl, rfl, rfl⟩

/-- C11, amended. When `List` succeeds and every listed package has a
descriptor, the list is in the order of the directory names (strictly
increasing), `Use(d, v)` returns with a nil error the first listed package whose
descriptor has the distribution `d` and the JDK version `v`, and it returns
`ErrJavaNotFound` exactly when no listed package has both. -/
theorem Use_first_match (W : World) (vm : VersionManager) (fs : FS) (d : GoString) (v : Int)
    (javas : List JavaPackage) (hl : VersionManager.List W vm fs = .ok javas)
    (hm : ∀ j ∈ javas, j.PackageMetaInfo ≠ none) :
    javas = (subdirNames W fs vm.DataDir).map
        (fun n => mkJavaPackage W vm (metaOf W vm fs n) n) ∧
    (subdirNames W fs vm.DataDir).Pairwise strLT ∧
    VersionManager.Use W vm d v fs =
      (match javas.find? (descriptorMatches d v) with
       | some j => .val (some j, none)
       | none => .val (none, some .ErrJavaNotFound)) ∧
    (VersionManager.Use W vm d v fs = .val (none, some .ErrJavaNotFound) ↔
      ∀ j ∈ javas, descriptorMatches d v j = false) := by
  have hu : VersionManager.Use W vm d v fs =
      (match javas.find? (descriptorMatches d v) with
       | some j => .val (some j, none)
       | none => .val (none, some .ErrJavaNotFound)) := by
    simp only [VersionManager.Use, hl]
    exact useLoop_find d v javas hm
  refine ⟨List_ok_eq W vm fs javas hl, subdirNames_sorted W fs _, hu, ?_⟩
  rw [hu]
  cases hf : javas.find? (descriptorMatches d v) with
  | none =>
    simp only [true_iff]
    intro j hj
    have := List.find?_eq_none.1 hf j hj
    simpa using this
  | some j =>
    simp only
    constructor
    · intro h; cases h
    · intro h
      have h1 := List.find?_some hf
      have h2 := h j (List.mem_of_find?_eq_some hf)
      rw [h1] at h2; cases h2

/-- C11, witness: after the example installation `Use("zulu", 8)` returns the
package of `/data/zulu8`, and `Use("zulu", 11)` answers `ErrJavaNotFound`. -/
theorem Use_first_match_witness :
    VersionManager.Use exWorld exVM (ascii "zulu") 8
        (VersionManager.Install exWorld exVM {} exState).2.fs =
      .val (some (mkJavaPackage exWorld exVM (some exA) (ascii "zulu8")), none) ∧
    (VersionManager.Use exWorld exVM (ascii "zulu") 11
        (VersionManager.Install exWorld exVM {} exState).2.fs =
      .val (none, some .ErrJavaNotFound) ↔
      ∀ j ∈ [mkJavaPackage exWorld exVM (some exA) (ascii "zulu8")],
        descriptorMatches (ascii "zulu") 11 j = false) :=
  ⟨(Use_first_match exWorld exVM (VersionManager.Install exWorld exVM {} exState).2.fs
      (ascii "zulu") 8 [mkJavaPackage exWorld exVM (some exA) (ascii "zulu8")] rfl
      (by decide)).2.2.1,
    (Use_first_match exWorld exVM (VersionManager.Install exWorld exVM {} exState).2.fs
      (ascii "zulu") 11 [mkJavaPackage exWorld exVM (some exA) (ascii "zulu8")] rfl
      (by decide)).2.2.2⟩

/-- C12. When `Use(d, v)` finds a package, `UseOrInstall(d, v)` returns it with
a nil error and leaves the state as it is: no request is sent and the file
system does not change.  When `Use(d, v)` answers `ErrJavaNotFound`,
`UseOrInstall(d, v)` is the call of `Install` with the filter that holds `[d]`
as distribution, `v` as JDK version, `[runtime.GOOS]` as operating system and
`[runtime.GOARCH]` as architecture, every other field zero. -/
theorem UseOrInstall_use_or_install (W : World) (vm : VersionManager) (d : GoString) (v : Int)
    (s : State) :
    (∀ j, VersionManager.Use W vm d v s.fs = .val (some j, none) →
      VersionManager.UseOrInstall W vm d v s = (.returned (some j) none, s)) ∧
    (VersionManager.Use W vm d v s.fs = .val (none, some .ErrJavaNotFound) →
      VersionManager.UseOrInstall W vm d v s =
        VersionManager.Install W vm
          { Distribution := [d], JDKVersion := v, OperatingSystem := [W.goos],
            Architecture := [W.goarch] } s) := by
  constructor
  · intro j h
    simp only [VersionManager.UseOrInstall, h, errorsIs, GoError.Is]
    rfl
  · intro h
    simp only [VersionManager.UseOrInstall, h, errorsIs, GoError.Is, GetOS, GetArch]
    rfl

/-- C12, witness: on the empty root `Use("zulu", 8)` answers `ErrJavaNotFound`
and `UseOrInstall("zulu", 8)` is the installation with the host filter, which
returns the package of `/data/zulu8`; after it, `Use` finds that package and
`UseOrInstall` returns it without a change of the state. -/
theorem UseOrInstall_use_or_install_witness :
    (VersionManager.Use exWorld exVM (ascii "zulu") 8 exState.fs =
        .val (none, some .ErrJavaNotFound) ∧
      VersionManager.UseOrInstall exWorld exVM (ascii "zulu") 8 exState =
        VersionManager.Install exWorld exVM
          { Distribution := [ascii "zulu"], JDKVersion := 8, OperatingSystem := [ascii "linux"],
            Architecture := [ascii "amd64"] } exState ∧
      (VersionManager.UseOrInstall exWorld exVM (ascii "zulu") 8 exState).1 =
        .returned (some (mkJavaPackage exWorld exVM (some exA) (ascii "zulu8"))) none) ∧
    (VersionManager.Use exWorld exVM (ascii "zulu") 8
        (VersionManager.Install exWorld exVM {} exState).2.fs =
        .val (some (mkJavaPackage exWorld exVM (some exA) (ascii "zulu8")), none) ∧
      VersionManager.UseOrInstall exWorld exVM (ascii "zulu") 8
          (VersionManager.Install exWorld exVM {} exState).2 =
        (.returned (some (mkJavaPackage exWorld exVM (some exA) (ascii "zulu8"))) none,
          (VersionManager.Install exWorld exVM {} exState).2)) :=
  ⟨⟨rfl, (UseOrInstall_use_or_install exWorld exVM (ascii "zulu") 8 exState).2 rfl, rfl⟩,
    rfl, (UseOrInstall_use_or_install exWorld exVM (ascii "zulu") 8
      (VersionManager.Install exWorld exVM {} exState).2).1 _ rfl⟩

/-- C13, the defect. Whenever `List` fails with the error `e` (the root cannot
be read, or a subdirectory has no readable `meta.json`), `Use` returns `e`,
which is not `ErrJavaNotFound`, and `UseOrInstall` returns a nil package with a
nil error: its last line is `return java, nil`. -/
theorem UseOrInstall_drops_lookup_error (W : World) (vm : VersionManager) (d : GoString)
    (v : Int) (s : State) (e : GoError) (h : VersionManager.List W vm s.fs = .error e) :
    VersionManager.Use W vm d v s.fs = .val (none, some e) ∧ e ≠ .ErrJavaNotFound ∧
      VersionManager.UseOrInstall W vm d v s = (.returned none none, s) := by
  have hu : VersionManager.Use W vm d v s.fs = .val (none, some e) := by
    simp only [VersionManager.Use, h]
  have hn := List_err W vm s.fs e h
  refine ⟨hu, ?_, ?_⟩
  · rintro rfl
    simp [notNotFound, GoError.Is] at hn
  · have hn1 : e.Is .ErrJavaNotFound = false := hn
    simp only [VersionManager.UseOrInstall, hu, errorsIs, hn1]
    rfl

/-- C13, witness: the two failing inputs.  With no directory `/data`, and with
a subdirectory `/data/a` that has no `meta.json`, `UseOrInstall("zulu", 8)`
returns a nil package and a nil error. -/
theorem UseOrInstall_drops_lookup_error_witness :
    VersionManager.UseOrInstall exWorld exVM (ascii "zulu") 8 c13NoRoot =
        (.returned none none, c13NoRoot) ∧
      VersionManager.UseOrInstall exWorld exVM (ascii "zulu") 8 c13NoMeta =
        (.returned none none, c13NoMeta) :=
  ⟨(UseOrInstall_drops_lookup_error exWorld exVM (ascii "zulu") 8 c13NoRoot
      (.wrapf "failed to read directory" (.pathError "open" (ascii "/data") .ENOENT)) rfl).2.2,
    (UseOrInstall_drops_lookup_error exWorld exVM (ascii "zulu") 8 c13NoMeta
      (.wrapf "failed to read package metadata"
        (.pathError "open" (ascii "/data/a/meta.json") .ENOENT)) rfl).2.2⟩

/-- C14, counterexample. When the redirect ends at `https://cdn.example/.zip`
the directory name is empty and the package `Install` returns with a nil error
has `JavaDir = /data`, the install root itself; when it ends at
`https://cdn.example/...zip` the name is `..` and `JavaDir` is `/`, outside
the install root. -/
theorem Install_JavaDir_not_subdirectory :
    exVM.DataDir = ascii "/data" ∧
    (∃ j, (VersionManager.Install c14World exVM {} exState).1 = .returned (some j) none ∧
      j.JavaDir = ascii "/data") ∧
    (∃ j, (VersionManager.Install c14WorldUp exVM {} exState).1 = .returned (some j) none ∧
      j.JavaDir = ascii "/") :=
  ⟨rfl, ⟨_, rfl, by decide⟩, ⟨_, rfl, by decide⟩⟩

/-- C14, amended. A package `Install` returns, fresh or already installed,
has `JavaDir = path.Join(DataDir, n)`, where `n` is `path.Base(u)` without the
suffix `.zip` and `u` is the URL the redirect of the first candidate ended at;
when `n` is a plain name, `JavaDir` is the immediate child `n` of the install
root. -/
theorem Install_JavaDir (W : World) (vm : VersionManager) (o : JavaInstallOptions) (s : State)
    (j : JavaPackage) (e : Option GoError)
    (h : (VersionManager.Install W vm o s).1 = .returned (some j) e) :
    ∃ A rest u,
      (GetPackages W { o with ArchiveType := [ascii "zip"] } s).1 = .ok (A :: rest) ∧
      W.redirect A.ID = .response u none ∧
      j.JavaDir = Join [vm.DataDir, TrimSuffix (Base u) (ascii ".zip")] ∧
      (plainName (TrimSuffix (Base u) (ascii ".zip")) →
        resolve W.cwd j.JavaDir =
          resolve W.cwd vm.DataDir ++ [TrimSuffix (Base u) (ascii ".zip")]) := by
  obtain ⟨A, rest, hg, hi⟩ := Install_pkg_inv W vm o s j e h
  rw [hi] at h
  obtain ⟨u, meta, hu, hj, -⟩ := installPackage_pkg_inv W vm A _ j e h
  refine ⟨A, rest, u, hg, hu, by rw [hj]; rfl, fun hn => ?_⟩
  rw [hj]
  exact resolve_Join_child W.cwd vm.DataDir _ hn

/-- C14, witness: the example installation; the redirect ends at
`https://cdn.example/zulu8.zip` and `JavaDir` is `/data/zulu8`. -/
theorem Install_JavaDir_witness :
    ∃ A rest u,
      (GetPackages exWorld { ({} : JavaInstallOptions) with ArchiveType := [ascii "zip"] }
        exState).1 = .ok (A :: rest) ∧
      exWorld.redirect A.ID = .response u none ∧
      (mkJavaPackage exWorld exVM (some exA) (ascii "zulu8")).JavaDir =
        Join [exVM.DataDir, TrimSuffix (Base u) (ascii ".zip")] ∧
      (plainName (TrimSuffix (Base u) (ascii ".zip")) →
        resolve exWorld.cwd (mkJavaPackage exWorld exVM (some exA) (ascii "zulu8")).JavaDir =
          resolve exWorld.cwd exVM.DataDir ++ [TrimSuffix (Base u) (ascii ".zip")]) :=
  Install_JavaDir exWorld exVM {} exState _ none rfl

/-- C16, the defect. When the redirect request of `id` gets no response,
`GetPackageRedirect` panics on `resp.Request` (a nil pointer) instead of
returning the error, and so do `GetFilename` and `DownloadJavaByID`; `Install`
panics whenever the first candidate of the catalog has this `id`. -/
theorem GetPackageRedirect_panics_without_response (W : World) (id : GoString) (s : State)
    (e : GoError) (h : W.redirect id = .noResponse e) :
    (GetPackageRedirect W id s).1 = .panic "invalid memory address or nil pointer dereference" ∧
    (GetFilename W id s).1 = .panic "invalid memory address or nil pointer dereference" ∧
    (∀ dst, (DownloadJavaByID W id dst s).1 =
      .panic "invalid memory address or nil pointer dereference") ∧
    (∀ vm o A rest,
      (GetPackages W { o with ArchiveType := [ascii "zip"] } s).1 = .ok (A :: rest) → A.ID = id →
      (VersionManager.Install W vm o s).1 =
        .panicked "invalid memory address or nil pointer dereference") := by
  refine ⟨?_, ?_, ?_, ?_⟩
  · simp only [GetPackageRedirect, h]
  · simp only [GetFilename, GetPackageRedirect, h]
  · intro dst
    simp only [DownloadJavaByID, GetPackageRedirect, h]
  · intro vm o A rest hg hA
    subst hA
    rw [Install_cons W vm o s A rest hg]
    simp only [installPackage, GetFilename, GetPackageRedirect, h]

/-- C16, witness: with no response to the redirect request, the four calls
panic in the example setting. -/
theorem GetPackageRedirect_panics_without_response_witness :
    (GetPackageRedirect c16World exA.ID exState).1 =
        .panic "invalid memory address or nil pointer dereference" ∧
    (GetFilename c16World exA.ID exState).1 =
        .panic "invalid memory address or nil pointer dereference" ∧
    (DownloadJavaByID c16World exA.ID (ascii "/tmp") exState).1 =
        .panic "invalid memory address or nil pointer dereference" ∧
    (VersionManager.Install c16World exVM {} exState).1 =
        .panicked "invalid memory address or nil pointer dereference" :=
  ⟨(GetPackageRedirect_panics_without_response c16World exA.ID exState _ rfl).1,
    (GetPackageRedirect_panics_without_response c16World exA.ID exState _ rfl).2.1,
    (GetPackageRedirect_panics_without_response c16World exA.ID exState _ rfl).2.2.1 _,
    (GetPackageRedirect_panics_without_response c16World exA.ID exState _ rfl).2.2.2
      exVM {} exA [exB] rfl rfl⟩

/-- C17, the defect. When `DownloadJavaByID(id, dst)` succeeds, the name of the
returned file is `path.Join(dst, path.Base(u))`, the whole path that was given
to `os.Create`, and the downloaded file is at that path; for an absolute `dst`
other than the root, `path.Join(dst, file.Name())` names another path, `dst`
followed by the path of the file. -/
theorem DownloadJavaByID_returns_full_path (W : World) (id dst file : GoString) (s s1 : State)
    (h : DownloadJavaByID W id dst s = (.val (some file, none), s1)) :
    ∃ u body, W.redirect id = .response u none ∧ W.fetch u = .ok body ∧
      file = Join [dst, Base u] ∧
      s1.fs.get (resolve W.cwd file) = some (.file body) ∧
      (dst.head? = some 47 →
        resolve W.cwd (Join [dst, file]) = resolve W.cwd dst ++ resolve W.cwd file ∧
        (resolve W.cwd dst ≠ [] → resolve W.cwd (Join [dst, file]) ≠ resolve W.cwd file)) := by
  obtain ⟨u, body, hu, hb, hf, -, hg⟩ := DownloadJavaByID_ok W id dst file s s1 h
  refine ⟨u, body, hu, hb, hf, hg, fun ha => ?_⟩
  have h2 : resolve W.cwd (Join [dst, file]) = resolve W.cwd dst ++ resolve W.cwd file := by
    rw [hf]; exact resolve_Join_twice W.cwd dst (Base u) ha
  refine ⟨h2, fun hne heq => ?_⟩
  rw [h2] at heq
  have := congrArg List.length heq
  simp only [List.length_append] at this
  have hpos : 0 < (resolve W.cwd dst).length := List.length_pos.2 hne
  omega

/-- C17, witness: the failing input.  `DownloadJavaByID(id, "/tmp")` returns the
file named `/tmp/zulu8.zip`, where the archive is; `path.Join("/tmp",
file.Name())` is `/tmp/tmp/zulu8.zip`, where nothing exists. -/
theorem DownloadJavaByID_returns_full_path_witness :
    (DownloadJavaByID exWorld exA.ID (ascii "/tmp") exState).1 =
        .val (some (ascii "/tmp/zulu8.zip"), none) ∧
    Join [ascii "/tmp", ascii "/tmp/zulu8.zip"] = ascii "/tmp/tmp/zulu8.zip" ∧
    isFile ((DownloadJavaByID exWorld exA.ID (ascii "/tmp") exState).2.fs.get
        (resolve exWorld.cwd (ascii "/tmp/zulu8.zip"))) = true ∧
    (DownloadJavaByID exWorld exA.ID (ascii "/tmp") exState).2.fs.get
        (resolve exWorld.cwd (ascii "/tmp/tmp/zulu8.zip")) = none ∧
    (∃ u body, exWorld.redirect exA.ID = .response u none ∧ exWorld.fetch u = .ok body ∧
      ascii "/tmp/zulu8.zip" = Join [ascii "/tmp", Base u] ∧
      (DownloadJavaByID exWorld exA.ID (ascii "/tmp") exState).2.fs.get
        (resolve exWorld.cwd (ascii "/tmp/zulu8.zip")) = some (.file body) ∧
      ((ascii "/tmp").head? = some 47 →
        resolve exWorld.cwd (Join [ascii "/tmp", ascii "/tmp/zulu8.zip"]) =
          resolve exWorld.cwd (ascii "/tmp") ++ resolve exWorld.cwd (ascii "/tmp/zulu8.zip") ∧
        (resolve exWorld.cwd (ascii "/tmp") ≠ [] →
          resolve exWorld.cwd (Join [ascii "/tmp", ascii "/tmp/zulu8.zip"]) ≠
            resolve exWorld.cwd (ascii "/tmp/zulu8.zip")))) :=
  ⟨rfl, by decide, rfl, rfl,
    DownloadJavaByID_returns_full_path exWorld exA.ID (ascii "/tmp") (ascii "/tmp/zulu8.zip")
      exState _ rfl⟩

/-- C15. The query of a search holds, for each field of the filter, one
parameter under the name of the field's tag when the field is not zero, and
none when it is: a string field is sent as it is unless it is empty, a list
field as its elements joined by commas in order unless the list is empty, an
integer field as its decimal text unless it is 0, a boolean field as `true`
unless it is false.  The query holds nothing under any other name and no name
twice.  The decimal text of `n` is a `-` when `n` is negative, then the digits
of its absolute value without a leading zero. -/
theorem query_parameters (o : GetPackagesOptions) :
    (∀ p ∈ [(ascii "version", o.Version), (ascii "version_by_definition", o.VersionByDefinition),
        (ascii "package_type", o.PackageType), (ascii "latest", o.Latest),
        (ascii "tck_tested", o.TCKTested), (ascii "aqavit_certified", o.AqavitCertified),
        (ascii "match", o.Match)],
      (queryValues (structToMap o)).lookup p.1 = if p.2 = [] then none else some p.2) ∧
    (∀ p ∈ [(ascii "distro", o.Distro), (ascii "distribution", o.Distribution),
        (ascii "architecture", o.Architecture), (ascii "archive_type", o.ArchiveType),
        (ascii "operating_system", o.OperatingSystem),
        (ascii "operating_status", o.OperatingStatus), (ascii "libc_type", o.LibcType),
        (ascii "lib_c_type", o.LibCType), (ascii "release_status", o.ReleaseStatus),
        (ascii "term_of_support", o.TermOfSupport), (ascii "fpu", o.FPU),
        (ascii "feature", o.Feature), (ascii "discovery_scope_id", o.DiscoveryScopeId)],
      (queryValues (structToMap o)).lookup p.1 =
        if p.2 = [] then none else some (List.intercalate [44] p.2)) ∧
    (∀ p ∈ [(ascii "jdk_version", o.JDKVersion), (ascii "bitness", o.Bitness)],
      (queryValues (structToMap o)).lookup p.1 =
        if p.2 = 0 then none else some (formatInt p.2)) ∧
    (∀ p ∈ [(ascii "javafx_bundled", o.JavaFXBundled),
        (ascii "with_javafx_available", o.WithJavaFXAvailable),
        (ascii "directly_downloadable", o.DirectlyDownloadable),
        (ascii "signature_available", o.SignatureAvailable),
        (ascii "free_to_use_in_production", o.FreeToUseInProduction)],
      (queryValues (structToMap o)).lookup p.1 = if p.2 = true then some (ascii "true") else none) ∧
    (∀ name, name ∉ [ascii "version", ascii "version_by_definition", ascii "jdk_version",
        ascii "distro", ascii "distribution", ascii "architecture", ascii "archive_type",
        ascii "operating_system", ascii "package_type", ascii "operating_status",
        ascii "libc_type", ascii "lib_c_type", ascii "release_status", ascii "term_of_support",
        ascii "bitness", ascii "fpu", ascii "javafx_bundled", ascii "with_javafx_available",
        ascii "directly_downloadable", ascii "latest", ascii "feature",
        ascii "signature_available", ascii "free_to_use_in_production", ascii "tck_tested",
        ascii "aqavit_certified", ascii "discovery_scope_id", ascii "match"] →
      (queryValues (structToMap o)).lookup name = none) ∧
    ((queryValues (structToMap o)).map Prod.fst).Nodup ∧
    (∀ n : Int, ∃ ds : List Nat, ds ≠ [] ∧ (∀ d ∈ ds, d < 10) ∧ (ds.head? = some 0 → ds = [0]) ∧
      Nat.ofDigits 10 ds.reverse = n.natAbs ∧
      formatInt n = (if n < 0 then [45] else []) ++ ds.map (· + 48)) := by
  refine ⟨?_, ?_, ?_, ?_, ?_, ?_, ?_⟩
  · intro p hp
    simp only [List.mem_cons, List.mem_singleton, List.not_mem_nil, or_false] at hp
    rcases hp with rfl | rfl | rfl | rfl | rfl | rfl | rfl <;>
    · exact lookup_str o _ _ (by simp [fieldsOf])
  · intro p hp
    simp only [List.mem_cons, List.mem_singleton, List.not_mem_nil, or_false] at hp
    rcases hp with rfl | rfl | rfl | rfl | rfl | rfl | rfl | rfl | rfl | rfl | rfl | rfl | rfl <;>
    · exact lookup_strs o _ _ (by simp [fieldsOf])
  · intro p hp
    simp only [List.mem_cons, List.mem_singleton, List.not_mem_nil, or_false] at hp
    rcases hp with rfl | rfl <;>
    · exact lookup_int o _ _ (by simp [fieldsOf])
  · intro p hp
    simp only [List.mem_cons, List.mem_singleton, List.not_mem_nil, or_false] at hp
    rcases hp with rfl | rfl | rfl | rfl | rfl <;>
    · exact lookup_bool o _ _ (by simp [fieldsOf])
  · intro name hn
    cases hl : (queryValues (structToMap o)).lookup name with
    | none => rfl
    | some x =>
      exfalso
      apply hn
      have hmem : name ∈ (queryValues (structToMap o)).map Prod.fst :=
        key_mem_of_lookup name x _ hl
      unfold queryValues structToMap at hmem
      rw [List.map_map] at hmem
      have h2 := (List.filter_sublist _).map Prod.fst |>.subset hmem
      rw [fieldsOf_names] at h2
      exact h2
  · unfold queryValues structToMap
    rw [List.map_map]
    exact ((List.filter_sublist _).map Prod.fst).nodup (fieldsOf_nodup o)
  · intro n
    obtain ⟨ds, h1, h2, h3, h4, h5⟩ := formatNat_spec n.natAbs
    refine ⟨ds, h1, h2, h3, h4, ?_⟩
    unfold formatInt
    by_cases hn : n < 0 <;> simp [hn, h5]

/-- C15, witness: the query of the search `Install` sends for the filter with
JDK version 8, distribution `zulu` and the operating systems `linux` and
`windows` holds four parameters; `version`, empty in the filter, and
`javafx_bundled`, false in the filter, are absent. -/
theorem query_parameters_witness :
    queryValues (structToMap
      { JDKVersion := 8, Distribution := [ascii "zulu"], ArchiveType := [ascii "zip"],
        OperatingSystem := [ascii "linux", ascii "windows"] }) =
      [(ascii "jdk_version", ascii "8"), (ascii "distribution", ascii "zulu"),
       (ascii "archive_type", ascii "zip"), (ascii "operating_system", ascii "linux,windows")] ∧
    (queryValues (structToMap
      { JDKVersion := 8, Distribution := [ascii "zulu"], ArchiveType := [ascii "zip"],
        OperatingSystem := [ascii "linux", ascii "windows"] })).lookup (ascii "operating_system") =
      some (List.intercalate [44] [ascii "linux", ascii "windows"]) ∧
    (queryValues (structToMap
      { JDKVersion := 8, Distribution := [ascii "zulu"], ArchiveType := [ascii "zip"],
        OperatingSystem := [ascii "linux", ascii "windows"] })).lookup (ascii "version") = none ∧
    (queryValues (structToMap
      { JDKVersion := 8, Distribution := [ascii "zulu"], ArchiveType := [ascii "zip"],
        OperatingSystem := [ascii "linux", ascii "windows"] })).lookup (ascii "jdk_version") =
      some (formatInt 8) ∧
    (queryValues (structToMap
      { JDKVersion := 8, Distribution := [ascii "zulu"], ArchiveType := [ascii "zip"],
        OperatingSystem := [ascii "linux", ascii "windows"] })).lookup (ascii "javafx_bundled") =
      none :=
  ⟨by decide,
    (query_parameters _).2.1 (ascii "operating_system", [ascii "linux", ascii "windows"])
      (by decide),
    (query_parameters _).1 (ascii "version", []) (by decide),
    (query_parameters _).2.2.1 (ascii "jdk_version", 8) (by decide),
    (query_parameters _).2.2.2.1 (ascii "javafx_bundled", false) (by decide)⟩

/-- C18. A package `Install` returns comes with a nil error or with
`ErrPackageAlreadyInstalled`; for such a package, and for every package `List`
returns, at the return a regular file is at `path.Join(JavaDir, "meta.json")`
and `readStructFromJSONFile` of that path succeeds with the descriptor pointer
the package embeds (a nil pointer only when the file holds `null`). -/
theorem InstalledPackage_metadata (W : World) (vm : VersionManager) :
    (∀ o s j e, (VersionManager.Install W vm o s).1 = .returned (some j) e →
      (e = none ∨ e = some .ErrPackageAlreadyInstalled) ∧
      isFile ((VersionManager.Install W vm o s).2.fs.get
        (resolve W.cwd (Join [j.JavaDir, ascii "meta.json"]))) = true ∧
      readStructFromJSONFile W (Join [j.JavaDir, ascii "meta.json"])
        (VersionManager.Install W vm o s).2.fs = .ok j.PackageMetaInfo) ∧
    (∀ fs javas, VersionManager.List W vm fs = .ok javas → ∀ j ∈ javas,
      isFile (fs.get (resolve W.cwd (Join [j.JavaDir, ascii "meta.json"]))) = true ∧
      readStructFromJSONFile W (Join [j.JavaDir, ascii "meta.json"]) fs
        = .ok j.PackageMetaInfo) := by
  constructor
  · intro o s j e h
    obtain ⟨A, rest, hg, hi⟩ := Install_pkg_inv W vm o s j e h
    have hA : metaOK A = true := GetPackages_ok W _ s _ hg A (List.mem_cons_self _ _)
    rw [hi] at h ⊢
    obtain ⟨u, meta, hu, hj, hc⟩ := installPackage_pkg_inv W vm A _ j e h
    have hjd : j.JavaDir = Join [vm.DataDir, TrimSuffix (Base u) (ascii ".zip")] := by
      rw [hj]; rfl
    have hjm : j.PackageMetaInfo = meta := by rw [hj]; rfl
    have hne := Join_pair_ne_nil j.JavaDir (ascii "meta.json") meta_ne_nil
    have hres : resolve W.cwd (Join [j.JavaDir, ascii "meta.json"]) =
        resolve W.cwd (Join [vm.DataDir, TrimSuffix (Base u) (ascii ".zip"), ascii "meta.json"]) := by
      rw [hjd]; exact resolve_Join_assoc W.cwd _ _ _ meta_ne_nil
    rcases hc with ⟨he, hm, hf⟩ | ⟨he, hst, -, hrd⟩
    · refine ⟨Or.inl he, ?_⟩
      rw [hf] at h ⊢
      obtain ⟨-, -, file, s1, fs2, -, -, hsv, -⟩ := installFresh_ok_inv W vm A _ _ j e h
      have hget := saveStructToJSONFile_get W A _ fs2 _ hsv
      rw [← hres] at hget
      refine ⟨by rw [hget]; rfl, ?_⟩
      rw [readStructFromJSONFile_json W _ _ _ hne hget, decodeMetaPtr_encodeMeta A hA, hjm, hm]
    · refine ⟨Or.inr he, ?_⟩
      rw [hst, State.log_fs, State.log_fs, hjm]
      simp only [State.log_fs] at hrd
      exact readStructFromJSONFile_transfer W _ _ _ meta hrd hne hres
  · intro fs javas hl j hj
    obtain ⟨n, -, hjn, hrd⟩ := List_mem W vm fs javas hl j hj
    have hjd : j.JavaDir = Join [vm.DataDir, n] := by rw [hjn]; rfl
    have hne := Join_pair_ne_nil j.JavaDir (ascii "meta.json") meta_ne_nil
    have hres : resolve W.cwd (Join [j.JavaDir, ascii "meta.json"]) =
        resolve W.cwd (Join [vm.DataDir, n, ascii "meta.json"]) := by
      rw [hjd]; exact resolve_Join_assoc W.cwd _ _ _ meta_ne_nil
    exact readStructFromJSONFile_transfer W _ _ _ _ hrd hne hres

/-- C18, witness: the example installation, the second call that finds the
package installed, and the listing after it. -/
theorem InstalledPackage_metadata_witness :
    (readStructFromJSONFile exWorld (ascii "/data/zulu8/meta.json")
        (VersionManager.Install exWorld exVM {} exState).2.fs = .ok (some exA)) ∧
    (readStructFromJSONFile exWorld (ascii "/data/zulu8/meta.json")
        (VersionManager.Install exWorld exVM {}
          (VersionManager.Install exWorld exVM {} exState).2).2.fs = .ok (some exA)) ∧
    (isFile ((VersionManager.Install exWorld exVM {} exState).2.fs.get
        (resolve exWorld.cwd (ascii "/data/zulu8/meta.json"))) = true ∧
      readStructFromJSONFile exWorld (ascii "/data/zulu8/meta.json")
        (VersionManager.Install exWorld exVM {} exState).2.fs = .ok (some exA)) :=
  ⟨((InstalledPackage_metadata exWorld exVM).1 {} exState
      (mkJavaPackage exWorld exVM (some exA) (ascii "zulu8")) none rfl).2.2,
    ((InstalledPackage_metadata exWorld exVM).1 {}
      (VersionManager.Install exWorld exVM {} exState).2
      (mkJavaPackage exWorld exVM (some exA) (ascii "zulu8"))
      (some .ErrPackageAlreadyInstalled) rfl).2.2,
    (InstalledPackage_metadata exWorld exVM).2
      (VersionManager.Install exWorld exVM {} exState).2.fs
      [mkJavaPackage exWorld exVM (some exA) (ascii "zulu8")] rfl
      (mkJavaPackage exWorld exVM (some exA) (ascii "zulu8")) (List.mem_singleton.2 rfl)⟩

/-- C19, the defect. The check is the guard against entries that leave the
destination (`// Check for ZipSlip (Directory traversal)`), and it is not exact.
For the destination `..` it accepts the entry `../x`, whose joined path
`../../x` is not a descendant of `..`: with the working directory `/a/b` the
destination is `/a` and the file is written at `/x`, outside it, and
`unzip("a.zip", "..")` of the archive with that single entry returns a nil
error after writing `/x`.  For the
destinations `/`, `.` and the empty string it rejects the plain entry name
`a/b`, although the joined path is a strict descendant of the cleaned
destination, and `extractAndWriteFile` answers `illegal file path`. -/
theorem zip_slip_check_not_exact :
    (HasPrefix (Join [ascii "/", ascii "a/b"]) (Clean (ascii "/") ++ [47]) = false ∧
      strictDescendant (Join [ascii "/", ascii "a/b"]) (Clean (ascii "/")) ∧
      extractAndWriteFile exWorld (ascii "/") { Name := ascii "a/b", body := .bytes [104, 105] }
        c19FS = (some (.errorfs "illegal file path" (ascii "/a/b")), c19FS)) ∧
    (HasPrefix (Join [ascii ".", ascii "a/b"]) (Clean (ascii ".") ++ [47]) = false ∧
      strictDescendant (Join [ascii ".", ascii "a/b"]) (Clean (ascii "."))) ∧
    (HasPrefix (Join [[], ascii "a/b"]) (Clean [] ++ [47]) = false ∧
      strictDescendant (Join [[], ascii "a/b"]) (Clean [])) ∧
    (HasPrefix (Join [ascii "..", ascii "../x"]) (Clean (ascii "..") ++ [47]) = true ∧
      ¬ strictDescendant (Join [ascii "..", ascii "../x"]) (Clean (ascii "..")) ∧
      resolve c19World.cwd (ascii "..") = [ascii "a"] ∧
      (extractAndWriteFile c19World (ascii "..")
        { Name := ascii "../x", body := .bytes [104, 105] } c19FS).1 = none ∧
      isFile ((extractAndWriteFile c19World (ascii "..")
        { Name := ascii "../x", body := .bytes [104, 105] } c19FS).2.get [ascii "x"]) = true ∧
      c19FS.get [ascii "x"] = none ∧
      unzip c19World (ascii "a.zip") (ascii "..")
          (c19FS.put [ascii "a", ascii "b", ascii "a.zip"]
            (.file (.archive [{ Name := ascii "../x", body := .bytes [104, 105] }]))) =
        (none, ((c19FS.put [ascii "a", ascii "b", ascii "a.zip"]
            (.file (.archive [{ Name := ascii "../x", body := .bytes [104, 105] }]))).put
          [ascii "x"] (.file emptyFile)).put [ascii "x"] (.file (.blob (.bytes [104, 105]))))) := by
  refine ⟨⟨by decide, ⟨by decide, [ascii "a", ascii "b"], by decide, by decide, by decide⟩, rfl⟩,
    ⟨by decide, ⟨by decide, [ascii "a", ascii "b"], by decide, by decide, by decide⟩⟩,
    ⟨by decide, ⟨by decide, [ascii "a", ascii "b"], by decide, by decide, by decide⟩⟩,
    by decide, ?_, by decide, by decide, by decide, rfl, rfl⟩
  rintro ⟨-, R, -, hR, heq⟩
  have h1 : cleanElems (Join [ascii "..", ascii "../x"]) = [ascii "..", ascii "..", ascii "x"] := by
    decide
  have h2 : cleanElems (Clean (ascii "..")) = [ascii ".."] := by decide
  rw [h1, h2] at heq
  simp only [List.singleton_append, List.cons.injEq, true_and] at heq
  subst heq
  exact absurd (hR (ascii "..") (List.mem_cons_self _ _)) (by decide)

/-- Where the check of `extractAndWriteFile` is exact.  For a destination whose
cleaned form ends in a plain name (so not `/`, `.`, the empty string or a chain
of `..`), absolute or relative, the check accepts the entry name `n` exactly
when `filepath.Join(dest, n)` is lexically a strict descendant of
`filepath.Clean(dest)`; and an entry that can be opened is answered
`illegal file path` exactly when it is not. -/
theorem zip_slip_check_exact (dest n l : GoString)
    (hl : (cleanElems dest).getLast? = some l) (hp : plainName l) :
    (HasPrefix (Join [dest, n]) (Clean dest ++ [47]) = true ↔
      strictDescendant (Join [dest, n]) (Clean dest)) ∧
    (∀ (W : World) (f : ZipEntry) (fs : FS), f.Name = n → f.openFails = false →
      ((extractAndWriteFile W dest f fs).1 =
          some (.errorfs "illegal file path" (Join [dest, n])) ↔
        ¬ strictDescendant (Join [dest, n]) (Clean dest))) := by
  have hiff : HasPrefix (Join [dest, n]) (Clean dest ++ [47]) = true ↔
      strictDescendant (Join [dest, n]) (Clean dest) := by
    obtain ⟨T, hT, hD, hh, hiff⟩ := check_iff_extends dest n l hl hp
    unfold strictDescendant
    rw [hT, hD, hiff]
    exact ⟨fun h => ⟨hh, h⟩, fun h => h.2⟩
  refine ⟨hiff, ?_⟩
  intro W f fs hn ho
  subst hn
  rw [← hiff]
  constructor
  · intro h hc
    exact extract_accepted W dest f fs _ _ ho hc h
  · intro hc
    have hc1 : HasPrefix (Join [dest, f.Name]) (Clean dest ++ [47]) = false := by
      simpa using hc
    simp [extractAndWriteFile, ho, hc1]

/-- The exact check at the destination `data` (relative) and the destination
`/data`, with the entry `zulu8/bin/java`, which is accepted, and the entry
`../evil`, which is rejected. -/
theorem zip_slip_check_exact_witness :
    (HasPrefix (Join [ascii "data", ascii "zulu8/bin/java"]) (Clean (ascii "data") ++ [47]) = true ↔
      strictDescendant (Join [ascii "data", ascii "zulu8/bin/java"]) (Clean (ascii "data"))) ∧
    HasPrefix (Join [ascii "data", ascii "zulu8/bin/java"]) (Clean (ascii "data") ++ [47]) = true ∧
    (HasPrefix (Join [ascii "/data", ascii "../evil"]) (Clean (ascii "/data") ++ [47]) = true ↔
      strictDescendant (Join [ascii "/data", ascii "../evil"]) (Clean (ascii "/data"))) ∧
    HasPrefix (Join [ascii "/data", ascii "../evil"]) (Clean (ascii "/data") ++ [47]) = false :=
  ⟨(zip_slip_check_exact (ascii "data") (ascii "zulu8/bin/java") (ascii "data")
      (by decide) (by decide)).1, by decide,
    (zip_slip_check_exact (ascii "/data") (ascii "../evil") (ascii "data")
      (by decide) (by decide)).1, by decide⟩

/-- C20, counterexample. The root `/data` is empty, so `List` succeeds.  With
an archive whose top-level directory is `jdk8u372` while the archive file is
`zulu8.zip`, `Install` extracts `/data/jdk8u372`, fails to create
`/data/zulu8/meta.json` and returns that failure; `/data/jdk8u372` is then a
subdirectory without `meta.json` and `List` fails.  With an archive that holds a
second top-level directory, `legal`, `Install` returns a nil error and `List`
fails afterwards on `/data/legal`.  With an archive that holds the directory
`zulu8/` and then the entry `../../evil`, the extraction fails on the second
entry, `Install` returns `failed to unzip package`, and `List` fails afterwards
on `/data/zulu8`, which has no `meta.json`. -/
theorem Install_breaks_registry :
    (VersionManager.List c20World exVM exState.fs = .ok [] ∧
      (VersionManager.Install c20World exVM {} exState).1 =
        .returned none (some (.wrapf "failed to save package metadata"
          (.pathError "open" (ascii "/data/zulu8/meta.json") .ENOENT))) ∧
      isDir ((VersionManager.Install c20World exVM {} exState).2.fs.get
        [ascii "data", ascii "jdk8u372"]) = true ∧
      (VersionManager.Install c20World exVM {} exState).2.fs.get
        [ascii "data", ascii "jdk8u372", ascii "meta.json"] = none ∧
      VersionManager.List c20World exVM (VersionManager.Install c20World exVM {} exState).2.fs =
        .error (.wrapf "failed to read package metadata"
          (.pathError "open" (ascii "/data/jdk8u372/meta.json") .ENOENT))) ∧
    (VersionManager.List c6World exVM exState.fs = .ok [] ∧
      (∃ j, (VersionManager.Install c6World exVM {} exState).1 = .returned (some j) none) ∧
      ∃ e, VersionManager.List c6World exVM (VersionManager.Install c6World exVM {} exState).2.fs =
        .error e) ∧
    (VersionManager.List
        { exWorld with fetch := fun _ => .ok (.archive
          [{ Name := ascii "zulu8/" }, { Name := ascii "../../evil" }]) } exVM exState.fs = .ok [] ∧
      (VersionManager.Install
        { exWorld with fetch := fun _ => .ok (.archive
          [{ Name := ascii "zulu8/" }, { Name := ascii "../../evil" }]) } exVM {} exState).1 =
        .returned none (some (.wrapf "failed to unzip package"
          (.errorfs "illegal file path" (ascii "/evil")))) ∧
      VersionManager.List
        { exWorld with fetch := fun _ => .ok (.archive
          [{ Name := ascii "zulu8/" }, { Name := ascii "../../evil" }]) } exVM
        (VersionManager.Install
          { exWorld with fetch := fun _ => .ok (.archive
            [{ Name := ascii "zulu8/" }, { Name := ascii "../../evil" }]) } exVM {} exState).2.fs =
        .error (.wrapf "failed to read package metadata"
          (.pathError "open" (ascii "/data/zulu8/meta.json") .ENOENT))) :=
  ⟨⟨rfl, rfl, rfl, rfl, rfl⟩, ⟨rfl, ⟨_, rfl⟩, ⟨_, rfl⟩⟩, rfl, rfl, rfl⟩

/-- C20, amended. Let `List` succeed before the call.

* When `Install` returns `ErrPackageAlreadyInstalled`, or any error other than
  those of the download, the extraction and the metadata write, the file
  system is as before and `List` returns what it returned before.
* When `Install` returns the error of the download, or the error of the
  extraction for a body that is no archive, the names of the subdirectories of
  the root are plain and the download is saved outside the root, `List`
  returns what it returned before.
* When `Install` returns a nil error, the names of the subdirectories of the
  root are plain, the last element of the download URL without `.zip` is a
  plain name `n`, every entry of the archive is named `n` or `n/...` with
  plain names, and the download is saved outside the root, then afterwards
  every subdirectory of the root has a readable `meta.json` and `List`
  succeeds. -/
theorem Install_keeps_registry (W : World) (vm : VersionManager) (o : JavaInstallOptions)
    (s : State) (javas : List JavaPackage) (hL : VersionManager.List W vm s.fs = .ok javas) :
    (∀ pkg e, (VersionManager.Install W vm o s).1 = .returned pkg (some e) →
      (∀ e1, e ≠ .wrapf "failed to download package" e1) →
      (∀ e1, e ≠ .wrapf "failed to unzip package" e1) →
      (∀ e1, e ≠ .wrapf "failed to save package metadata" e1) →
      (VersionManager.Install W vm o s).2.fs = s.fs ∧
        VersionManager.List W vm (VersionManager.Install W vm o s).2.fs = .ok javas) ∧
    (∀ pkg e A rest u, (VersionManager.Install W vm o s).1 = .returned pkg (some e) →
      (GetPackages W { o with ArchiveType := [ascii "zip"] } s).1 = .ok (A :: rest) →
      W.redirect A.ID = .response u none →
      ((∃ e1, e = .wrapf "failed to download package" e1) ∨
        ((∃ e1, e = .wrapf "failed to unzip package" e1) ∧
          ∀ es, W.fetch u ≠ .ok (.archive es))) →
      ¬ resolve W.cwd vm.DataDir <+: resolve W.cwd (Join [W.tmpDir, Base u]) →
      (∀ m ∈ subdirNames W s.fs vm.DataDir, plainName m) →
      VersionManager.List W vm (VersionManager.Install W vm o s).2.fs = .ok javas) ∧
    (∀ pkg A rest u es, (VersionManager.Install W vm o s).1 = .returned (some pkg) none →
      (GetPackages W { o with ArchiveType := [ascii "zip"] } s).1 = .ok (A :: rest) →
      W.redirect A.ID = .response u none → W.fetch u = .ok (.archive es) →
      plainName (TrimSuffix (Base u) (ascii ".zip")) →
      singleTopDir (TrimSuffix (Base u) (ascii ".zip")) es →
      ¬ resolve W.cwd vm.DataDir <+: resolve W.cwd (Join [W.tmpDir, Base u]) →
      (∀ m ∈ subdirNames W s.fs vm.DataDir, plainName m) →
      (∀ m ∈ subdirNames W (VersionManager.Install W vm o s).2.fs vm.DataDir,
        ∃ x, readStructFromJSONFile W (Join [vm.DataDir, m, ascii "meta.json"])
          (VersionManager.Install W vm o s).2.fs = .ok x) ∧
      ∃ javas1, VersionManager.List W vm (VersionManager.Install W vm o s).2.fs = .ok javas1) := by
  refine ⟨?_, ?_, ?_⟩
  · intro pkg e h h1 h2 h3
    have hfs := Install_fs_unchanged W vm o s pkg e h h1 h2 h3
    exact ⟨hfs, by rw [hfs]; exact hL⟩
  · intro pkg e A rest u herr hg hu hc htmp hnames
    exact Install_early_failure_List W vm o s javas pkg e A rest u hL herr hg hu hc htmp hnames
  · intro pkg A rest u es hok hg hred hfetch hn hes htmp hnames
    have hA : metaOK A = true := GetPackages_ok W _ s _ hg A (List.mem_cons_self _ _)
    rw [Install_cons W vm o s A rest hg] at hok ⊢
    obtain ⟨u1, hred1, -, hi⟩ := installPackage_ok_inv W vm A _ pkg hok
    have hu : u1 = u := by
      rw [hred] at hred1
      simp only [HttpResult.response.injEq, and_true] at hred1
      exact hred1.symm
    rw [hu] at hi
    rw [hi] at hok ⊢
    obtain ⟨hroot, hall⟩ := installFresh_keeps_registry W vm A _ u _ es pkg javas
      (by simpa only [State.log_fs] using hL) (by simpa only [State.log_fs] using hnames)
      hA hred hfetch hn hes htmp hok
    exact ⟨hall, List_ok_of_readable W vm _ (List_ok_root W vm s.fs javas hL).1 hroot hall⟩

/-- C20, witness: the example installation into the empty root, after which
`List` succeeds; the second call, which answers `ErrPackageAlreadyInstalled`
and leaves the file system as it is; a download that times out; and a
download whose body is no archive, which stays in `/tmp` while `List` returns
what it returned before. -/
theorem Install_keeps_registry_witness :
    (∃ javas1, VersionManager.List exWorld exVM
        (VersionManager.Install exWorld exVM {} exState).2.fs = .ok javas1) ∧
    ((VersionManager.Install exWorld exVM {}
        (VersionManager.Install exWorld exVM {} exState).2).2.fs =
        (VersionManager.Install exWorld exVM {} exState).2.fs ∧
      VersionManager.List exWorld exVM (VersionManager.Install exWorld exVM {}
        (VersionManager.Install exWorld exVM {} exState).2).2.fs =
        .ok [mkJavaPackage exWorld exVM (some exA) (ascii "zulu8")]) ∧
    VersionManager.List { exWorld with fetch := fun _ => .error (.transport "timeout") } exVM
        (VersionManager.Install { exWorld with fetch := fun _ => .error (.transport "timeout") }
          exVM {} exState).2.fs = .ok [] ∧
    VersionManager.List { exWorld with fetch := fun _ => .ok (.blob (.bytes [80, 75])) } exVM
        (VersionManager.Install { exWorld with fetch := fun _ => .ok (.blob (.bytes [80, 75])) }
          exVM {} exState).2.fs = .ok [] :=
  ⟨((Install_keeps_registry exWorld exVM {} exState [] rfl).2.2
      (mkJavaPackage exWorld exVM (some exA) (ascii "zulu8")) exA [exB]
      (ascii "https://cdn.example/zulu8.zip") exArchive rfl rfl rfl rfl (by decide)
      exArchive_singleTopDir (by decide) (by decide)).2,
    (Install_keeps_registry exWorld exVM {} (VersionManager.Install exWorld exVM {} exState).2
      [mkJavaPackage exWorld exVM (some exA) (ascii "zulu8")] rfl).1
      (some (mkJavaPackage exWorld exVM (some exA) (ascii "zulu8")))
      .ErrPackageAlreadyInstalled rfl
      (fun _ h => by cases h) (fun _ h => by cases h) (fun _ h => by cases h),
    (Install_keeps_registry { exWorld with fetch := fun _ => .error (.transport "timeout") }
      exVM {} exState [] rfl).2.1 none
      (.wrapf "failed to download package" (.transport "timeout")) exA [exB]
      (ascii "https://cdn.example/zulu8.zip") rfl rfl rfl (Or.inl ⟨_, rfl⟩) (by decide)
      (by decide),
    (Install_keeps_registry { exWorld with fetch := fun _ => .ok (.blob (.bytes [80, 75])) }
      exVM {} exState [] rfl).2.1 none
      (.wrapf "failed to unzip package" (.zipError "zip: not a valid zip file")) exA [exB]
      (ascii "https://cdn.example/zulu8.zip") rfl rfl rfl
      (Or.inr ⟨⟨_, rfl⟩, fun es h => by cases h⟩) (by decide) (by decide)⟩

end Jlib
